import Mathlib

/-!
# Verification of the Docker console reconciliation server

Shallow embedding of `console.js` (the Docker Compose control plane):
the port/IP census and fix passes of `scanAndFix`, the allocator
`allocateIps`, the compose writer `writeCompose`, the periodic `runner`,
the nginx save-with-rollback handler, the PTY active-terminal counter, the
single-run entrypoint, and the `sanitizePath` / `runCompose` path guard.

Each definition is translated from the corresponding JavaScript in
`console.js`; comments cite the line ranges they embed.  YAML
serialization (the external `yaml` package) is abstracted: manifests are
values of the `Compose` type below and file text is an opaque type `τ`
with decidable equality, with `stringify : Compose → τ` and
`parse : τ → Option Compose` as parameters (the round-trip law is an
explicit hypothesis where it is needed).
-/

namespace DockerConsole

/-! ## JavaScript primitives -/

/-- Value of a list of decimal digits, most significant first. -/
def digitsVal (ds : List Char) : Nat :=
  ds.foldl (fun a c => a * 10 + (c.toNat - '0'.toNat)) 0

/-- JavaScript `parseInt(s, 10)`: skip leading whitespace, optional sign,
then the longest prefix of decimal digits; `none` models `NaN`. -/
def jsParseInt (s : String) : Option Int :=
  let cs := s.toList.dropWhile Char.isWhitespace
  let signAndRest : Int × List Char :=
    match cs with
    | c :: t => if c = '-' then (-1, t) else if c = '+' then (1, t) else (1, c :: t)
    | [] => (1, [])
  let ds := signAndRest.2.takeWhile Char.isDigit
  if ds.isEmpty then none else some (signAndRest.1 * (digitsVal ds : Int))

/-- Decimal digit characters of `n`, most significant first, prepended to
`acc`; fuel-based so that it is structurally recursive (`natRepr` supplies
ample fuel).  This models JavaScript `String(number)` for integers. -/
def natDigitsFuel : Nat → Nat → List Char → List Char
  | 0, _, acc => acc
  | fuel + 1, n, acc =>
    if n < 10 then Nat.digitChar n :: acc
    else natDigitsFuel fuel (n / 10) (Nat.digitChar (n % 10) :: acc)

def natRepr (n : Nat) : String := String.mk (natDigitsFuel (n + 1) n [])

/-- JavaScript `String(i)` for an integer value. -/
def intRepr : Int → String
  | .ofNat m => natRepr m
  | .negSucc m => "-" ++ natRepr (m + 1)

/-- Split a character list at every occurrence of `c` (JS
`String.prototype.split` with a single-character separator). -/
def splitCharAux (c : Char) : List Char → List Char → List String
  | [], acc => [String.mk acc.reverse]
  | x :: xs, acc =>
    if x = c then String.mk acc.reverse :: splitCharAux c xs []
    else splitCharAux c xs (x :: acc)

/-- JavaScript `s.split(c)` for a one-character separator `c`:
`"".split(c) = [""]`, `":a:".split(':') = ["", "a", ""]`. -/
def jsSplit (c : Char) (s : String) : List String := splitCharAux c s.toList []

/-- JavaScript `s.split(':')`, as used on port entries. -/
def splitColon (s : String) : List String := jsSplit ':' s

/-- JavaScript `ip.split('.').slice(-1)[0]`: the last dot-separated
component of a string (`allocateIps`, console.js line 219). -/
def lastDotComponent (ip : String) : String := (jsSplit '.' ip).getLastD ""

/-- Truthiness of an optional JS string: `undefined` and `""` are falsy. -/
def jsTruthy : Option String → Bool
  | none => false
  | some s => s ≠ ""

/-! ## Allocator (`allocateIps`, console.js lines 218–225)

```js
function allocateIps(existingIps, count) {
  const used = new Set(existingIps.map(ip => ip.split('.').slice(-1)[0]));
  const ips = [];
  for (let i = 2; i < 255 && ips.length < count; i++) {
    if (!used.has(String(i))) ips.push(NETWORK.base + i);
  }
  return ips;
}
```

`NETWORK.base` is the module constant derived in `getNetworkConfig`
(default `"172.28.0."`); we pass it explicitly as `base`. -/

/-- The last-octet strings of the already-used addresses (the `used` set). -/
def usedOctets (existingIps : List String) : List String :=
  existingIps.map lastDotComponent

/-- One step of the `allocateIps` loop body. -/
def allocStep (base : String) (used : List String) (count : Nat)
    (ips : List String) (i : Nat) : List String :=
  if ips.length < count ∧ natRepr i ∉ used then ips ++ [base ++ natRepr i]
  else ips

/-- `allocateIps` translated from the source: scan `i = 2 .. 254` in order,
keeping `base + String(i)` whenever `String(i)` is not the last dotted
component of any existing address, until `count` addresses are found. -/
def allocateIps (base : String) (existingIps : List String) (count : Nat) :
    List String :=
  ((List.range 253).map (· + 2)).foldl
    (allocStep base (usedOctets existingIps) count) []

/-- The specification text's `nextIpv4`: the smallest free host octet of
the `/24` base, where "free" (as the claim words it) means the full
address `base ++ String(i)` is not a member of `existingIps`.  This
definition follows the claim's words, for comparison with `allocateIps`
(which compares last octets instead). -/
def nextIpv4Spec (base : String) (existingIps : List String) :
    Option String :=
  ((((List.range 253).map (· + 2)).filter
      (fun i => base ++ natRepr i ∉ existingIps)).head?).map
    (fun i => base ++ natRepr i)

/-- Reference form of `allocateIps`: the first `count` octets in `2 .. 254`
whose decimal string is not a used last octet. -/
def allocateIpsSpec (base : String) (existingIps : List String)
    (count : Nat) : List String :=
  ((((List.range 253).map (· + 2)).filter
      (fun i => natRepr i ∉ usedOctets existingIps)).take
    count).map (fun i => base ++ natRepr i)

theorem allocStep_foldl_full (base : String) (used : List String)
    (count : Nat) (l : List Nat) (acc : List String)
    (h : count ≤ acc.length) :
    l.foldl (allocStep base used count) acc = acc := by
  induction l with
  | nil => rfl
  | cons x xs ih =>
    rw [List.foldl_cons, allocStep, if_neg (by omega)]
    exact ih

theorem allocStep_foldl_general (base : String) (used : List String)
    (count : Nat) (l : List Nat) (acc : List String)
    (hacc : acc.length ≤ count) :
    l.foldl (allocStep base used count) acc
    = acc ++
      (((l.filter (fun i => natRepr i ∉ used)).take
        (count - acc.length)).map (fun i => base ++ natRepr i)) := by
  induction l generalizing acc with
  | nil => simp
  | cons x xs ih =>
    by_cases hu : natRepr x ∈ used
    · rw [List.foldl_cons, allocStep, if_neg (by simp [hu]), ih acc hacc,
        List.filter_cons, if_neg (by simp [hu])]
    · rcases Nat.lt_or_ge acc.length count with hlt | hge
      · rw [List.foldl_cons, allocStep, if_pos ⟨hlt, hu⟩,
          ih (acc ++ [base ++ natRepr x]) (by simp; omega),
          List.filter_cons, if_pos (by simp [hu])]
        have hck : count - acc.length = (count - (acc.length + 1)) + 1 := by
          omega
        simp [hck, List.take_succ_cons]
      · have h0 : count - acc.length = 0 := by omega
        rw [allocStep_foldl_full base used count _ acc hge, h0]
        simp

/-- `allocateIps` equals its take/filter/map characterization. -/
theorem allocateIps_eq_spec (base : String) (existingIps : List String)
    (count : Nat) :
    allocateIps base existingIps count
      = allocateIpsSpec base existingIps count := by
  unfold allocateIps allocateIpsSpec
  rw [allocStep_foldl_general base (usedOctets existingIps) count _ []
    (Nat.zero_le _)]
  simp

/-- The octet scan list `2 .. 254`, with its first two elements exposed. -/
theorem hostRange_eq :
    ((List.range 253).map (· + 2))
      = 2 :: 3 :: ((List.range 251).map (· + 4)) := by
  rw [show (253 : Nat) = 252 + 1 from rfl, List.range_succ_eq_map,
    show (252 : Nat) = 251 + 1 from rfl, List.range_succ_eq_map]
  simp [List.map_map, Function.comp]

/-- When octet `2` is blocked and octet `3` is free, `allocateIps _ _ 1`
returns `[base ++ "3"]`. -/
theorem allocateIps_blocked2 (base : String) (ips : List String)
    (h2 : "2" ∈ usedOctets ips) (h3 : "3" ∉ usedOctets ips) :
    allocateIps base ips 1 = [base ++ "3"] := by
  rw [allocateIps_eq_spec]
  unfold allocateIpsSpec
  rw [hostRange_eq, List.filter_cons, List.filter_cons]
  have e2 : natRepr 2 = "2" := rfl
  have e3 : natRepr 3 = "3" := rfl
  have hA : decide (natRepr 2 ∉ usedOctets ips) = false := by
    simp [e2, h2]
  have hB : decide (natRepr 3 ∉ usedOctets ips) = true := by
    simp [e3, h3]
  rw [hA, hB]
  simp [e3]

/-- C5 counterexample: the claim says `allocateIps` returns the smallest
host address of the base's `.2 … .254` range *that is not already used*.
With `existingIps = ["10.0.0.2"]` the address `172.28.0.2` is not already
used, yet the code skips it (it compares last octets only, and `10.0.0.2`
ends in `2`) and returns `172.28.0.3` instead. -/
theorem C5_counterexample :
    allocateIps "172.28.0." ["10.0.0.2"] 1 = ["172.28.0.3"] ∧
    nextIpv4Spec "172.28.0." ["10.0.0.2"] = some "172.28.0.2" ∧
    ("172.28.0.3" : String) ≠ "172.28.0.2" := by
  refine ⟨?_, ?_, by decide⟩
  · have h := allocateIps_blocked2 "172.28.0." ["10.0.0.2"]
      (by decide) (by decide)
    simpa using h
  · unfold nextIpv4Spec
    rw [hostRange_eq, List.filter_cons]
    have hA :
        decide (("172.28.0." ++ natRepr 2)
          ∉ (["10.0.0.2"] : List String)) = true := by decide
    rw [hA]
    simp
    rfl

/-- C5 (amended): `allocateIps` is pure and deterministic; it returns, in
increasing order, the first `count` octets `i ∈ 2 … 254` whose decimal
string differs from the *last dotted component* of every already-used
address, rendered as `base ++ String(i)`; in particular every returned
address has the form `base ++ String(i)` with `2 ≤ i ≤ 254` (never
outside that range). -/
theorem C5_allocateIps_amended (base : String) (existingIps : List String)
    (count : Nat) :
    allocateIps base existingIps count
      = allocateIpsSpec base existingIps count ∧
    ∀ ip ∈ allocateIps base existingIps count,
      ∃ i : Nat, 2 ≤ i ∧ i ≤ 254 ∧ ip = base ++ natRepr i ∧
        natRepr i ∉ usedOctets existingIps := by
  refine ⟨allocateIps_eq_spec base existingIps count, ?_⟩
  intro ip hip
  rw [allocateIps_eq_spec] at hip
  unfold allocateIpsSpec at hip
  obtain ⟨i, hi, rfl⟩ := List.mem_map.1 hip
  have hi' : i ∈ (((List.range 253).map (· + 2)).filter
      (fun i => natRepr i ∉ usedOctets existingIps)) :=
    List.mem_of_mem_take hi
  have hfilter := List.mem_filter.1 hi'
  obtain ⟨j, hj, rfl⟩ := List.mem_map.1 hfilter.1
  have hj' : j < 253 := List.mem_range.1 hj
  exact ⟨j + 2, by omega, by omega, rfl, by simpa using hfilter.2⟩

/-- C5 witness: instantiating the amended theorem at a concrete input. -/
theorem C5_witness :
    ∃ i : Nat, 2 ≤ i ∧ i ≤ 254 ∧ "172.28.0.3" = "172.28.0." ++ natRepr i ∧
      natRepr i ∉ usedOctets ["172.28.0.2"] :=
  (C5_allocateIps_amended "172.28.0." ["172.28.0.2"] 1).2 "172.28.0.3"
    (by rw [allocateIps_blocked2 "172.28.0." ["172.28.0.2"]
        (by decide) (by decide)]
        simp)

/-! ## Data model

Port entries, network attachment values, services and compose manifests,
as the reconciler sees them after `YAML.parse`.  `PortEntry.other` stands
for a YAML value that is neither a string nor a number (e.g. a mapping);
its field is the JavaScript `String()` rendering of the value (such port
objects carry no recognizable container/host fields in this domain).
`NetVal.other` stands for a network value that is neither a string nor an
object with an `ipv4_address`/`ipv4Address` field (e.g. `null` or a
number): the code treats all of those identically (skipped in the census,
untouched by the fix pass). -/

inductive PortEntry
  | str (s : String)
  | num (n : Int)
  | other (s : String)
  deriving DecidableEq

/-- JavaScript `String(p)` for a port entry. -/
def PortEntry.jsString : PortEntry → String
  | .str s => s
  | .num n => intRepr n
  | .other s => s

/-- The object form of a service network attachment. -/
structure NetObj where
  ipv4_address : Option String
  ipv4Address : Option String
  rest : List (String × String)
  deriving DecidableEq

inductive NetVal
  | str (s : String)
  | obj (o : NetObj)
  | other
  deriving DecidableEq

/-- A top-level `networks:` entry value.  `extDefault` is
`{ external: true }` (inserted at console.js line 419), `extNamed` is
`{ external: true, name }` (line 429), `nullVal` is a YAML null (falsy in
the `!obj.networks[netName]` check), `raw` is any other pre-existing
definition. -/
inductive TopNet
  | extDefault
  | extNamed (name : String)
  | nullVal
  | raw (s : String)
  deriving DecidableEq

def TopNet.jsTruthyVal : TopNet → Bool
  | .nullVal => false
  | _ => true

structure Service where
  ports : Option (List PortEntry)
  networks : Option (List (String × NetVal))
  ipv4_address : Option String
  ipv4Address : Option String
  rest : List (String × String)
  deriving DecidableEq

structure Compose where
  services : Option (List (String × Service))
  networks : Option (List (String × TopNet))
  rest : List (String × String)
  deriving DecidableEq

/-! ## Mapper values (`serviceMapper`, console.js lines 293–416)

The mapper copy of a service starts as a deep copy (JSON round-trip) of
the service; its `ports` are then forced to a string list, and network
values are selectively replaced by plain IP strings (`MapNet.ipStr`), or
the whole entry is re-copied from the live service (line 412). -/

inductive MapNet
  | fromVal (v : NetVal)
  | ipStr (s : String)
  deriving DecidableEq

structure MapperService where
  ports : Option (List String)
  networks : Option (List (String × MapNet))
  ipv4_address : Option String
  ipv4Address : Option String
  rest : List (String × String)
  deriving DecidableEq

structure MapperEntry where
  file : String
  services : List (String × MapperService)
  deriving DecidableEq

abbrev Mapper := List (String × MapperEntry)

/-- Deep copy of a service into mapper form
(`JSON.parse(JSON.stringify(svc))`, console.js lines 298 and 412; port
entries are rendered as strings — at every use site they already are
strings). -/
def mapperCopy (svc : Service) : MapperService :=
  { ports := svc.ports.map (fun ps => ps.map PortEntry.jsString)
    networks := svc.networks.map (fun l => l.map (fun p => (p.1, MapNet.fromVal p.2)))
    ipv4_address := svc.ipv4_address
    ipv4Address := svc.ipv4Address
    rest := svc.rest }

/-! ## Census state (`usedHostCounts` / `usedIpCounts` / `usedHostSet`,
console.js lines 234–236)

`ipCounts` is an insertion-ordered association list because
`allocateIps` receives `Object.keys(usedIpCounts)` — keys stay present
even when their count has been decremented to zero.  `allocFailed` is a
ghost flag, not part of the JS state: it records that some IP fix step
found a duplicate but `allocateIps` returned no address (`newIp` falsy). -/

structure Census where
  hostCounts : Int → Nat
  hostSet : List Int
  ipCounts : List (String × Nat)
  allocFailed : Bool

def emptyCensus : Census := ⟨fun _ => 0, [], [], false⟩

def getCount (m : List (String × Nat)) (k : String) : Nat :=
  match m.find? (fun p => p.1 == k) with
  | some p => p.2
  | none => 0

def setCount (m : List (String × Nat)) (k : String) (v : Nat) :
    List (String × Nat) :=
  if m.any (fun p => p.1 == k) then
    m.map (fun p => if p.1 == k then (k, v) else p)
  else m ++ [(k, v)]

def incCount (m : List (String × Nat)) (k : String) : List (String × Nat) :=
  setCount m k (getCount m k + 1)

def ipKeys (m : List (String × Nat)) : List String := m.map (·.1)

def incIp (c : Census) (k : String) : Census :=
  { c with ipCounts := incCount c.ipCounts k }

/-! ## Pass one — census (console.js lines 239–284) -/

/-- The host value the census records for a port entry (console.js lines
253–255): `parts[1]` for a three-part entry, else `parts[0]`. -/
def portCensusValue (p : PortEntry) : Option Int :=
  let parts := splitColon p.jsString
  if parts.length = 3 then jsParseInt (parts.getD 1 "")
  else jsParseInt (parts.getD 0 "")

def censusPortEntry (c : Census) (p : PortEntry) : Census :=
  match portCensusValue p with
  | some h =>
    { c with
      hostCounts := fun v => if v = h then c.hostCounts h + 1 else c.hostCounts v
      hostSet := c.hostSet ++ [h] }
  | none => c

def censusPorts (c : Census) (svc : Service) : Census :=
  match svc.ports with
  | some ps => ps.foldl censusPortEntry c
  | none => c

/-- Service-level stray `ipv4_address` / `ipv4Address` fields (console.js
lines 273–274 and 277–278). -/
def censusSvcFields (c : Census) (svc : Service) : Census :=
  let c := if jsTruthy svc.ipv4_address then incIp c (svc.ipv4_address.getD "")
           else c
  if jsTruthy svc.ipv4Address then incIp c (svc.ipv4Address.getD "") else c

/-- Census of one network attachment (console.js lines 263–275),
including the per-iteration stray-field counting at lines 273–274.
A bare-string value evaluates `isIpv4(ip)` — but `isIpv4` is not defined
at module scope in console.js (its only definition is a local constant
inside the WebSocket handler, line 2061), so the reference throws: the
step returns the census accumulated so far with `false`. -/
def censusNetPair (c : Census) (svc : Service) (nv : NetVal) : Census × Bool :=
  match nv with
  | .str _ => (c, false)
  | .obj o =>
    let c := if jsTruthy o.ipv4_address then incIp c (o.ipv4_address.getD "")
             else c
    let c := if jsTruthy o.ipv4Address then incIp c (o.ipv4Address.getD "")
             else c
    (censusSvcFields c svc, true)
  | .other => (censusSvcFields c svc, true)

/-- Fold with a crash flag: on `false` the state reached so far is kept
(the JS exception leaves prior mutations of the shared census in place). -/
def foldCrash (f : σ → α → σ × Bool) : σ → List α → σ × Bool
  | s, [] => (s, true)
  | s, x :: xs =>
    match f s x with
    | (s', true) => foldCrash f s' xs
    | (s', false) => (s', false)

def censusService (c : Census) (svc : Service) : Census × Bool :=
  let c := censusPorts c svc
  match svc.networks with
  | none => (censusSvcFields c svc, true)
  | some nets =>
    match foldCrash (fun c (p : String × NetVal) => censusNetPair c svc p.2)
        c nets with
    | (c, true) => (censusSvcFields c svc, true)
    | (c, false) => (c, false)

def censusProject (c : Census) (obj : Compose) : Census × Bool :=
  foldCrash (fun c (p : String × Service) => censusService c p.2) c
    (obj.services.getD [])

/-- Append `x` if not already present (JS `Set` insertion order). -/
def addUniq (l : List String) (x : String) : List String :=
  if x ∈ l then l else l ++ [x]

/-- Network names referenced by the services (console.js lines 247–251). -/
def projUsedNets (svcs : List (String × Service)) : List String :=
  svcs.foldl
    (fun acc p =>
      match p.2.networks with
      | some nets => nets.foldl (fun a q => addUniq a q.1) acc
      | none => acc)
    []

/-- A successfully parsed and fully censused project. -/
structure Item where
  dir : String
  obj : Compose
  usedNets : List String
  deriving DecidableEq

/-- Pass one over the workspace (console.js lines 239–284): parse each
compose file; a parse failure skips the project; a census crash keeps the
partial census but excludes the project from `composeData`. -/
def passOne {τ : Type} (parse : τ → Option Compose) (ws : List (String × τ)) :
    Census × List Item :=
  ws.foldl
    (fun acc dt =>
      match parse dt.2 with
      | none => acc
      | some obj =>
        match censusProject acc.1 obj with
        | (c', true) =>
          (c', acc.2 ++ [⟨dt.1, obj, projUsedNets (obj.services.getD [])⟩])
        | (c', false) => (c', acc.2))
    (emptyCensus, [])

/-- Deterministic ordering of `composeData` (console.js line 287,
`a.dir.localeCompare(b.dir)`; modelled with the string order). -/
def insertByDir (x : Item) : List Item → List Item
  | [] => [x]
  | y :: ys => if x.dir ≤ y.dir then x :: y :: ys else y :: insertByDir x ys

def sortByDir (l : List Item) : List Item := l.foldr insertByDir []

/-! ## Pass two — fix and write (console.js lines 289–461) -/

/-- The probe loop `while (usedHostSet.has(probe)) probe++;` (console.js
lines 318–319), with explicit fuel so that it is structurally recursive;
`probeFree` supplies enough fuel (one more than the set size). -/
def probeFrom (set : List Int) : Nat → Int → Int
  | 0, p => p
  | fuel + 1, p => if p ∈ set then probeFrom set fuel (p + 1) else p

def probeFree (set : List Int) (start : Int) : Int :=
  probeFrom set (set.length + 1) start

/-- JS `(usedHostCounts[hostPort] || 1) - 1` (console.js lines 323, 335):
on naturals this is exactly truncated subtraction by one. -/
def decHost (f : Int → Nat) (hp : Int) : Int → Nat :=
  fun v => if v = hp then f hp - 1 else f v

/-- Fix one string port entry (console.js lines 308–341): reassign the
host part when its current census count exceeds one, using the first
probe port ≥ 10000 outside `usedHostSet`. -/
def fixPortStr (c : Census) (s : String) : Census × String :=
  let parts := splitColon s
  if parts.length = 3 then
    match jsParseInt (parts.getD 1 "") with
    | some hp =>
      if c.hostCounts hp > 1 then
        let probe := probeFree c.hostSet 10000
        ({ c with
            hostSet := c.hostSet ++ [probe]
            hostCounts := decHost c.hostCounts hp },
          (parts.getD 0 "") ++ ":" ++ intRepr probe ++ ":" ++ (parts.getD 2 ""))
      else (c, s)
    | none => (c, s)
  else if parts.length = 2 then
    match jsParseInt (parts.getD 0 "") with
    | some hp =>
      if c.hostCounts hp > 1 then
        let probe := probeFree c.hostSet 10000
        ({ c with
            hostSet := c.hostSet ++ [probe]
            hostCounts := decHost c.hostCounts hp },
          intRepr probe ++ ":" ++ (parts.getD 1 ""))
      else (c, s)
    | none => (c, s)
  else (c, s)

/-- Fix one port entry: non-string entries are pushed as `String(p)`
(console.js lines 308, 342–344). -/
def fixPortEntry (c : Census) (p : PortEntry) : Census × String :=
  match p with
  | .str s => fixPortStr c s
  | p => (c, p.jsString)

/-- Fix the ports of one service (console.js lines 303–351); returns the
updated census, the service with `ports` replaced by the new string list,
and the `newPorts` list recorded in the mapper copy. -/
def fixPorts (c : Census) (svc : Service) :
    Census × Service × List String :=
  match svc.ports with
  | none => (c, svc, [])
  | some ps =>
    let st := ps.foldl
      (fun (st : Census × List String) p =>
        let r := fixPortEntry st.1 p
        (r.1, st.2 ++ [r.2]))
      (c, [])
    (st.1, { svc with ports := some (st.2.map PortEntry.str) }, st.2)

/-- JS assignment `o[k] = v` on an object modelled as an insertion-ordered
association list: replace in place if the key exists, else append. -/
def setAssoc (l : List (String × α)) (k : String) (v : α) :
    List (String × α) :=
  if l.any (fun p => p.1 == k) then
    l.map (fun p => if p.1 == k then (k, v) else p)
  else l ++ [(k, v)]

def setSvcNet (svc : Service) (nk : String) (nv : NetVal) : Service :=
  { svc with networks := svc.networks.map (fun l => setAssoc l nk nv) }

def setMapNet (m : MapperService) (nk : String) (v : MapNet) : MapperService :=
  { m with networks := m.networks.map (fun l => setAssoc l nk v) }

/-- Fix one network attachment of a service (console.js lines 355–414).
`none` models the uncaught `ReferenceError` raised by the bare-string
branch (line 360 evaluates the undefined `isIpv4`), which aborts the whole
scan; object attachments reassign a duplicated IP via `allocateIps`
(without decrementing the old count — lines 382–395 have no decrement),
update the mapper copy, and in the `ipv4Address` branch re-copy the whole
live service into the mapper (line 412). -/
def netStep (base : String) (c : Census) (svc : Service) (m : MapperService)
    (nk : String) (nv : NetVal) :
    Option (Census × Service × MapperService) :=
  match nv with
  | .str _ => none
  | .obj o =>
    if jsTruthy o.ipv4_address then
      let cur := o.ipv4_address.getD ""
      if getCount c.ipCounts cur > 1 then
        match (allocateIps base (ipKeys c.ipCounts) 1).head? with
        | some newIp =>
          let o' := if o.ipv4_address ≠ some newIp then
              { o with ipv4_address := some newIp } else o
          some ({ c with ipCounts := incCount c.ipCounts newIp },
            setSvcNet svc nk (.obj o'), setMapNet m nk (.ipStr newIp))
        | none => some ({ c with allocFailed := true }, svc, m)
      else some (c, svc, setMapNet m nk (.ipStr cur))
    else if jsTruthy o.ipv4Address then
      let cur := o.ipv4Address.getD ""
      if getCount c.ipCounts cur > 1 then
        match (allocateIps base (ipKeys c.ipCounts) 1).head? with
        | some newIp =>
          let o' := if o.ipv4Address ≠ some newIp then
              { o with ipv4Address := some newIp } else o
          let svc' := setSvcNet svc nk (.obj o')
          some ({ c with ipCounts := incCount c.ipCounts newIp },
            svc', mapperCopy svc')
        | none => some ({ c with allocFailed := true }, svc, mapperCopy svc)
      else some (c, svc, mapperCopy svc)
    else some (c, svc, m)
  | .other => some (c, svc, m)

/-- Fix one service (ports then networks; console.js lines 295–416),
producing its mapper copy. -/
def fixService (base : String) (c : Census) (svc : Service) :
    Option (Census × Service × MapperService) :=
  let r := fixPorts c svc
  let m1 : MapperService := { mapperCopy svc with ports := some r.2.2 }
  match r.2.1.networks with
  | none => some (r.1, r.2.1, m1)
  | some nets =>
    nets.foldl
      (fun acc p =>
        acc.bind (fun s => netStep base s.1 s.2.1 s.2.2 p.1 p.2))
      (some (r.1, r.2.1, m1))

/-- `if (!obj.networks) obj.networks = { 'neuxbane-core-net': { external: true } }`
(console.js line 419). -/
def ensureDefaultNetworks (obj : Compose) : Compose :=
  match obj.networks with
  | none => { obj with networks := some [("neuxbane-core-net", .extDefault)] }
  | some _ => obj

/-- Insert `{ external: true, name }` for every service-referenced network
missing (or falsy) at top level (console.js lines 421–434). -/
def augmentNetworks (usedNets : List String) (obj : Compose) : Compose :=
  usedNets.foldl
    (fun o nn =>
      match o.networks with
      | some l =>
        match l.find? (fun p => p.1 == nn) with
        | some p =>
          if p.2.jsTruthyVal then o
          else { o with networks := some (setAssoc l nn (.extNamed nn)) }
        | none => { o with networks := some (setAssoc l nn (.extNamed nn)) }
      | none => o)
    obj

/-- Prune top-level networks not referenced by any service, keeping
`neuxbane-core-net`; delete the block entirely when it becomes empty
(console.js lines 436–451). -/
def pruneNetworks (usedNets : List String) (obj : Compose) : Compose :=
  match obj.networks with
  | some l =>
    let l' := l.filter (fun p => p.1 ∈ usedNets ∨ p.1 = "neuxbane-core-net")
    if l' = [] then { obj with networks := none }
    else { obj with networks := some l' }
  | none => obj

/-- Fix one project (console.js lines 290–461, before the write). -/
def fixProject (base : String) (c : Census) (item : Item) :
    Option (Census × Compose × MapperEntry) :=
  let step := (item.obj.services.getD []).foldl
    (fun acc p =>
      acc.bind (fun s =>
        (fixService base s.1 p.2).map (fun r =>
          (r.1, s.2.1 ++ [(p.1, r.2.1)], s.2.2 ++ [(p.1, r.2.2)])))
      )
    (some (c, ([] : List (String × Service)), ([] : List (String × MapperService))))
  step.map (fun s =>
    let obj1 : Compose :=
      match item.obj.services with
      | some _ => { item.obj with services := some s.2.1 }
      | none => item.obj
    let obj2 := pruneNetworks item.usedNets
      (augmentNetworks item.usedNets (ensureDefaultNetworks obj1))
    (s.1, obj2, ⟨item.dir ++ "/docker-compose.yml", s.2.2⟩))

/-! ## Compose writer (`writeCompose`, console.js lines 124–173) -/

/-- JavaScript `s.trim()`. -/
def jsTrim (s : String) : String :=
  String.mk
    (((s.toList.dropWhile Char.isWhitespace).reverse.dropWhile
      Char.isWhitespace).reverse)

/-- The regex `/^\d+\.\d+\.\d+\.\d+$/` (console.js line 157). -/
def isIpv4Like (s : String) : Bool :=
  match jsSplit '.' s with
  | [a, b, c, d] =>
    a ≠ "" ∧ b ≠ "" ∧ c ≠ "" ∧ d ≠ "" ∧
    (a.toList.all Char.isDigit ∧ b.toList.all Char.isDigit ∧
     c.toList.all Char.isDigit ∧ d.toList.all Char.isDigit)
  | _ => false

/-- Port sanitation inside `writeCompose` (console.js lines 136–153):
strings are kept; numbers are neither strings nor objects and are
dropped; `other` stands for an object without a recognizable container
field, also dropped (line 150). -/
def sanitizePortEntry : PortEntry → Option String
  | .str s => some s
  | .num _ => none
  | .other _ => none

/-- Network canonicalization inside `writeCompose` (console.js lines
155–161): a bare string matching the IPv4 regex becomes
`{ ipv4_address: <trimmed ip> }`. -/
def sanitizeNetVal : NetVal → NetVal
  | .str s =>
    let t := jsTrim s
    if t ≠ "" ∧ isIpv4Like t then .obj ⟨some t, none, []⟩ else .str s
  | v => v

def sanitizeService (svc : Service) : Service :=
  let svc :=
    match svc.ports with
    | some ps =>
      { svc with ports := some ((ps.filterMap sanitizePortEntry).map .str) }
    | none => svc
  match svc.networks with
  | some nets =>
    { svc with networks := some (nets.map (fun p => (p.1, sanitizeNetVal p.2))) }
  | none => svc

def sanitizeCompose (obj : Compose) : Compose :=
  match obj.services with
  | some svcs =>
    { obj with services := some (svcs.map (fun p => (p.1, sanitizeService p.2))) }
  | none => obj

/-- `writeCompose` (console.js lines 124–173) with file text of an opaque
type `τ`: serialize, compare to the current content, skip when identical;
otherwise sanitize and write the re-serialized text.  Returns `some t`
when the file is written with content `t`, `none` when the write is
skipped. -/
def writeCompose {τ : Type} [DecidableEq τ] (stringify : Compose → τ)
    (cur : Option τ) (obj : Compose) : Option τ :=
  let yamlText := stringify obj
  if cur = some yamlText then none
  else some (stringify (sanitizeCompose obj))

/-! ## The tick (`scanAndFix`, console.js lines 228–485) -/

def lookupFile {τ : Type} (ws : List (String × τ)) (dir : String) :
    Option τ :=
  (ws.find? (fun p => p.1 == dir)).map (·.2)

structure TickResult (τ : Type) where
  /-- The workspace after the tick (dir ↦ compose file content). -/
  files : List (String × τ)
  /-- Directories whose compose file was actually written. -/
  writtenDirs : List String
  /-- Post-fix in-memory manifests of the processed projects, in
  processing order. -/
  fixedItems : List (String × Compose)
  /-- The mapper built by the tick; `none` when the scan crashed before
  reaching the mapper stage. -/
  mapper : Option Mapper
  /-- Whether `mapper.json` was (re)written. -/
  mapperWrote : Bool
  /-- Whether the scan aborted with an uncaught exception. -/
  crashed : Bool
  /-- Ghost: some IP fix step found no free address. -/
  allocFailed : Bool
  deriving DecidableEq

/-- One full `scanAndFix` tick over the workspace `ws` (a list of project
directories with their compose file text), given the current mapper file
content.  Pass one builds the census and `composeData`; pass two fixes
each project in sorted order and conditionally writes; finally the mapper
is written iff its serialization changed (value comparison stands in for
the byte comparison of the deterministic `JSON.stringify`). -/
def scanAndFix {τ : Type} [DecidableEq τ] (parse : τ → Option Compose)
    (stringify : Compose → τ) (base : String) (ws : List (String × τ))
    (mapperFile : Option Mapper) : TickResult τ :=
  let p1 := passOne parse ws
  let items := sortByDir p1.2
  let p2 := items.foldl
    (fun (acc : Option (Census × List (String × τ) × List String ×
        List (String × Compose) × Mapper)) item =>
      acc.bind (fun s =>
        (fixProject base s.1 item).map (fun r =>
          let wr := writeCompose stringify (lookupFile s.2.1 item.dir) r.2.1
          let files' := match wr with
            | some t => s.2.1.map (fun p => if p.1 == item.dir then (p.1, t) else p)
            | none => s.2.1
          (r.1, files',
            s.2.2.1 ++ (match wr with | some _ => [item.dir] | none => []),
            s.2.2.2.1 ++ [(item.dir, r.2.1)],
            s.2.2.2.2 ++ [(item.dir, r.2.2)]))))
    (some (p1.1, ws, [], [], []))
  match p2 with
  | some s =>
    { files := s.2.1
      writtenDirs := s.2.2.1
      fixedItems := s.2.2.2.1
      mapper := some s.2.2.2.2
      mapperWrote := mapperFile ≠ some s.2.2.2.2
      crashed := false
      allocFailed := s.1.allocFailed }
  | none =>
    -- an uncaught ReferenceError aborted the scan; the files written so
    -- far stay written, the mapper is not touched (unreachable from
    -- pass-one-filtered items, as proved below)
    { files := ws
      writtenDirs := []
      fixedItems := []
      mapper := none
      mapperWrote := false
      crashed := true
      allocFailed := false }

/-! ## The periodic runner (console.js lines 488–499, 2500–2513) -/

/-- `runner` (console.js lines 488–499): when
`typeof globalThis.activeTerminalCount === 'number'` and the value is
positive, the tick is skipped — the workspace and the mapper file are
returned untouched and the third component records that no scan ran.
Otherwise one `scanAndFix` tick executes. -/
def runner {τ : Type} [DecidableEq τ] (parse : τ → Option Compose)
    (stringify : Compose → τ) (base : String)
    (activeTerminalCount : Option Int) (ws : List (String × τ))
    (mapperFile : Option Mapper) :
    List (String × τ) × Option Mapper × Bool :=
  let run := fun (_ : Unit) =>
    let t := scanAndFix parse stringify base ws mapperFile
    (t.files, if t.mapperWrote then t.mapper else mapperFile, true)
  match activeTerminalCount with
  | some n => if n > 0 then (ws, mapperFile, false) else run ()
  | none => run ()

/-- The `runner` promise always fulfills: its `try/catch` swallows any
scan rejection and merely logs it (console.js lines 496–498). -/
def runnerOutcome (scanResult : Except String Unit) : Except String Unit :=
  match scanResult with
  | .ok _ => .ok ()
  | .error _ => .ok ()

/-- Single-run entry point (console.js lines 2500–2508):
`runner().then(() => process.exit(0)).catch(() => process.exit(1))`. -/
def singleRunExitCode (scanResult : Except String Unit) : Nat :=
  match runnerOutcome scanResult with
  | .ok _ => 0
  | .error _ => 1

/-! ## Active-terminal counter (console.js lines 1872–2233) -/

/-- `if (typeof c !== 'number') c = 0; c++` (console.js lines 1874–1875). -/
def jsIncr (c : Option Int) : Option Int :=
  match c with
  | some n => some (n + 1)
  | none => some 1

/-- `c = Math.max(0, (c || 0) - 1)` (console.js lines 1888, 1949, 2126,
2167, 2209, …). -/
def jsDecr (c : Option Int) : Option Int := some (max 0 (c.getD 0 - 1))

structure TermState where
  count : Option Int
  opened : List Nat
  closed : List Nat
  deriving DecidableEq

def initTermState : TermState := ⟨none, [], []⟩

/-- Events of the PTY multiplexer that touch the counter: a connection
that establishes a session (increment, `sessionClosed = false`), a
connection rejected before a session exists (increment then immediate
decrement, console.js lines 1884–1891), and a teardown trigger for a
session (PTY exit or socket close; the `onCloseCleanup` once-flag makes
repeats no-ops, console.js lines 2205–2211). -/
inductive TermEvent
  | connectSession (sid : Nat)
  | connectReject
  | cleanup (sid : Nat)

def termStep (s : TermState) : TermEvent → TermState
  | .connectSession sid =>
    { count := jsIncr s.count, opened := s.opened ++ [sid], closed := s.closed }
  | .connectReject => { s with count := jsDecr (jsIncr s.count) }
  | .cleanup sid =>
    if sid ∈ s.opened ∧ sid ∉ s.closed then
      { count := jsDecr s.count, opened := s.opened, closed := sid :: s.closed }
    else s

def runTrace (tr : List TermEvent) : TermState :=
  tr.foldl termStep initTermState

/-- Sessions opened and not yet torn down. -/
def activeSessions (s : TermState) : List Nat :=
  s.opened.filter (fun x => x ∉ s.closed)

/-- Session ids of the connect events of a trace. -/
def connectSids (tr : List TermEvent) : List Nat :=
  tr.filterMap (fun e =>
    match e with
    | .connectSession sid => some sid
    | _ => none)

/-! ## Nginx save-with-rollback (console.js lines 1034–1105)

File system effects are modelled on the live config content
(`Option String`, `none` = file absent) under a non-failing file system;
the outcomes of `nginx -t`, `nginx -s reload` and `systemctl reload
nginx` are parameters (`none` = success, `some stderr` = failure). -/

structure NginxSaveOut where
  /-- Content of `core/default.conf` after the call. -/
  live : Option String
  /-- Whether the timestamped `.tmp` backup file is left behind. -/
  backupRemains : Bool
  /-- HTTP status of the response. -/
  status : Nat
  /-- The `phase` field of a failure response. -/
  phase : Option String
  /-- The stderr carried inside `result` (via `formatExecError`). -/
  stderrOut : Option String
  deriving DecidableEq

def nginxSave (live : Option String) (content : String)
    (testResult reloadResult systemctlResult : Option String) :
    NginxSaveOut :=
  -- lines 1042–1051: backup the live file if it exists
  let backedUp := live.isSome
  let backup := live
  -- line 1054: write the new content in place
  let live1 : Option String := some content
  match testResult with
  | some err =>
    -- lines 1064–1070: restore from backup when there is one, delete the
    -- backup, answer 500 with phase "test" and the tool's output
    { live := if backedUp then backup else live1
      backupRemains := false
      status := 500
      phase := some "test"
      stderrOut := some err }
  | none =>
    match reloadResult with
    | none =>
      { live := live1, backupRemains := false, status := 200
        phase := none, stderrOut := none }
    | some err1 =>
      match systemctlResult with
      | none =>
        { live := live1, backupRemains := false, status := 200
          phase := none, stderrOut := none }
      | some _ =>
        -- lines 1095–1102: restore, delete backup, phase "reload" with
        -- the nginx reload error
        { live := if backedUp then backup else live1
          backupRemains := false
          status := 500
          phase := some "reload"
          stderrOut := some err1 }

/-! ## Path guard (`sanitizePath` / `runCompose`, console.js lines 51–64,
813–852)

POSIX paths are modelled as strings; the workspace root is given as its
(already normalized, absolute) segment list. -/

/-- `path.isAbsolute` (POSIX). -/
def jsIsAbsolute (s : String) : Bool :=
  match s.toList with
  | '/' :: _ => true
  | _ => false

/-- Resolve `.`/`..`/empty segments of an absolute path's segment list
(the normalization inside `path.resolve`). -/
def normSegs : List String → List String → List String
  | [], acc => acc.reverse
  | s :: rest, acc =>
    if s = "" ∨ s = "." then normSegs rest acc
    else if s = ".." then normSegs rest (acc.drop 1)
    else normSegs rest (s :: acc)

/-- `path.resolve(WORKSPACE_ROOT, inputPath)` (console.js line 55): an
absolute input stands alone, otherwise it is appended to the root; then
normalized. -/
def resolveSegs (root : List String) (input : String) : List String :=
  if jsIsAbsolute input then normSegs (jsSplit '/' input) []
  else normSegs (root ++ jsSplit '/' input) []

/-- Strip the common prefix of two segment lists. -/
def dropCommon : List String → List String → List String × List String
  | a :: as, b :: bs =>
    if a = b then dropCommon as bs else (a :: as, b :: bs)
  | as, bs => (as, bs)

/-- `path.relative(from, to)` (POSIX) on resolved segment lists: one `..`
per remaining `from` segment, then the remaining `to` segments. -/
def relativeSegs (f t : List String) : List String :=
  let p := dropCommon f t
  List.replicate p.1.length ".." ++ p.2

/-- Join relative segments with `/` (empty for equal paths). -/
def relJoin : List String → String
  | [] => ""
  | x :: xs => xs.foldl (fun a s => a ++ "/" ++ s) x

/-- JS `relative.startsWith('..')`. -/
def startsDotDot (s : String) : Bool :=
  match s.toList with
  | '.' :: '.' :: _ => true
  | _ => false

/-- `sanitizePath` (console.js lines 51–64): `null` for a missing or empty
input, and for any input whose form relative to the workspace root starts
with `..` or is absolute; otherwise the resolved path (as its segment
list). -/
def sanitizePath (root : List String) (input : Option String) :
    Option (List String) :=
  match input with
  | none => none
  | some p =>
    if p = "" then none
    else
      let resolved := resolveSegs root p
      let rel := relJoin (relativeSegs root resolved)
      if startsDotDot rel ∨ jsIsAbsolute rel then none
      else some resolved

inductive RunComposeResult
  | invalidFile
  | notFound
  | invoke (fileArg : List String)
  deriving DecidableEq

/-- The guard of `runCompose` (console.js lines 813–822): reject with
`Invalid file path` when `sanitizePath` returns null, reject with
`Compose file not found` when the sanitized path does not exist, and
otherwise invoke the compose CLI with `-f <safePath>`. -/
def runCompose (root : List String) (exists? : List String → Bool)
    (file : Option String) : RunComposeResult :=
  match sanitizePath root file with
  | none => .invalidFile
  | some safePath =>
    if exists? safePath then .invoke safePath else .notFound

/-! ## C7, C9, C6, C10 -/

/-- C7: whenever the active-terminal counter is a number greater than zero
at the start of a scheduled reconcile tick, the tick performs no action at
all: the workspace compose files and the mapper file are returned exactly
as they were (nothing is read into a fix pass, nothing is mutated) and the
scan flag is `false`. -/
theorem C7_skip_while_terminal_active {τ : Type} [DecidableEq τ]
    (parse : τ → Option Compose) (stringify : Compose → τ) (base : String)
    (n : Int) (ws : List (String × τ)) (mapperFile : Option Mapper)
    (h : 0 < n) :
    runner parse stringify base (some n) ws mapperFile
      = (ws, mapperFile, false) := by
  unfold runner
  simp [h]

/-- C7 witness: a concrete skipped tick. -/
theorem C7_witness :
    (0 : Int) < 1 ∧
    runner (fun _ : Unit => (none : Option Compose)) (fun _ => ())
      "172.28.0." (some 1) [] none = ([], none, false) :=
  ⟨by decide,
    C7_skip_while_terminal_active (fun _ : Unit => none) (fun _ => ())
      "172.28.0." 1 [] none (by decide)⟩

/-- C9: the claim says single-run mode exits 1 on a fatal reconcile
error, but `runner` swallows every scan rejection in its own `try/catch`
(console.js lines 496–498) and fulfills normally, so the `.catch` branch
of the single-run entry (lines 2505–2508) is unreachable: the process
exits 0 whether the reconcile run succeeds or fails. -/
theorem C9_singleRun_exit_code :
    singleRunExitCode (.ok ()) = 0 ∧
    singleRunExitCode (.error "EACCES: permission denied, scandir") = 0 ∧
    ∀ r : Except String Unit, singleRunExitCode r = 0 := by
  refine ⟨rfl, rfl, ?_⟩
  intro r
  cases r <;> rfl

/-- C6 counterexample: when the live proxy config did not exist before the
call and the config test fails, nothing is restored — the rejected content
stays in the live file, which therefore does not equal its (absent)
pre-call state. -/
theorem C6_counterexample :
    (nginxSave none "bad config" (some "nginx: [emerg] unknown directive")
      none none).live = some "bad config" ∧
    (nginxSave none "bad config" (some "nginx: [emerg] unknown directive")
      none none).live ≠ none := by
  exact ⟨rfl, by simp [nginxSave]⟩

/-- C6 (amended): for every save where the live proxy config existed
before the call, if the config-test step fails after the new content has
been written, the live config is restored so that it equals its pre-call
content byte-for-byte, the backup is deleted, and the response is a 500
reporting phase `"test"` with the tool's error output.  (When the live
file did not exist before the call, the rejected content is left in
place.) -/
theorem C6_nginx_save_rollback (pre content err : String)
    (reloadResult systemctlResult : Option String) :
    nginxSave (some pre) content (some err) reloadResult systemctlResult
      = ⟨some pre, false, 500, some "test", some err⟩ := rfl

/-! ### C10 helper lemmas -/

theorem dropCommon_fst_nil :
    ∀ (a b r : List String), dropCommon a b = ([], r) → b = a ++ r := by
  intro a
  induction a with
  | nil =>
    intro b r h
    simp only [dropCommon] at h
    cases h
    rfl
  | cons x xs ih =>
    intro b r h
    cases b with
    | nil => simp [dropCommon] at h
    | cons y ys =>
      by_cases hxy : x = y
      · subst hxy
        rw [dropCommon, if_pos rfl] at h
        have := ih ys r h
        simp [this]
      · rw [dropCommon, if_neg hxy] at h
        cases h

theorem startsDotDot_append (a b : String) (h : startsDotDot a = true) :
    startsDotDot (a ++ b) = true := by
  unfold startsDotDot at h ⊢
  have hd : (a ++ b).toList = a.toList ++ b.toList := by
    simp [String.toList]
  rw [hd]
  cases ha : a.toList with
  | nil => rw [ha] at h; simp at h
  | cons c t =>
    rw [ha] at h
    cases t with
    | nil => cases c; simp_all
    | cons c2 t2 =>
      simp_all only
      split at h
      · simp_all
      · cases h

theorem relJoin_foldl_startsDotDot (rest : List String) (acc : String)
    (h : startsDotDot acc = true) :
    startsDotDot (rest.foldl (fun a s => a ++ "/" ++ s) acc) = true := by
  induction rest generalizing acc with
  | nil => exact h
  | cons r rs ih =>
    exact ih _ (startsDotDot_append _ _ (startsDotDot_append _ _ h))

theorem relJoin_dotdot_cons (rest : List String) :
    startsDotDot (relJoin (".." :: rest)) = true := by
  unfold relJoin
  exact relJoin_foldl_startsDotDot rest ".." rfl

/-- If the relative form passes the guard, the root's segments are a
prefix of the resolved segments. -/
theorem sanitizePath_some_under (root : List String) (input : String)
    (segs : List String)
    (h : sanitizePath root (some input) = some segs) :
    ∃ rest, segs = root ++ rest := by
  unfold sanitizePath at h
  dsimp only at h
  by_cases hemp : input = ""
  · simp [hemp] at h
  · rw [if_neg hemp] at h
    set resolved := resolveSegs root input with hres
    by_cases hguard :
        startsDotDot (relJoin (relativeSegs root resolved)) = true
          ∨ jsIsAbsolute (relJoin (relativeSegs root resolved)) = true
    · rw [if_pos hguard] at h
      cases h
    · rw [if_neg hguard] at h
      have hsegs : segs = resolved := (Option.some.inj h).symm
      subst hsegs
      cases hfst : (dropCommon root resolved).1 with
      | nil =>
        refine ⟨(dropCommon root resolved).2, ?_⟩
        exact dropCommon_fst_nil root resolved _
          (by rw [← hfst])
      | cons x xs =>
        exfalso
        apply hguard
        left
        unfold relativeSegs
        dsimp only
        rw [hfst]
        simp only [List.length_cons, List.replicate_succ, List.cons_append]
        exact relJoin_dotdot_cons _

/-- C10: compose CLI invocations are confined to the workspace:
`sanitizePath` returns null for every escaping input (by its guard), and
then `runCompose` rejects with `Invalid file path`; whenever `runCompose`
actually invokes the CLI, the `-f` path lies inside the workspace root. -/
theorem C10_path_confinement (root : List String)
    (exists? : List String → Bool) (input : Option String) :
    (sanitizePath root input = none →
      runCompose root exists? input = .invalidFile) ∧
    (∀ segs, sanitizePath root input = some segs →
      ∃ rest, segs = root ++ rest) ∧
    (∀ f, runCompose root exists? input = .invoke f →
      ∃ rest, f = root ++ rest) := by
  refine ⟨?_, ?_, ?_⟩
  · intro h
    unfold runCompose
    rw [h]
  · intro segs h
    cases input with
    | none => simp [sanitizePath] at h
    | some p => exact sanitizePath_some_under root p segs h
  · intro f h
    unfold runCompose at h
    cases hs : sanitizePath root input with
    | none => rw [hs] at h; cases h
    | some safePath =>
      rw [hs] at h
      dsimp only at h
      by_cases he : exists? safePath = true
      · rw [if_pos he] at h
        cases h
        cases input with
        | none => simp [sanitizePath] at hs
        | some p => exact sanitizePath_some_under root p f hs
      · rw [if_neg he] at h
        cases h

/-- C10 witness: a traversal input is rejected, and an in-workspace input
resolves under the root. -/
theorem C10_witness :
    runCompose ["home", "docker"] (fun _ => true) (some "../etc/passwd")
      = .invalidFile ∧
    ∃ rest, ["home", "docker", "apps", "web"]
      = ["home", "docker"] ++ rest :=
  ⟨(C10_path_confinement ["home", "docker"] (fun _ => true)
      (some "../etc/passwd")).1 (by rfl),
    (C10_path_confinement ["home", "docker"] (fun _ => true)
      (some "apps/web")).2.1 ["home", "docker", "apps", "web"] (by rfl)⟩

/-! ## C8 — counter safety -/

/-- Invariant of the counter state: the counter (when initialized) equals
the number of opened-and-not-torn-down sessions, an uninitialized counter
means no session was ever opened, session ids are distinct, and only
opened sessions are flagged closed. -/
def TermInv (s : TermState) : Prop :=
  (s.count = none ∨ s.count = some ((activeSessions s).length : Int)) ∧
  (s.count = none → s.opened = []) ∧
  s.opened.Nodup ∧
  (∀ x ∈ s.closed, x ∈ s.opened)

theorem termInv_init : TermInv initTermState := by
  refine ⟨Or.inl rfl, fun _ => rfl, List.nodup_nil, ?_⟩
  intro x hx
  cases hx

theorem connectSids_cons_session (sid : Nat) (es : List TermEvent) :
    connectSids (.connectSession sid :: es) = sid :: connectSids es := rfl

theorem connectSids_cons_reject (es : List TermEvent) :
    connectSids (.connectReject :: es) = connectSids es := rfl

theorem connectSids_cons_cleanup (sid : Nat) (es : List TermEvent) :
    connectSids (.cleanup sid :: es) = connectSids es := rfl

theorem termStep_session_eq (s : TermState) (sid : Nat) :
    termStep s (.connectSession sid)
      = ⟨jsIncr s.count, s.opened ++ [sid], s.closed⟩ := rfl

theorem termStep_reject_eq (s : TermState) :
    termStep s .connectReject
      = { s with count := jsDecr (jsIncr s.count) } := rfl

theorem termStep_cleanup_eq (s : TermState) (sid : Nat) :
    termStep s (.cleanup sid)
      = if sid ∈ s.opened ∧ sid ∉ s.closed then
          ⟨jsDecr s.count, s.opened, sid :: s.closed⟩
        else s := rfl

theorem activeSessions_append_new (s : TermState) (sid : Nat)
    (hclosed : sid ∉ s.closed) :
    activeSessions ⟨jsIncr s.count, s.opened ++ [sid], s.closed⟩
      = activeSessions s ++ [sid] := by
  unfold activeSessions
  simp [List.filter_append, hclosed]

theorem termStep_connect_inv (s : TermState) (sid : Nat) (hs : TermInv s)
    (hnew : sid ∉ s.opened) :
    TermInv (termStep s (.connectSession sid)) := by
  obtain ⟨h1, h2, h3, h4⟩ := hs
  have hclosed : sid ∉ s.closed := fun hc => hnew (h4 sid hc)
  have hact := activeSessions_append_new s sid hclosed
  rw [termStep_session_eq]
  refine ⟨?_, ?_, ?_, ?_⟩
  · right
    rw [hact]
    rcases h1 with h1 | h1
    · have hop := h2 h1
      rw [h1]
      simp [jsIncr, activeSessions, hop]
    · rw [h1]
      simp only [jsIncr, List.length_append, List.length_singleton]
      push_cast
      ring_nf
  · intro hnone
    cases hc : s.count <;> rw [hc] at hnone <;> simp [jsIncr] at hnone
  · exact List.Nodup.append h3 (List.nodup_singleton sid)
      (by simpa using hnew)
  · intro x hx
    exact List.mem_append_left _ (h4 x hx)

theorem termStep_reject_inv (s : TermState) (hs : TermInv s) :
    TermInv (termStep s .connectReject) := by
  obtain ⟨h1, h2, h3, h4⟩ := hs
  rw [termStep_reject_eq]
  refine ⟨?_, ?_, h3, h4⟩
  · right
    rcases h1 with h1 | h1
    · have hop := h2 h1
      rw [h1]
      simp [jsIncr, jsDecr, activeSessions, hop]
    · rw [h1]
      simp only [jsIncr, jsDecr, Option.getD_some, activeSessions]
      congr 1
      omega
  · intro hnone
    cases hc : s.count <;> rw [hc] at hnone <;> simp [jsIncr, jsDecr] at hnone

theorem filter_not_mem_cons_length (l : List Nat) (sid : Nat)
    (closed : List Nat) (hnd : l.Nodup) (hmem : sid ∈ l)
    (hnc : sid ∉ closed) :
    (l.filter (fun x => x ∉ sid :: closed)).length
      = (l.filter (fun x => x ∉ closed)).length - 1 ∧
    0 < (l.filter (fun x => x ∉ closed)).length := by
  induction l with
  | nil => cases hmem
  | cons a as ih =>
    have hnd' : as.Nodup := hnd.of_cons
    by_cases ha : a = sid
    · subst ha
      have hnotas : a ∉ as := (List.nodup_cons.1 hnd).1
      have hfilter_eq :
          as.filter (fun x => x ∉ a :: closed)
            = as.filter (fun x => x ∉ closed) := by
        apply List.filter_congr
        intro x hx
        have hxa : x ≠ a := fun h => hnotas (h ▸ hx)
        simp [hxa]
      have e1 : (a :: as).filter (fun x => x ∉ a :: closed)
          = as.filter (fun x => x ∉ a :: closed) :=
        List.filter_cons_of_neg
          (by simp)
      have e2 : (a :: as).filter (fun x => x ∉ closed)
          = a :: as.filter (fun x => x ∉ closed) :=
        List.filter_cons_of_pos (decide_eq_true hnc)
      rw [e1, e2, hfilter_eq, List.length_cons]
      exact ⟨by omega, Nat.succ_pos _⟩
    · have hmem' : sid ∈ as := by
        cases hmem with
        | head => exact absurd rfl ha
        | tail _ h => exact h
      obtain ⟨ihl, ihp⟩ := ih hnd' hmem'
      by_cases hac : a ∈ closed
      · have e1 : (a :: as).filter (fun x => x ∉ sid :: closed)
            = as.filter (fun x => x ∉ sid :: closed) :=
          List.filter_cons_of_neg
            (by simp [hac])
        have e2 : (a :: as).filter (fun x => x ∉ closed)
            = as.filter (fun x => x ∉ closed) :=
          List.filter_cons_of_neg (by simp [hac])
        rw [e1, e2]
        exact ⟨ihl, ihp⟩
      · have hasid : a ≠ sid := ha
        have e1 : (a :: as).filter (fun x => x ∉ sid :: closed)
            = a :: as.filter (fun x => x ∉ sid :: closed) :=
          List.filter_cons_of_pos (decide_eq_true (by simp [hasid, hac]))
        have e2 : (a :: as).filter (fun x => x ∉ closed)
            = a :: as.filter (fun x => x ∉ closed) :=
          List.filter_cons_of_pos (decide_eq_true hac)
        rw [e1, e2, List.length_cons, List.length_cons]
        exact ⟨by omega, by omega⟩

theorem termStep_cleanup_inv (s : TermState) (sid : Nat) (hs : TermInv s) :
    TermInv (termStep s (.cleanup sid)) := by
  obtain ⟨h1, h2, h3, h4⟩ := hs
  rw [termStep_cleanup_eq]
  by_cases hc : sid ∈ s.opened ∧ sid ∉ s.closed
  · rw [if_pos hc]
    obtain ⟨hmem, hnc⟩ := hc
    have hcount : s.count = some ((activeSessions s).length : Int) := by
      rcases h1 with h1 | h1
      · exact absurd hmem (by simp [h2 h1])
      · exact h1
    obtain ⟨hlen, hpos⟩ :=
      filter_not_mem_cons_length s.opened sid s.closed h3 hmem hnc
    refine ⟨?_, ?_, h3, ?_⟩
    · right
      rw [hcount]
      have e1 : ∀ c : Option Int,
          activeSessions ⟨c, s.opened, sid :: s.closed⟩
            = s.opened.filter (fun x => x ∉ sid :: s.closed) :=
        fun _ => rfl
      have e0 : activeSessions s
          = s.opened.filter (fun x => x ∉ s.closed) := rfl
      simp only [jsDecr, Option.getD_some, e1, e0]
      congr 1
      rw [hlen]
      omega
    · intro hnone
      rw [hcount] at hnone
      simp [jsDecr] at hnone
    · intro x hx
      cases hx with
      | head => exact hmem
      | tail _ h => exact h4 x h
  · rw [if_neg hc]
    exact ⟨h1, h2, h3, h4⟩

theorem runTrace_inv_aux :
    ∀ (tr : List TermEvent) (s : TermState), TermInv s →
      (connectSids tr).Nodup →
      (∀ sid ∈ connectSids tr, sid ∉ s.opened) →
      TermInv (tr.foldl termStep s) := by
  intro tr
  induction tr with
  | nil => intro s hs _ _; exact hs
  | cons e es ih =>
    intro s hs hnd hfresh
    cases e with
    | connectSession sid =>
      rw [connectSids_cons_session] at hnd hfresh
      have hsid : sid ∉ connectSids es := (List.nodup_cons.1 hnd).1
      refine ih _
        (termStep_connect_inv s sid hs (hfresh sid (List.mem_cons_self _ _)))
        hnd.of_cons ?_
      intro sid' hsid'
      have hne : sid' ≠ sid := fun h => hsid (h ▸ hsid')
      have hnotop := hfresh sid' (List.mem_cons_of_mem _ hsid')
      rw [termStep_session_eq]
      simp [hne, hnotop]
    | connectReject =>
      rw [connectSids_cons_reject] at hnd hfresh
      exact ih _ (termStep_reject_inv s hs) hnd hfresh
    | cleanup sid =>
      rw [connectSids_cons_cleanup] at hnd hfresh
      refine ih _ (termStep_cleanup_inv s sid hs) hnd ?_
      intro sid' hsid'
      have hnotop := hfresh sid' hsid'
      rw [termStep_cleanup_eq]
      by_cases h : sid ∈ s.opened ∧ sid ∉ s.closed
      · rw [if_pos h]
        exact hnotop
      · rw [if_neg h]
        exact hnotop

theorem runTrace_inv (tr : List TermEvent)
    (h : (connectSids tr).Nodup) : TermInv (runTrace tr) := by
  refine runTrace_inv_aux tr initTermState termInv_init h ?_
  intro sid _
  simp [initTermState]

theorem termStep_cleanup_idem (s : TermState) (sid : Nat) :
    termStep (termStep s (.cleanup sid)) (.cleanup sid)
      = termStep s (.cleanup sid) := by
  by_cases h : sid ∈ s.opened ∧ sid ∉ s.closed
  · have e1 : termStep s (.cleanup sid)
        = ⟨jsDecr s.count, s.opened, sid :: s.closed⟩ := by
      rw [termStep_cleanup_eq, if_pos h]
    rw [e1, termStep_cleanup_eq]
    rw [if_neg]
    intro hcon
    exact hcon.2 (List.mem_cons_self _ _)
  · have e1 : termStep s (.cleanup sid) = s := by
      rw [termStep_cleanup_eq, if_neg h]
    rw [e1, e1]

/-- C8: for every event trace with distinct session ids, the
active-terminal counter is non-negative at all times, it always equals
the number of opened-and-not-torn-down sessions (hence returns to zero
when no sessions exist), and a session teardown decrements it exactly
once — a second PTY-exit/socket-close trigger for the same session is a
no-op thanks to the `sessionClosed` once-flag. -/
theorem C8_counter_safety (tr : List TermEvent)
    (h : (connectSids tr).Nodup) :
    0 ≤ (runTrace tr).count.getD 0 ∧
    (runTrace tr).count.getD 0
      = ((activeSessions (runTrace tr)).length : Int) ∧
    (activeSessions (runTrace tr) = [] →
      (runTrace tr).count.getD 0 = 0) ∧
    ∀ (s : TermState) (sid : Nat),
      termStep (termStep s (.cleanup sid)) (.cleanup sid)
        = termStep s (.cleanup sid) := by
  obtain ⟨h1, h2, _, _⟩ := runTrace_inv tr h
  have hcnt : (runTrace tr).count.getD 0
      = ((activeSessions (runTrace tr)).length : Int) := by
    rcases h1 with h1 | h1
    · have hop := h2 h1
      rw [h1]
      simp [activeSessions, hop]
    · rw [h1]
      rfl
  refine ⟨?_, hcnt, ?_, fun s sid => termStep_cleanup_idem s sid⟩
  · rw [hcnt]
    exact Int.ofNat_nonneg _
  · intro hempty
    rw [hcnt, hempty]
    rfl

/-- C8 witness: a concrete session trace — open, reject another
connection, tear down twice (PTY exit then socket close). -/
theorem C8_witness :
    (runTrace [.connectSession 0, .connectReject, .cleanup 0,
      .cleanup 0]).count.getD 0
      = ((activeSessions (runTrace [.connectSession 0, .connectReject,
          .cleanup 0, .cleanup 0])).length : Int) :=
  (C8_counter_safety
    [.connectSession 0, .connectReject, .cleanup 0, .cleanup 0]
    (by decide)).2.1

/-! ## C4 — bare-string IPv4 network values -/

/-- A service carrying a bare IPv4 string under a network key. -/
def c4svc : Service :=
  { ports := none
    networks := some [("neuxbane-core-net", .str "172.28.0.5")]
    ipv4_address := none
    ipv4Address := none
    rest := [("image", "nginx:alpine")] }

def c4obj : Compose :=
  { services := some [("web", c4svc)], networks := none, rest := [] }

/-- C4: the claim says a bare IPv4 string network entry is counted in the
IP census and canonicalized to `{ipv4_address: …}` while the project is
still processed.  In the code, the first bare-string network value makes
pass one evaluate `isIpv4(ip)` (console.js line 268) — but `isIpv4` is
not defined at module scope (its only definition is a local constant
inside the WebSocket handler, line 2061), so a `ReferenceError` is
thrown, caught by the per-project `catch` (line 281), and the project is
excluded from `composeData` for the tick: its IP is not counted, nothing
is canonicalized, its file is left untouched and it is absent from the
mapper.  The dead canonicalization branch at lines 357–380 and the
comments at lines 265 and 357 show the claim matches the intent. -/
theorem C4_bare_string_ip_excluded :
    (passOne (fun o : Compose => some o) [("apps/demo", c4obj)]).2 = [] ∧
    (scanAndFix (fun o : Compose => some o) id "172.28.0."
        [("apps/demo", c4obj)] none).files = [("apps/demo", c4obj)] ∧
    (scanAndFix (fun o : Compose => some o) id "172.28.0."
        [("apps/demo", c4obj)] none).writtenDirs = [] ∧
    (scanAndFix (fun o : Compose => some o) id "172.28.0."
        [("apps/demo", c4obj)] none).mapper = some [] := by
  refine ⟨rfl, rfl, rfl, rfl⟩

/-! ## Probe loop correctness -/

theorem filter_ge_succ_length_lt (set : List Int) (p : Int) (hp : p ∈ set) :
    (set.filter (fun x => p + 1 ≤ x)).length
      < (set.filter (fun x => p ≤ x)).length := by
  induction set with
  | nil => cases hp
  | cons a as ih =>
    by_cases hap : a = p
    · subst hap
      have e1 : (a :: as).filter (fun x => a + 1 ≤ x)
          = as.filter (fun x => a + 1 ≤ x) :=
        List.filter_cons_of_neg (by simp)
      have e2 : (a :: as).filter (fun x => a ≤ x)
          = a :: as.filter (fun x => a ≤ x) :=
        List.filter_cons_of_pos (by simp)
      rw [e1, e2, List.length_cons]
      have hsub : List.Sublist (as.filter (fun x => a + 1 ≤ x))
          (as.filter (fun x => a ≤ x)) := by
        apply List.monotone_filter_right
        intro x h1
        simp only [decide_eq_true_eq] at h1 ⊢
        omega
      have := hsub.length_le
      omega
    · have hp' : p ∈ as := by
        cases hp with
        | head => exact absurd rfl hap
        | tail _ h => exact h
      have ihh := ih hp'
      by_cases h1 : p + 1 ≤ a
      · have h2 : p ≤ a := by omega
        rw [List.filter_cons_of_pos (by simpa using h1),
          List.filter_cons_of_pos (by simpa using h2)]
        simpa using ihh
      · by_cases h2 : p ≤ a
        · rw [List.filter_cons_of_neg (by simpa using h1),
            List.filter_cons_of_pos (by simpa using h2)]
          simp only [List.length_cons]
          omega
        · rw [List.filter_cons_of_neg (by simpa using h1),
            List.filter_cons_of_neg (by simpa using h2)]
          exact ihh

theorem probeFrom_correct (set : List Int) :
    ∀ (fuel : Nat) (p : Int),
      (set.filter (fun x => p ≤ x)).length < fuel →
      probeFrom set fuel p ∉ set ∧ p ≤ probeFrom set fuel p ∧
        ∀ q, p ≤ q → q < probeFrom set fuel p → q ∈ set := by
  intro fuel
  induction fuel with
  | zero => intro p h; omega
  | succ n ih =>
    intro p h
    by_cases hp : p ∈ set
    · have hfuel : (set.filter (fun x => p + 1 ≤ x)).length < n := by
        have := filter_ge_succ_length_lt set p hp
        omega
      obtain ⟨h1, h2, h3⟩ := ih (p + 1) hfuel
      rw [probeFrom, if_pos hp]
      refine ⟨h1, by omega, ?_⟩
      intro q hq1 hq2
      by_cases hqp : q = p
      · subst hqp
        exact hp
      · exact h3 q (by omega) hq2
    · rw [probeFrom, if_neg hp]
      exact ⟨hp, le_refl p, fun q h1 h2 => absurd (lt_of_le_of_lt h1 h2)
        (lt_irrefl p)⟩

/-- `probeFree set start` is the least integer `≥ start` outside `set`. -/
theorem probeFree_correct (set : List Int) (start : Int) :
    probeFree set start ∉ set ∧ start ≤ probeFree set start ∧
      ∀ q, start ≤ q → q < probeFree set start → q ∈ set := by
  apply probeFrom_correct
  have := (set.filter_sublist (p := fun x => start ≤ x)).length_le
  omega

/-! ## Decimal rendering and split lemmas -/

theorem digitChar_isDigit (m : Nat) (h : m < 10) :
    (Nat.digitChar m).isDigit = true := by
  interval_cases m <;> decide

theorem digitChar_val (m : Nat) (h : m < 10) :
    (Nat.digitChar m).toNat - '0'.toNat = m := by
  interval_cases m <;> decide

theorem natDigitsFuel_all_digits :
    ∀ (fuel n : Nat) (acc : List Char), (∀ c ∈ acc, c.isDigit = true) →
      ∀ c ∈ natDigitsFuel fuel n acc, c.isDigit = true := by
  intro fuel
  induction fuel with
  | zero => intro n acc hacc; exact hacc
  | succ f ih =>
    intro n acc hacc c hc
    rw [natDigitsFuel] at hc
    by_cases h : n < 10
    · rw [if_pos h] at hc
      cases hc with
      | head => exact digitChar_isDigit n h
      | tail _ h2 => exact hacc c h2
    · rw [if_neg h] at hc
      refine ih (n / 10) _ ?_ c hc
      intro d hd
      cases hd with
      | head => exact digitChar_isDigit _ (Nat.mod_lt _ (by norm_num))
      | tail _ h2 => exact hacc d h2

theorem natDigitsFuel_ne_nil :
    ∀ (fuel n : Nat) (acc : List Char), 0 < fuel ∨ acc ≠ [] →
      natDigitsFuel fuel n acc ≠ [] := by
  intro fuel
  induction fuel with
  | zero =>
    intro n acc h
    rcases h with h | h
    · omega
    · exact h
  | succ f ih =>
    intro n acc _
    rw [natDigitsFuel]
    by_cases h : n < 10
    · rw [if_pos h]
      exact List.cons_ne_nil _ _
    · rw [if_neg h]
      exact ih _ _ (Or.inr (List.cons_ne_nil _ _))

/-- `digitsVal` starting from an accumulator. -/
def dvFrom (a : Nat) (l : List Char) : Nat :=
  l.foldl (fun a c => a * 10 + (c.toNat - '0'.toNat)) a

theorem dvFrom_eq_digitsVal (l : List Char) : dvFrom 0 l = digitsVal l := rfl

theorem natDigitsFuel_val :
    ∀ (fuel n : Nat), n < 10 ^ fuel → ∀ (acc : List Char) (a : Nat),
      ∃ k, dvFrom a (natDigitsFuel fuel n acc)
          = dvFrom (a * 10 ^ k + n) acc ∧ n < 10 ^ k := by
  intro fuel
  induction fuel with
  | zero =>
    intro n h acc a
    have hn : n = 0 := by simp at h; omega
    subst hn
    refine ⟨0, ?_, by norm_num⟩
    show dvFrom a acc = dvFrom (a * 10 ^ 0 + 0) acc
    norm_num
  | succ f ih =>
    intro n h acc a
    rw [natDigitsFuel]
    by_cases hn : n < 10
    · rw [if_pos hn]
      refine ⟨1, ?_, by simpa using hn⟩
      show dvFrom (a * 10 + _) acc = _
      rw [digitChar_val n hn]
      norm_num
    · rw [if_neg hn]
      have hdiv : n / 10 < 10 ^ f := by
        rw [pow_succ] at h
        omega
      obtain ⟨k, hk, hklt⟩ := ih (n / 10) hdiv (Nat.digitChar (n % 10) :: acc) a
      refine ⟨k + 1, ?_, ?_⟩
      · rw [hk]
        show dvFrom ((a * 10 ^ k + n / 10) * 10 + _) acc = _
        rw [digitChar_val _ (Nat.mod_lt _ (by norm_num))]
        have hmod : n / 10 * 10 + n % 10 = n := by omega
        have : (a * 10 ^ k + n / 10) * 10 + n % 10
            = a * 10 ^ (k + 1) + n := by
          calc (a * 10 ^ k + n / 10) * 10 + n % 10
              = a * (10 ^ k * 10) + (n / 10 * 10 + n % 10) := by ring
            _ = a * 10 ^ (k + 1) + n := by rw [hmod, pow_succ]
        rw [this]
      · have := Nat.div_add_mod n 10
        have h10 : n / 10 < 10 ^ k := hklt
        calc n = n / 10 * 10 + n % 10 := by omega
        _ < 10 ^ k * 10 := by omega
        _ = 10 ^ (k + 1) := by ring

theorem lt_ten_pow_succ_self (n : Nat) : n < 10 ^ (n + 1) := by
  calc n < n + 1 := Nat.lt_succ_self n
  _ ≤ 10 ^ (n + 1) := by
    induction n with
    | zero => norm_num
    | succ m ihm =>
      have : 10 ^ (m + 1 + 1) = 10 ^ (m + 1) * 10 := by ring
      omega

theorem natRepr_all_digits (n : Nat) :
    ∀ c ∈ (natRepr n).toList, c.isDigit = true := by
  intro c hc
  unfold natRepr at hc
  exact natDigitsFuel_all_digits (n + 1) n [] (by intro d hd; cases hd) c
    (by simpa using hc)

theorem natRepr_ne_nil (n : Nat) : (natRepr n).toList ≠ [] := by
  unfold natRepr
  simpa using natDigitsFuel_ne_nil (n + 1) n [] (Or.inl (Nat.succ_pos n))

theorem digitsVal_natRepr (n : Nat) : digitsVal (natRepr n).toList = n := by
  obtain ⟨k, hk, _⟩ :=
    natDigitsFuel_val (n + 1) n (lt_ten_pow_succ_self n) [] 0
  unfold natRepr
  rw [← dvFrom_eq_digitsVal]
  simpa [dvFrom] using hk

theorem isDigit_not_ws (c : Char) (h : c.isDigit = true) :
    c.isWhitespace = false := by
  rcases hws : c.isWhitespace with _ | _
  · rfl
  · exfalso
    unfold Char.isWhitespace at hws
    simp only [Bool.or_eq_true, decide_eq_true_eq] at hws
    rcases hws with ((h1 | h1) | h1) | h1 <;> (subst h1; revert h; decide)

theorem isDigit_ne_dash (c : Char) (h : c.isDigit = true) :
    c ≠ '-' ∧ c ≠ '+' := by
  constructor <;> (intro h1; subst h1; revert h; decide)

theorem dropWhile_all_false {p : Char → Bool} :
    ∀ (l : List Char), (∀ c ∈ l, p c = false) → l.dropWhile p = l := by
  intro l h
  cases l with
  | nil => rfl
  | cons c t =>
    rw [List.dropWhile_cons, h c (List.mem_cons_self _ _)]
    simp

theorem takeWhile_all_true {p : Char → Bool} :
    ∀ (l : List Char), (∀ c ∈ l, p c = true) → l.takeWhile p = l := by
  intro l
  induction l with
  | nil => intro _; rfl
  | cons c t ih =>
    intro h
    rw [List.takeWhile_cons, h c (List.mem_cons_self _ _)]
    simp only [if_true]
    rw [ih (fun d hd => h d (List.mem_cons_of_mem _ hd))]

theorem jsParseInt_all_digits (l : List Char) (hne : l ≠ [])
    (hdig : ∀ c ∈ l, c.isDigit = true) :
    jsParseInt (String.mk l) = some (digitsVal l : Int) := by
  unfold jsParseInt
  have htl : (String.mk l).toList = l := rfl
  rw [htl]
  have hdrop : l.dropWhile Char.isWhitespace = l :=
    dropWhile_all_false l (fun c hc => isDigit_not_ws c (hdig c hc))
  rw [hdrop]
  cases l with
  | nil => exact absurd rfl hne
  | cons c t =>
    have hc := hdig c (List.mem_cons_self _ _)
    obtain ⟨hd1, hd2⟩ := isDigit_ne_dash c hc
    simp only [if_neg hd1, if_neg hd2]
    have htake : (c :: t).takeWhile Char.isDigit = c :: t :=
      takeWhile_all_true _ hdig
    rw [htake]
    simp

theorem jsParseInt_natRepr (n : Nat) : jsParseInt (natRepr n) = some n := by
  have h := jsParseInt_all_digits (natRepr n).toList (natRepr_ne_nil n)
    (natRepr_all_digits n)
  rw [digitsVal_natRepr] at h
  exact h

theorem intRepr_ofNat (n : Nat) : intRepr (n : Int) = natRepr n := rfl

theorem jsParseInt_intRepr_nonneg (i : Int) (h : 0 ≤ i) :
    jsParseInt (intRepr i) = some i := by
  obtain ⟨n, rfl⟩ := Int.eq_ofNat_of_zero_le h
  rw [intRepr_ofNat, jsParseInt_natRepr]
  rfl

theorem splitCharAux_no_sep (c : Char) :
    ∀ (ys acc : List Char), (∀ x ∈ ys, x ≠ c) →
      splitCharAux c ys acc = [String.mk (acc.reverse ++ ys)] := by
  intro ys
  induction ys with
  | nil => intro acc _; simp [splitCharAux]
  | cons y t ih =>
    intro acc h
    rw [splitCharAux, if_neg (h y (List.mem_cons_self _ _)),
      ih (y :: acc) (fun x hx => h x (List.mem_cons_of_mem _ hx))]
    simp

theorem splitCharAux_sep (c : Char) :
    ∀ (xs ys acc : List Char), (∀ x ∈ xs, x ≠ c) →
      splitCharAux c (xs ++ c :: ys) acc
        = String.mk (acc.reverse ++ xs) :: splitCharAux c ys [] := by
  intro xs
  induction xs with
  | nil =>
    intro ys acc _
    rw [List.nil_append, splitCharAux, if_pos rfl]
    simp
  | cons x t ih =>
    intro ys acc h
    rw [List.cons_append, splitCharAux,
      if_neg (h x (List.mem_cons_self _ _)),
      ih ys (x :: acc) (fun d hd => h d (List.mem_cons_of_mem _ hd))]
    simp

theorem splitCharAux_components (c : Char) :
    ∀ (l acc : List Char), (∀ x ∈ acc, x ≠ c) →
      ∀ s ∈ splitCharAux c l acc, ∀ ch ∈ s.toList, ch ≠ c := by
  intro l
  induction l with
  | nil =>
    intro acc hacc s hs ch hch
    simp only [splitCharAux, List.mem_singleton] at hs
    subst hs
    simp only [String.toList, List.append_nil] at hch
    exact hacc ch (List.mem_reverse.1 hch)
  | cons x t ih =>
    intro acc hacc s hs ch hch
    rw [splitCharAux] at hs
    by_cases hx : x = c
    · rw [if_pos hx] at hs
      cases hs with
      | head =>
        simp only [String.toList] at hch
        exact hacc ch (List.mem_reverse.1 hch)
      | tail _ h2 => exact ih [] (by intro d hd; cases hd) s h2 ch hch
    · rw [if_neg hx] at hs
      refine ih (x :: acc) ?_ s hs ch hch
      intro d hd
      cases hd with
      | head => exact hx
      | tail _ h2 => exact hacc d h2

theorem jsSplit_components (c : Char) (s : String) :
    ∀ p ∈ jsSplit c s, ∀ ch ∈ p.toList, ch ≠ c := by
  intro p hp
  exact splitCharAux_components c s.toList [] (by intro d hd; cases hd) p hp

theorem toList_append (a b : String) : (a ++ b).toList = a.toList ++ b.toList := by
  simp [String.toList]

theorem mk_toList (s : String) : String.mk s.toList = s := rfl

theorem splitColon_pair (ph pc : String)
    (h1 : ∀ ch ∈ ph.toList, ch ≠ ':') (h2 : ∀ ch ∈ pc.toList, ch ≠ ':') :
    splitColon (ph ++ ":" ++ pc) = [ph, pc] := by
  unfold splitColon jsSplit
  have he : (ph ++ ":" ++ pc).toList = ph.toList ++ ':' :: pc.toList := by
    rw [toList_append, toList_append]
    simp
  rw [he, splitCharAux_sep ':' ph.toList pc.toList [] h1,
    splitCharAux_no_sep ':' pc.toList [] h2]
  simp [mk_toList]

theorem splitColon_triple (p0 pm p2 : String)
    (h0 : ∀ ch ∈ p0.toList, ch ≠ ':') (hm : ∀ ch ∈ pm.toList, ch ≠ ':')
    (h2 : ∀ ch ∈ p2.toList, ch ≠ ':') :
    splitColon (p0 ++ ":" ++ pm ++ ":" ++ p2) = [p0, pm, p2] := by
  unfold splitColon jsSplit
  have he : (p0 ++ ":" ++ pm ++ ":" ++ p2).toList
      = p0.toList ++ ':' :: (pm.toList ++ ':' :: p2.toList) := by
    rw [toList_append, toList_append, toList_append, toList_append]
    simp
  rw [he, splitCharAux_sep ':' p0.toList _ [] h0,
    splitCharAux_sep ':' pm.toList p2.toList [] hm,
    splitCharAux_no_sep ':' p2.toList [] h2]
  simp [mk_toList]

theorem natRepr_no_colon (n : Nat) : ∀ ch ∈ (natRepr n).toList, ch ≠ ':' := by
  intro ch hch h
  have := natRepr_all_digits n ch hch
  subst h
  exact absurd this (by decide)

theorem natRepr_no_dot (n : Nat) : ∀ ch ∈ (natRepr n).toList, ch ≠ '.' := by
  intro ch hch h
  have := natRepr_all_digits n ch hch
  subst h
  exact absurd this (by decide)

/-! ## Port-pass census invariant -/

/-- The census value of an output (string) port entry. -/
def strCensus (s : String) : Option Int := portCensusValue (.str s)

/-- The rewritable host of a string entry: the value the fix pass would
reassign (`parts[1]` of a three-part entry, `parts[0]` of a two-part
entry); `none` for entries the fix pass never rewrites. -/
def strHost (s : String) : Option Int :=
  let parts := splitColon s
  if parts.length = 3 then jsParseInt (parts.getD 1 "")
  else if parts.length = 2 then jsParseInt (parts.getD 0 "")
  else none

/-- A port entry is tame when, if it is an opaque non-string value, its
`String()` rendering does not look like a rewritable `host:container`
mapping.  The compose data model (`"C"`, `"H:C"`, `"B:H:C"` scalars,
numbers, and mapping-valued entries rendering as `[object Object]`)
satisfies this; only degenerate YAML such as an array holding a single
`"H:C"` string violates it. -/
def PortEntry.tame : PortEntry → Prop
  | .other s => strHost s = none
  | _ => True

theorem strHost_imp_strCensus (s : String) (h : Int)
    (hh : strHost s = some h) : strCensus s = some h := by
  unfold strHost at hh
  unfold strCensus portCensusValue
  simp only [PortEntry.jsString]
  by_cases h3 : (splitColon s).length = 3
  · rw [if_pos h3] at hh ⊢
    exact hh
  · rw [if_neg h3] at hh
    rw [if_neg h3]
    by_cases h2 : (splitColon s).length = 2
    · rw [if_pos h2] at hh
      have hcons : ∃ a b, splitColon s = [a, b] := by
        match hsp : splitColon s with
        | [a, b] => exact ⟨a, b, rfl⟩
        | [] => rw [hsp] at h2; simp at h2
        | [a] => rw [hsp] at h2; simp at h2
        | a :: b :: c :: t => rw [hsp] at h2; simp at h2
      obtain ⟨a, b, hab⟩ := hcons
      rw [hab] at hh ⊢
      exact hh
    · rw [if_neg h2] at hh
      cases hh

theorem splitColon_no_colon (s : String)
    (h : ∀ ch ∈ s.toList, ch ≠ ':') : splitColon s = [s] := by
  unfold splitColon jsSplit
  rw [splitCharAux_no_sep ':' s.toList [] h]
  simp [mk_toList]

theorem strHost_natRepr_concat_none (n : Nat) : strHost (natRepr n) = none := by
  unfold strHost
  rw [splitColon_no_colon _ (natRepr_no_colon n)]
  simp

theorem intRepr_no_colon (i : Int) : ∀ ch ∈ (intRepr i).toList, ch ≠ ':' := by
  intro ch hch
  cases i with
  | ofNat m => exact natRepr_no_colon m ch hch
  | negSucc m =>
    simp only [intRepr, toList_append] at hch
    rcases List.mem_append.1 hch with h | h
    · intro he
      subst he
      simp [String.toList] at h
    · exact natRepr_no_colon (m + 1) ch h

theorem strHost_intRepr_none (i : Int) : strHost (intRepr i) = none := by
  unfold strHost
  rw [splitColon_no_colon _ (intRepr_no_colon i)]
  simp

theorem fixPortStr_keep3_nan (c : Census) (s : String)
    (h3 : (splitColon s).length = 3)
    (hnan : jsParseInt ((splitColon s).getD 1 "") = none) :
    fixPortStr c s = (c, s) := by
  unfold fixPortStr
  dsimp only
  rw [if_pos h3, hnan]

theorem fixPortStr_keep3_le (c : Census) (s : String)
    (h3 : (splitColon s).length = 3) (hp : Int)
    (hsome : jsParseInt ((splitColon s).getD 1 "") = some hp)
    (hle : ¬ 1 < c.hostCounts hp) :
    fixPortStr c s = (c, s) := by
  unfold fixPortStr
  dsimp only
  rw [if_pos h3, hsome]
  dsimp only
  rw [if_neg hle]

theorem fixPortStr_rw3 (c : Census) (s : String)
    (h3 : (splitColon s).length = 3) (hp : Int)
    (hsome : jsParseInt ((splitColon s).getD 1 "") = some hp)
    (hgt : 1 < c.hostCounts hp) :
    fixPortStr c s
      = ({ c with
            hostSet := c.hostSet ++ [probeFree c.hostSet 10000]
            hostCounts := decHost c.hostCounts hp },
        ((splitColon s).getD 0 "") ++ ":" ++ intRepr (probeFree c.hostSet 10000)
          ++ ":" ++ ((splitColon s).getD 2 "")) := by
  unfold fixPortStr
  dsimp only
  rw [if_pos h3, hsome]
  dsimp only
  rw [if_pos hgt]

theorem fixPortStr_keep2_nan (c : Census) (s : String)
    (h3 : ¬ (splitColon s).length = 3) (h2 : (splitColon s).length = 2)
    (hnan : jsParseInt ((splitColon s).getD 0 "") = none) :
    fixPortStr c s = (c, s) := by
  unfold fixPortStr
  dsimp only
  rw [if_neg h3, if_pos h2, hnan]

theorem fixPortStr_keep2_le (c : Census) (s : String)
    (h3 : ¬ (splitColon s).length = 3) (h2 : (splitColon s).length = 2)
    (hp : Int) (hsome : jsParseInt ((splitColon s).getD 0 "") = some hp)
    (hle : ¬ 1 < c.hostCounts hp) :
    fixPortStr c s = (c, s) := by
  unfold fixPortStr
  dsimp only
  rw [if_neg h3, if_pos h2, hsome]
  dsimp only
  rw [if_neg hle]

theorem fixPortStr_rw2 (c : Census) (s : String)
    (h3 : ¬ (splitColon s).length = 3) (h2 : (splitColon s).length = 2)
    (hp : Int) (hsome : jsParseInt ((splitColon s).getD 0 "") = some hp)
    (hgt : 1 < c.hostCounts hp) :
    fixPortStr c s
      = ({ c with
            hostSet := c.hostSet ++ [probeFree c.hostSet 10000]
            hostCounts := decHost c.hostCounts hp },
        intRepr (probeFree c.hostSet 10000) ++ ":"
          ++ ((splitColon s).getD 1 "")) := by
  unfold fixPortStr
  dsimp only
  rw [if_neg h3, if_pos h2, hsome]
  dsimp only
  rw [if_pos hgt]

theorem fixPortStr_keep_other (c : Census) (s : String)
    (h3 : ¬ (splitColon s).length = 3) (h2 : ¬ (splitColon s).length = 2) :
    fixPortStr c s = (c, s) := by
  unfold fixPortStr
  dsimp only
  rw [if_neg h3, if_neg h2]

theorem probeFree_nonneg (set : List Int) :
    0 ≤ probeFree set 10000 := by
  have h := (probeFree_correct set 10000).2.1
  omega

/-- The rewritten three-part string splits back into its three parts. -/
theorem rw3_split (s : String) (a b d : String) (i : Int) (hi : 0 ≤ i)
    (hsp : splitColon s = [a, b, d]) :
    splitColon (a ++ ":" ++ intRepr i ++ ":" ++ d) = [a, intRepr i, d] := by
  have hmem : ∀ p ∈ jsSplit ':' s, ∀ ch ∈ p.toList, ch ≠ ':' :=
    jsSplit_components ':' s
  have hsp' : jsSplit ':' s = [a, b, d] := hsp
  have ha : ∀ ch ∈ a.toList, ch ≠ ':' :=
    hmem a (by rw [hsp']; simp)
  have hd : ∀ ch ∈ d.toList, ch ≠ ':' :=
    hmem d (by rw [hsp']; simp)
  exact splitColon_triple a (intRepr i) d ha (intRepr_no_colon i) hd

theorem rw2_split (s : String) (a b : String) (i : Int) (hi : 0 ≤ i)
    (hsp : splitColon s = [a, b]) :
    splitColon (intRepr i ++ ":" ++ b) = [intRepr i, b] := by
  have hmem : ∀ p ∈ jsSplit ':' s, ∀ ch ∈ p.toList, ch ≠ ':' :=
    jsSplit_components ':' s
  have hb : ∀ ch ∈ b.toList, ch ≠ ':' :=
    hmem b (by rw [show jsSplit ':' s = [a, b] from hsp]; simp)
  exact splitColon_pair (intRepr i) b (intRepr_no_colon i) hb

theorem list_len3 {α : Type} (l : List α) (h : l.length = 3) :
    ∃ a b d, l = [a, b, d] := by
  match l with
  | [a, b, d] => exact ⟨a, b, d, rfl⟩
  | [] => simp at h
  | [a] => simp at h
  | [a, b] => simp at h
  | a :: b :: c :: d :: t => simp at h

theorem list_len2 {α : Type} (l : List α) (h : l.length = 2) :
    ∃ a b, l = [a, b] := by
  match l with
  | [a, b] => exact ⟨a, b, rfl⟩
  | [] => simp at h
  | [a] => simp at h
  | a :: b :: c :: t => simp at h

/-- Characterization of one string-entry fix step: either the entry is
kept verbatim (and any rewritable host it carries has current count at
most one), or it is rewritten: the census gains the probe port in
`usedHostSet`, the old host count is decremented, and the new string's
census value and rewritable host are exactly the probe port. -/
theorem fixPortStr_spec (c : Census) (s : String) :
    (fixPortStr c s = (c, s) ∧
      ∀ hp, strHost s = some hp → c.hostCounts hp ≤ 1) ∨
    ∃ hp, strHost s = some hp ∧ 1 < c.hostCounts hp ∧
      (fixPortStr c s).1
        = { c with
            hostSet := c.hostSet ++ [probeFree c.hostSet 10000]
            hostCounts := decHost c.hostCounts hp } ∧
      strCensus (fixPortStr c s).2 = some (probeFree c.hostSet 10000) ∧
      strHost (fixPortStr c s).2 = some (probeFree c.hostSet 10000) := by
  by_cases h3 : (splitColon s).length = 3
  · cases hsome : jsParseInt ((splitColon s).getD 1 "") with
    | none =>
      left
      refine ⟨fixPortStr_keep3_nan c s h3 hsome, ?_⟩
      intro hp hh
      unfold strHost at hh
      rw [if_pos h3, hsome] at hh
      cases hh
    | some hp =>
      by_cases hgt : 1 < c.hostCounts hp
      · right
        obtain ⟨a, b, d, hab⟩ := list_len3 _ h3
        have hrw := fixPortStr_rw3 c s h3 hp hsome hgt
        have hsplit := rw3_split s a b d (probeFree c.hostSet 10000)
          (probeFree_nonneg c.hostSet) hab
        rw [hab] at hrw
        simp only [List.getD_cons_zero, List.getD_cons_succ] at hrw
        refine ⟨hp, ?_, hgt, ?_, ?_, ?_⟩
        · unfold strHost
          rw [if_pos h3, hsome]
        · rw [hrw]
        · rw [hrw]
          unfold strCensus portCensusValue
          simp only [PortEntry.jsString]
          rw [hsplit]
          norm_num
          exact jsParseInt_intRepr_nonneg _ (probeFree_nonneg c.hostSet)
        · rw [hrw]
          unfold strHost
          dsimp only
          rw [hsplit]
          norm_num
          exact jsParseInt_intRepr_nonneg _ (probeFree_nonneg c.hostSet)
      · left
        refine ⟨fixPortStr_keep3_le c s h3 hp hsome hgt, ?_⟩
        intro hp' hh
        unfold strHost at hh
        rw [if_pos h3, hsome] at hh
        cases hh
        omega
  · by_cases h2 : (splitColon s).length = 2
    · cases hsome : jsParseInt ((splitColon s).getD 0 "") with
      | none =>
        left
        refine ⟨fixPortStr_keep2_nan c s h3 h2 hsome, ?_⟩
        intro hp hh
        unfold strHost at hh
        rw [if_neg h3, if_pos h2, hsome] at hh
        cases hh
      | some hp =>
        by_cases hgt : 1 < c.hostCounts hp
        · right
          obtain ⟨a, b, hab⟩ := list_len2 _ h2
          have hrw := fixPortStr_rw2 c s h3 h2 hp hsome hgt
          have hsplit := rw2_split s a b (probeFree c.hostSet 10000)
            (probeFree_nonneg c.hostSet) hab
          rw [hab] at hrw
          simp only [List.getD_cons_zero, List.getD_cons_succ] at hrw
          refine ⟨hp, ?_, hgt, ?_, ?_, ?_⟩
          · unfold strHost
            rw [if_neg h3, if_pos h2, hsome]
          · rw [hrw]
          · rw [hrw]
            unfold strCensus portCensusValue
            simp only [PortEntry.jsString]
            rw [hsplit]
            norm_num
            exact jsParseInt_intRepr_nonneg _ (probeFree_nonneg c.hostSet)
          · rw [hrw]
            unfold strHost
            dsimp only
            rw [hsplit]
            norm_num
            exact jsParseInt_intRepr_nonneg _ (probeFree_nonneg c.hostSet)
        · left
          refine ⟨fixPortStr_keep2_le c s h3 h2 hp hsome hgt, ?_⟩
          intro hp' hh
          unfold strHost at hh
          rw [if_neg h3, if_pos h2, hsome] at hh
          cases hh
          omega
    · left
      refine ⟨fixPortStr_keep_other c s h3 h2, ?_⟩
      intro hp hh
      unfold strHost at hh
      rw [if_neg h3, if_neg h2] at hh
      cases hh

/-- Number of entries of `l` whose census value is `v`. -/
def cCount (l : List PortEntry) (v : Int) : Nat :=
  (l.filter (fun p => portCensusValue p = some v)).length

/-- Number of output strings of `l` whose census value is `v`. -/
def oCount (l : List String) (v : Int) : Nat :=
  (l.filter (fun s => strCensus s = some v)).length

theorem cCount_cons (p : PortEntry) (pending : List PortEntry) (v : Int) :
    cCount (p :: pending) v
      = (if portCensusValue p = some v then 1 else 0) + cCount pending v := by
  unfold cCount
  rw [List.filter_cons]
  by_cases h : portCensusValue p = some v
  · rw [if_pos (by simpa using h), if_pos h]
    simp [Nat.add_comm]
  · rw [if_neg (by simpa using h), if_neg h]
    simp

theorem oCount_append (outs : List String) (s : String) (v : Int) :
    oCount (outs ++ [s]) v
      = oCount outs v + (if strCensus s = some v then 1 else 0) := by
  unfold oCount
  rw [List.filter_append, List.length_append, List.filter_cons]
  by_cases h : strCensus s = some v
  · rw [if_pos (by simpa using h), if_pos h]
    simp
  · rw [if_neg (by simpa using h), if_neg h]
    simp

theorem cCount_cons_le (p : PortEntry) (pending : List PortEntry) (v : Int) :
    cCount pending v ≤ cCount (p :: pending) v := by
  rw [cCount_cons]
  omega

/-- The census accounting invariant of the port fix pass.  `set0` is the
`usedHostSet` built by pass one, `B` the base census contributions of the
crash-excluded projects, `outs` the output strings emitted so far,
`pending` the entries not yet processed. -/
structure PortInv (set0 : List Int) (B : Int → Nat) (c : Census)
    (outs : List String) (pending : List PortEntry) : Prop where
  acct : ∀ v ∈ set0, c.hostCounts v = B v + cCount pending v + oCount outs v
  out0 : ∀ v, v ∉ set0 → c.hostCounts v = 0 ∧ cCount pending v = 0 ∧ B v = 0
  setMono : ∀ v ∈ set0, v ∈ c.hostSet
  outSet : ∀ s ∈ outs, ∀ v, strCensus s = some v → v ∈ c.hostSet
  freshU : ∀ v, v ∉ set0 → oCount outs v ≤ 1
  keptU : ∀ v ∈ set0, (∃ s ∈ outs, strHost s = some v) →
    B v = 0 ∧ cCount pending v = 0 ∧ oCount outs v = 1

theorem portInv_keep (set0 : List Int) (B : Int → Nat) (c : Census)
    (outs : List String) (p : PortEntry) (pending : List PortEntry)
    (s : String) (hinv : PortInv set0 B c outs (p :: pending))
    (hcensus : strCensus s = portCensusValue p)
    (hhost : ∀ h, strHost s = some h → c.hostCounts h ≤ 1) :
    PortInv set0 B c (outs ++ [s]) pending := by
  obtain ⟨acct, out0, setMono, outSet, freshU, keptU⟩ := hinv
  have hmemv : ∀ v, portCensusValue p = some v → v ∈ set0 := by
    intro v hv
    by_contra hns
    have h0 := (out0 v hns).2.1
    rw [cCount_cons, if_pos hv] at h0
    omega
  refine ⟨?_, ?_, setMono, ?_, ?_, ?_⟩
  · intro v hv
    have ha := acct v hv
    rw [cCount_cons] at ha
    rw [oCount_append, hcensus]
    by_cases hc : portCensusValue p = some v
    · rw [if_pos hc] at ha ⊢
      omega
    · rw [if_neg hc] at ha ⊢
      omega
  · intro v hv
    obtain ⟨h1, h2, h3⟩ := out0 v hv
    exact ⟨h1, le_antisymm (le_trans (cCount_cons_le p pending v)
      (le_of_eq h2)) (Nat.zero_le _), h3⟩
  · intro t ht v hvt
    rcases List.mem_append.1 ht with h | h
    · exact outSet t h v hvt
    · have : t = s := by simpa using h
      subst this
      rw [hcensus] at hvt
      exact setMono v (hmemv v hvt)
  · intro v hv
    rw [oCount_append, hcensus]
    have h1 := freshU v hv
    by_cases hc : portCensusValue p = some v
    · exact absurd (hmemv v hc) hv
    · rw [if_neg hc]
      omega
  · intro v hv hw
    obtain ⟨t, ht, hth⟩ := hw
    rcases List.mem_append.1 ht with hmem | hmem
    · obtain ⟨hB, hcC, hoC⟩ := keptU v hv ⟨t, hmem, hth⟩
      have hpnc : ¬ portCensusValue p = some v := by
        intro hc
        rw [cCount_cons, if_pos hc] at hcC
        omega
      rw [cCount_cons, if_neg hpnc] at hcC
      refine ⟨hB, by omega, ?_⟩
      rw [oCount_append, hcensus, if_neg hpnc]
      omega
    · have hts : t = s := by simpa using hmem
      rw [hts] at hth
      have hle := hhost v hth
      have hsc : strCensus s = some v := strHost_imp_strCensus s v hth
      have hpc : portCensusValue p = some v := by rw [← hcensus]; exact hsc
      have ha := acct v hv
      rw [cCount_cons, if_pos hpc] at ha
      have hB : B v = 0 := by omega
      have hcC : cCount pending v = 0 := by omega
      have hoC : oCount outs v = 0 := by omega
      refine ⟨hB, hcC, ?_⟩
      rw [oCount_append, hsc, if_pos rfl, hoC]

theorem portInv_rewrite (set0 : List Int) (B : Int → Nat) (c : Census)
    (outs : List String) (pending : List PortEntry)
    (p : PortEntry) (hp : Int) (ns : String)
    (hinv : PortInv set0 B c outs (p :: pending))
    (hpc : portCensusValue p = some hp) (hgt : 1 < c.hostCounts hp)
    (hnsC : strCensus ns = some (probeFree c.hostSet 10000))
    (hnsH : strHost ns = some (probeFree c.hostSet 10000)) :
    PortInv set0 B
      { c with
        hostSet := c.hostSet ++ [probeFree c.hostSet 10000]
        hostCounts := decHost c.hostCounts hp }
      (outs ++ [ns]) pending := by
  obtain ⟨acct, out0, setMono, outSet, freshU, keptU⟩ := hinv
  set f := probeFree c.hostSet 10000 with hf
  have hfns : f ∉ c.hostSet := (probeFree_correct c.hostSet 10000).1
  have hfs0 : f ∉ set0 := fun h => hfns (setMono f h)
  have hhp0 : hp ∈ set0 := by
    by_contra hns
    have := (out0 hp hns).1
    omega
  have hfhp : f ≠ hp := fun h => hfs0 (h ▸ hhp0)
  have hof : oCount outs f = 0 := by
    unfold oCount
    rw [List.length_eq_zero, List.filter_eq_nil]
    intro s hs
    simp only [decide_eq_true_eq]
    intro hc
    exact hfns (outSet s hs f hc)
  refine ⟨?_, ?_, ?_, ?_, ?_, ?_⟩
  · intro v hv
    have ha := acct v hv
    rw [cCount_cons] at ha
    have hvf : v ≠ f := fun h => hfs0 (h ▸ hv)
    rw [oCount_append, hnsC, if_neg (by simpa using fun h => hvf h.symm)]
    show decHost c.hostCounts hp v = _
    unfold decHost
    by_cases hvhp : v = hp
    · subst hvhp
      rw [if_pos rfl]
      rw [if_pos hpc] at ha
      omega
    · rw [if_neg hvhp]
      rw [if_neg (fun hc => hvhp (by
        rw [hpc] at hc
        exact (Option.some.inj hc).symm))] at ha
      omega
  · intro v hv
    obtain ⟨h1, h2, h3⟩ := out0 v hv
    have hvhp : v ≠ hp := fun h => hv (h ▸ hhp0)
    refine ⟨?_, ?_, h3⟩
    · show decHost c.hostCounts hp v = 0
      unfold decHost
      rw [if_neg hvhp]
      exact h1
    · exact le_antisymm (le_trans (cCount_cons_le p pending v)
        (le_of_eq h2)) (Nat.zero_le _)
  · intro v hv
    exact List.mem_append_left _ (setMono v hv)
  · intro t ht v hvt
    rcases List.mem_append.1 ht with h | h
    · exact List.mem_append_left _ (outSet t h v hvt)
    · have : t = ns := by simpa using h
      subst this
      rw [hnsC] at hvt
      have : v = f := (Option.some.inj hvt).symm
      subst this
      exact List.mem_append_right _ (by simp)
  · intro v hv
    rw [oCount_append, hnsC]
    by_cases hvf : v = f
    · subst hvf
      rw [hof, if_pos rfl]
    · rw [if_neg (by simpa using fun h => hvf h.symm)]
      have := freshU v hv
      omega
  · intro v hv hw
    obtain ⟨t, ht, hth⟩ := hw
    rcases List.mem_append.1 ht with hmem | hmem
    · obtain ⟨hB, hcC, hoC⟩ := keptU v hv ⟨t, hmem, hth⟩
      have hvhp : ¬ portCensusValue p = some v := by
        intro hc
        rw [cCount_cons, if_pos hc] at hcC
        omega
      rw [cCount_cons, if_neg hvhp] at hcC
      refine ⟨hB, by omega, ?_⟩
      have hvf : v ≠ f := fun h => hfs0 (h ▸ hv)
      rw [oCount_append, hnsC, if_neg (by simpa using fun h => hvf h.symm)]
      omega
    · have : t = ns := by simpa using hmem
      subst this
      rw [hnsH] at hth
      have : v = f := (Option.some.inj hth).symm
      exact absurd (this ▸ hv) hfs0

/-- The rewritable host of a port entry (only string entries are ever
rewritten by the fix pass). -/
def entryHost : PortEntry → Option Int
  | .str s => strHost s
  | _ => none

theorem fixPortEntry_str (c : Census) (s : String) :
    fixPortEntry c (.str s) = fixPortStr c s := rfl

theorem fixPortEntry_inv (set0 : List Int) (B : Int → Nat) (c : Census)
    (outs : List String) (p : PortEntry) (pending : List PortEntry)
    (hinv : PortInv set0 B c outs (p :: pending)) (htame : p.tame) :
    PortInv set0 B (fixPortEntry c p).1
      (outs ++ [(fixPortEntry c p).2]) pending := by
  cases p with
  | str s =>
    rw [fixPortEntry_str]
    rcases fixPortStr_spec c s with ⟨heq, hk⟩ | ⟨hp, hh, hgt, hc', hC, hH⟩
    · rw [heq]
      exact portInv_keep set0 B c outs (.str s) pending s hinv rfl
        (fun h hsh => hk h hsh)
    · have hpc : portCensusValue (.str s) = some hp :=
        strHost_imp_strCensus s hp hh
      have h2 := portInv_rewrite set0 B c outs pending (.str s) hp
        (fixPortStr c s).2 hinv hpc hgt hC hH
      rw [hc']
      exact h2
  | num n =>
    have heq : fixPortEntry c (.num n) = (c, intRepr n) := rfl
    rw [heq]
    refine portInv_keep set0 B c outs (.num n) pending (intRepr n) hinv rfl ?_
    intro h hsh
    rw [strHost_intRepr_none n] at hsh
    cases hsh
  | other t =>
    have heq : fixPortEntry c (.other t) = (c, t) := rfl
    rw [heq]
    refine portInv_keep set0 B c outs (.other t) pending t hinv rfl ?_
    intro h hsh
    unfold PortEntry.tame at htame
    rw [htame] at hsh
    cases hsh

/-- One step of the ports fold in `fixPorts`. -/
def portStep (st : Census × List String) (p : PortEntry) :
    Census × List String :=
  let r := fixPortEntry st.1 p
  (r.1, st.2 ++ [r.2])

theorem portPass_inv (set0 : List Int) (B : Int → Nat) :
    ∀ (ps : List PortEntry) (c : Census) (outs : List String)
      (pending : List PortEntry),
      PortInv set0 B c outs (ps ++ pending) →
      (∀ p ∈ ps, p.tame) →
      PortInv set0 B (ps.foldl portStep (c, outs)).1
        (ps.foldl portStep (c, outs)).2 pending := by
  intro ps
  induction ps with
  | nil => intro c outs pending h _; exact h
  | cons p t ih =>
    intro c outs pending h htame
    rw [List.foldl_cons]
    have hstep := fixPortEntry_inv set0 B c outs p (t ++ pending)
      (by simpa using h) (htame p (List.mem_cons_self _ _))
    exact ih (fixPortEntry c p).1 (outs ++ [(fixPortEntry c p).2]) pending
      hstep (fun q hq => htame q (List.mem_cons_of_mem _ hq))

theorem portStep_eq (c : Census) (acc : List String) (p : PortEntry) :
    portStep (c, acc) p = ((fixPortEntry c p).1, acc ++ [(fixPortEntry c p).2]) := rfl

theorem foldl_portStep_append :
    ∀ (ps : List PortEntry) (c : Census) (acc : List String),
      ps.foldl portStep (c, acc)
        = ((ps.foldl portStep (c, [])).1,
            acc ++ (ps.foldl portStep (c, [])).2) := by
  intro ps
  induction ps with
  | nil => intro c acc; simp
  | cons p t ih =>
    intro c acc
    rw [List.foldl_cons, List.foldl_cons, portStep_eq, portStep_eq,
      ih (fixPortEntry c p).1 (acc ++ [(fixPortEntry c p).2]),
      ih (fixPortEntry c p).1 ([] ++ [(fixPortEntry c p).2])]
    simp

theorem portStep_counts_le (c : Census) (p : PortEntry) (v : Int) :
    (fixPortEntry c p).1.hostCounts v ≤ c.hostCounts v := by
  cases p with
  | str s =>
    rw [fixPortEntry_str]
    rcases fixPortStr_spec c s with ⟨heq, _⟩ | ⟨hp, _, _, hc', _, _⟩
    · rw [heq]
    · rw [hc']
      show decHost c.hostCounts hp v ≤ c.hostCounts v
      unfold decHost
      by_cases hv : v = hp
      · subst hv
        rw [if_pos rfl]
        omega
      · rw [if_neg hv]
  | num n => exact le_refl _
  | other t => exact le_refl _

theorem portStep_counts_pos (c : Census) (p : PortEntry) (v : Int)
    (h : 1 ≤ c.hostCounts v) :
    1 ≤ (fixPortEntry c p).1.hostCounts v := by
  cases p with
  | str s =>
    rw [fixPortEntry_str]
    rcases fixPortStr_spec c s with ⟨heq, _⟩ | ⟨hp, _, hgt, hc', _, _⟩
    · rw [heq]; exact h
    · rw [hc']
      show 1 ≤ decHost c.hostCounts hp v
      unfold decHost
      by_cases hv : v = hp
      · subst hv
        rw [if_pos rfl]
        omega
      · rw [if_neg hv]
        exact h
  | num n => exact h
  | other t => exact h

theorem portPass_counts_le (v : Int) :
    ∀ (ps : List PortEntry) (c : Census) (outs : List String),
      (ps.foldl portStep (c, outs)).1.hostCounts v ≤ c.hostCounts v := by
  intro ps
  induction ps with
  | nil => intro c outs; exact le_refl _
  | cons p t ih =>
    intro c outs
    rw [List.foldl_cons]
    exact le_trans (ih (fixPortEntry c p).1 _) (portStep_counts_le c p v)

theorem portPass_counts_pos (v : Int) :
    ∀ (ps : List PortEntry) (c : Census) (outs : List String),
      1 ≤ c.hostCounts v →
      1 ≤ (ps.foldl portStep (c, outs)).1.hostCounts v := by
  intro ps
  induction ps with
  | nil => intro c outs h; exact h
  | cons p t ih =>
    intro c outs h
    rw [List.foldl_cons]
    exact ih (fixPortEntry c p).1 _ (portStep_counts_pos c p v h)

/-! ## Flattened port entries and output strings of the tick -/

def svcEntries (svc : Service) : List PortEntry := svc.ports.getD []

def svcsEntries (svcs : List (String × Service)) : List PortEntry :=
  svcs.bind (fun p => svcEntries p.2)

def objEntries (obj : Compose) : List PortEntry :=
  svcsEntries (obj.services.getD [])

def itemsEntries (l : List Item) : List PortEntry :=
  l.bind (fun it => objEntries it.obj)

/-- The rendered port strings of a service list, in manifest order. -/
def svcsPortStrings (svcs : List (String × Service)) : List String :=
  svcs.bind (fun p => (svcEntries p.2).map PortEntry.jsString)

def objPortStrings (obj : Compose) : List String :=
  svcsPortStrings (obj.services.getD [])

def allPortStrings (l : List (String × Compose)) : List String :=
  l.bind (fun p => objPortStrings p.2)

theorem svcsEntries_cons (p : String × Service) (t : List (String × Service)) :
    svcsEntries (p :: t) = svcEntries p.2 ++ svcsEntries t := rfl

theorem svcsPortStrings_append (l1 l2 : List (String × Service)) :
    svcsPortStrings (l1 ++ l2) = svcsPortStrings l1 ++ svcsPortStrings l2 := by
  unfold svcsPortStrings
  simp

theorem allPortStrings_append (l1 l2 : List (String × Compose)) :
    allPortStrings (l1 ++ l2) = allPortStrings l1 ++ allPortStrings l2 := by
  unfold allPortStrings
  simp

theorem itemsEntries_cons (it : Item) (t : List Item) :
    itemsEntries (it :: t) = objEntries it.obj ++ itemsEntries t := rfl

/-! ## The fix pass depends only on the host part of the census -/

theorem fixPortEntry_hostAgree (c c' : Census) (p : PortEntry)
    (h1 : c'.hostCounts = c.hostCounts) (h2 : c'.hostSet = c.hostSet) :
    (fixPortEntry c' p).1.hostCounts = (fixPortEntry c p).1.hostCounts ∧
    (fixPortEntry c' p).1.hostSet = (fixPortEntry c p).1.hostSet ∧
    (fixPortEntry c' p).2 = (fixPortEntry c p).2 := by
  cases p with
  | num n => exact ⟨h1, h2, rfl⟩
  | other t => exact ⟨h1, h2, rfl⟩
  | str s =>
    rw [fixPortEntry_str, fixPortEntry_str]
    by_cases h3 : (splitColon s).length = 3
    · cases hjs : jsParseInt ((splitColon s).getD 1 "") with
      | none =>
        rw [fixPortStr_keep3_nan c s h3 hjs, fixPortStr_keep3_nan c' s h3 hjs]
        exact ⟨h1, h2, rfl⟩
      | some hp =>
        by_cases hgt : 1 < c.hostCounts hp
        · rw [fixPortStr_rw3 c s h3 hp hjs hgt,
            fixPortStr_rw3 c' s h3 hp hjs (by rw [h1]; exact hgt)]
          refine ⟨?_, ?_, ?_⟩ <;> simp [h1, h2]
        · rw [fixPortStr_keep3_le c s h3 hp hjs hgt,
            fixPortStr_keep3_le c' s h3 hp hjs (by rw [h1]; exact hgt)]
          exact ⟨h1, h2, rfl⟩
    · by_cases h2l : (splitColon s).length = 2
      · cases hjs : jsParseInt ((splitColon s).getD 0 "") with
        | none =>
          rw [fixPortStr_keep2_nan c s h3 h2l hjs,
            fixPortStr_keep2_nan c' s h3 h2l hjs]
          exact ⟨h1, h2, rfl⟩
        | some hp =>
          by_cases hgt : 1 < c.hostCounts hp
          · rw [fixPortStr_rw2 c s h3 h2l hp hjs hgt,
              fixPortStr_rw2 c' s h3 h2l hp hjs (by rw [h1]; exact hgt)]
            refine ⟨?_, ?_, ?_⟩ <;> simp [h1, h2]
          · rw [fixPortStr_keep2_le c s h3 h2l hp hjs hgt,
              fixPortStr_keep2_le c' s h3 h2l hp hjs (by rw [h1]; exact hgt)]
            exact ⟨h1, h2, rfl⟩
      · rw [fixPortStr_keep_other c s h3 h2l, fixPortStr_keep_other c' s h3 h2l]
        exact ⟨h1, h2, rfl⟩

theorem portFold_hostAgree :
    ∀ (ps : List PortEntry) (c c' : Census) (outs : List String),
      c'.hostCounts = c.hostCounts → c'.hostSet = c.hostSet →
      (ps.foldl portStep (c', outs)).1.hostCounts
          = (ps.foldl portStep (c, outs)).1.hostCounts ∧
      (ps.foldl portStep (c', outs)).1.hostSet
          = (ps.foldl portStep (c, outs)).1.hostSet ∧
      (ps.foldl portStep (c', outs)).2 = (ps.foldl portStep (c, outs)).2 := by
  intro ps
  induction ps with
  | nil => intro c c' outs h1 h2; exact ⟨h1, h2, rfl⟩
  | cons p t ih =>
    intro c c' outs h1 h2
    rw [List.foldl_cons, List.foldl_cons, portStep_eq, portStep_eq]
    obtain ⟨g1, g2, g3⟩ := fixPortEntry_hostAgree c c' p h1 h2
    rw [g3]
    exact ih (fixPortEntry c p).1 (fixPortEntry c' p).1
      (outs ++ [(fixPortEntry c p).2]) g1 g2

/-! ## Network steps do not touch the host census or the ports -/

theorem setSvcNet_ports (svc : Service) (nk : String) (nv : NetVal) :
    (setSvcNet svc nk nv).ports = svc.ports := rfl

theorem netStep_frame (base : String) (c : Census) (svc : Service)
    (m : MapperService) (nk : String) (nv : NetVal)
    (r : Census × Service × MapperService)
    (h : netStep base c svc m nk nv = some r) :
    r.1.hostCounts = c.hostCounts ∧ r.1.hostSet = c.hostSet ∧
    r.2.1.ports = svc.ports := by
  cases nv with
  | str s => exact Option.noConfusion h
  | other =>
    have h' : (c, svc, m) = r := Option.some.inj h
    rw [← h']
    exact ⟨rfl, rfl, rfl⟩
  | obj o =>
    unfold netStep at h
    dsimp only at h
    by_cases hA : jsTruthy o.ipv4_address
    · rw [if_pos hA] at h
      by_cases hgt : getCount c.ipCounts (o.ipv4_address.getD "") > 1
      · rw [if_pos hgt] at h
        cases hh : (allocateIps base (ipKeys c.ipCounts) 1).head? with
        | some newIp =>
          rw [hh] at h
          have h' := Option.some.inj h
          rw [← h']
          exact ⟨rfl, rfl, rfl⟩
        | none =>
          rw [hh] at h
          have h' := Option.some.inj h
          rw [← h']
          exact ⟨rfl, rfl, rfl⟩
      · rw [if_neg hgt] at h
        have h' := Option.some.inj h
        rw [← h']
        exact ⟨rfl, rfl, rfl⟩
    · rw [if_neg hA] at h
      by_cases hB : jsTruthy o.ipv4Address
      · rw [if_pos hB] at h
        by_cases hgt : getCount c.ipCounts (o.ipv4Address.getD "") > 1
        · rw [if_pos hgt] at h
          cases hh : (allocateIps base (ipKeys c.ipCounts) 1).head? with
          | some newIp =>
            rw [hh] at h
            have h' := Option.some.inj h
            rw [← h']
            exact ⟨rfl, rfl, rfl⟩
          | none =>
            rw [hh] at h
            have h' := Option.some.inj h
            rw [← h']
            exact ⟨rfl, rfl, rfl⟩
        · rw [if_neg hgt] at h
          have h' := Option.some.inj h
          rw [← h']
          exact ⟨rfl, rfl, rfl⟩
      · rw [if_neg hB] at h
        have h' := Option.some.inj h
        rw [← h']
        exact ⟨rfl, rfl, rfl⟩

theorem netFold_none (base : String) (nets : List (String × NetVal)) :
    nets.foldl
      (fun acc p =>
        acc.bind (fun s => netStep base s.1 s.2.1 s.2.2 p.1 p.2))
      none = none := by
  induction nets with
  | nil => rfl
  | cons p t ih => exact ih

theorem netFold_frame (base : String) :
    ∀ (nets : List (String × NetVal)) (c : Census) (svc : Service)
      (m : MapperService) (r : Census × Service × MapperService),
      nets.foldl
        (fun acc p =>
          acc.bind (fun s => netStep base s.1 s.2.1 s.2.2 p.1 p.2))
        (some (c, svc, m)) = some r →
      r.1.hostCounts = c.hostCounts ∧ r.1.hostSet = c.hostSet ∧
      r.2.1.ports = svc.ports := by
  intro nets
  induction nets with
  | nil =>
    intro c svc m r h
    have h' : (c, svc, m) = r := Option.some.inj h
    rw [← h']
    exact ⟨rfl, rfl, rfl⟩
  | cons p t ih =>
    intro c svc m r h
    rw [List.foldl_cons] at h
    rw [Option.some_bind] at h
    cases hs : netStep base c svc m p.1 p.2 with
    | none =>
      rw [hs, netFold_none] at h
      exact Option.noConfusion h
    | some s1 =>
      rw [hs] at h
      obtain ⟨c1, svc1, m1⟩ := s1
      obtain ⟨g1, g2, g3⟩ := ih c1 svc1 m1 r h
      obtain ⟨f1, f2, f3⟩ := netStep_frame base c svc m p.1 p.2 _ hs
      exact ⟨g1.trans f1, g2.trans f2, g3.trans f3⟩

/-! ## The port effect of one service and one project -/

theorem fixPorts_eq (c : Census) (svc : Service) :
    fixPorts c svc
      = match svc.ports with
        | none => (c, svc, [])
        | some ps =>
          ((ps.foldl portStep (c, [])).1,
            { svc with
              ports := some ((ps.foldl portStep (c, [])).2.map PortEntry.str) },
            (ps.foldl portStep (c, [])).2) := rfl

theorem fixService_spec (base : String) (c : Census) (svc : Service)
    (r : Census × Service × MapperService)
    (h : fixService base c svc = some r) :
    r.1.hostCounts = ((svcEntries svc).foldl portStep (c, [])).1.hostCounts ∧
    r.1.hostSet = ((svcEntries svc).foldl portStep (c, [])).1.hostSet ∧
    (svcEntries r.2.1).map PortEntry.jsString
      = ((svcEntries svc).foldl portStep (c, [])).2 := by
  unfold fixService at h
  rw [fixPorts_eq] at h
  cases hp : svc.ports with
  | none =>
    rw [hp] at h
    dsimp only at h
    have hse : svcEntries svc = [] := by unfold svcEntries; rw [hp]; rfl
    rw [hse]
    cases hn : svc.networks with
    | none =>
      rw [hn] at h
      have h' := Option.some.inj h
      rw [← h']
      refine ⟨rfl, rfl, ?_⟩
      unfold svcEntries
      rw [hp]
      rfl
    | some nets =>
      rw [hn] at h
      obtain ⟨g1, g2, g3⟩ := netFold_frame base nets c svc _ r h
      refine ⟨g1, g2, ?_⟩
      unfold svcEntries
      rw [g3, hp]
      rfl
  | some ps =>
    rw [hp] at h
    dsimp only at h
    have hse : svcEntries svc = ps := by unfold svcEntries; rw [hp]; rfl
    rw [hse]
    have hn2 : ({ svc with
        ports := some ((ps.foldl portStep (c, [])).2.map PortEntry.str)
        : Service }).networks = svc.networks := rfl
    cases hn : svc.networks with
    | none =>
      rw [hn2, hn] at h
      have h' := Option.some.inj h
      rw [← h']
      refine ⟨rfl, rfl, ?_⟩
      unfold svcEntries
      dsimp only
      rw [Option.getD_some, List.map_map]
      have hcomp : PortEntry.jsString ∘ PortEntry.str = id := rfl
      rw [hcomp, List.map_id]
    | some nets =>
      rw [hn2, hn] at h
      obtain ⟨g1, g2, g3⟩ := netFold_frame base nets _ _ _ r h
      refine ⟨g1, g2, ?_⟩
      unfold svcEntries
      rw [g3]
      dsimp only
      rw [Option.getD_some, List.map_map]
      have hcomp : PortEntry.jsString ∘ PortEntry.str = id := rfl
      rw [hcomp, List.map_id]

/-! ## The service fold of one project -/

def svcStep (base : String)
    (acc : Option (Census × List (String × Service) ×
      List (String × MapperService)))
    (p : String × Service) :
    Option (Census × List (String × Service) ×
      List (String × MapperService)) :=
  acc.bind (fun s =>
    (fixService base s.1 p.2).map (fun r =>
      (r.1, s.2.1 ++ [(p.1, r.2.1)], s.2.2 ++ [(p.1, r.2.2)])))

theorem fixProject_eq (base : String) (c : Census) (item : Item) :
    fixProject base c item
      = ((item.obj.services.getD []).foldl (svcStep base)
          (some (c, ([] : List (String × Service)),
            ([] : List (String × MapperService))))).map (fun s =>
        let obj1 : Compose :=
          match item.obj.services with
          | some _ => { item.obj with services := some s.2.1 }
          | none => item.obj
        let obj2 := pruneNetworks item.usedNets
          (augmentNetworks item.usedNets (ensureDefaultNetworks obj1))
        (s.1, obj2, ⟨item.dir ++ "/docker-compose.yml", s.2.2⟩)) := rfl

theorem svcFold_none (base : String) (svcs : List (String × Service)) :
    svcs.foldl (svcStep base) none = none := by
  induction svcs with
  | nil => rfl
  | cons p t ih => exact ih

theorem svcFold_spec (base : String) :
    ∀ (svcs : List (String × Service)) (c : Census)
      (accS : List (String × Service))
      (accM : List (String × MapperService))
      (r : Census × List (String × Service) ×
        List (String × MapperService)),
      svcs.foldl (svcStep base) (some (c, accS, accM)) = some r →
      r.1.hostCounts = ((svcsEntries svcs).foldl portStep (c, [])).1.hostCounts ∧
      r.1.hostSet = ((svcsEntries svcs).foldl portStep (c, [])).1.hostSet ∧
      svcsPortStrings r.2.1
        = svcsPortStrings accS ++ ((svcsEntries svcs).foldl portStep (c, [])).2 := by
  intro svcs
  induction svcs with
  | nil =>
    intro c accS accM r h
    have h' := Option.some.inj h
    rw [← h']
    refine ⟨rfl, rfl, ?_⟩
    have he : svcsEntries ([] : List (String × Service)) = [] := rfl
    rw [he]
    simp
  | cons p t ih =>
    intro c accS accM r h
    rw [List.foldl_cons] at h
    have hstep : svcStep base (some (c, accS, accM)) p
        = (fixService base c p.2).map (fun q =>
            (q.1, accS ++ [(p.1, q.2.1)], accM ++ [(p.1, q.2.2)])) := rfl
    rw [hstep] at h
    cases hs : fixService base c p.2 with
    | none =>
      rw [hs] at h
      rw [Option.map_none', svcFold_none] at h
      exact Option.noConfusion h
    | some s1 =>
      rw [hs, Option.map_some'] at h
      obtain ⟨c1, svc1, m1⟩ := s1
      obtain ⟨g1, g2, g3⟩ := ih c1 (accS ++ [(p.1, svc1)]) (accM ++ [(p.1, m1)]) r h
      obtain ⟨f1, f2, f3⟩ := fixService_spec base c p.2 (c1, svc1, m1) hs
      rw [svcsEntries_cons, List.foldl_append]
      have hcp := foldl_portStep_append (svcEntries p.2) c []
      rw [List.nil_append] at hcp
      set cp := (svcEntries p.2).foldl portStep (c, []) with hcpdef
      rw [hcp]
      have hagree := portFold_hostAgree (svcsEntries t) cp.1 c1 [] f1 f2
      have happ := foldl_portStep_append (svcsEntries t) cp.1 cp.2
      rw [happ]
      refine ⟨?_, ?_, ?_⟩
      · rw [g1, hagree.1]
      · rw [g2, hagree.2.1]
      · rw [g3, svcsPortStrings_append]
        have hsingle : svcsPortStrings [(p.1, svc1)]
            = (svcEntries svc1).map PortEntry.jsString := by
          unfold svcsPortStrings
          simp
        rw [hsingle, f3, hagree.2.2]
        simp

/-! ## The networks stages do not touch the services -/

theorem ensureDefaultNetworks_services (o : Compose) :
    (ensureDefaultNetworks o).services = o.services := by
  unfold ensureDefaultNetworks
  cases o.networks <;> rfl

theorem augmentNetworks_services (u : List String) :
    ∀ (o : Compose), (augmentNetworks u o).services = o.services := by
  induction u with
  | nil => intro o; rfl
  | cons nn t ih =>
    intro o
    have hcons : augmentNetworks (nn :: t) o
        = augmentNetworks t (match o.networks with
          | some l =>
            match l.find? (fun p => p.1 == nn) with
            | some p =>
              if p.2.jsTruthyVal then o
              else { o with networks := some (setAssoc l nn (.extNamed nn)) }
            | none => { o with networks := some (setAssoc l nn (.extNamed nn)) }
          | none => o) := rfl
    rw [hcons, ih]
    cases hn : o.networks with
    | none => rfl
    | some l =>
      dsimp only
      cases hf : l.find? (fun p => p.1 == nn) with
      | none => rfl
      | some p =>
        dsimp only
        by_cases ht : p.2.jsTruthyVal = true
        · rw [if_pos ht]
        · rw [if_neg ht]

theorem pruneNetworks_services (u : List String) (o : Compose) :
    (pruneNetworks u o).services = o.services := by
  unfold pruneNetworks
  cases hn : o.networks with
  | none => rfl
  | some l =>
    dsimp only
    split_ifs <;> rfl

theorem fixProject_spec (base : String) (c : Census) (item : Item)
    (r : Census × Compose × MapperEntry)
    (h : fixProject base c item = some r) :
    r.1.hostCounts = ((objEntries item.obj).foldl portStep (c, [])).1.hostCounts ∧
    r.1.hostSet = ((objEntries item.obj).foldl portStep (c, [])).1.hostSet ∧
    objPortStrings r.2.1 = ((objEntries item.obj).foldl portStep (c, [])).2 := by
  rw [fixProject_eq] at h
  cases hstep : (item.obj.services.getD []).foldl (svcStep base)
      (some (c, ([] : List (String × Service)),
        ([] : List (String × MapperService)))) with
  | none =>
    rw [hstep] at h
    exact Option.noConfusion h
  | some s =>
    rw [hstep, Option.map_some'] at h
    have h' := Option.some.inj h
    obtain ⟨g1, g2, g3⟩ := svcFold_spec base (item.obj.services.getD [])
      c [] [] s hstep
    rw [← h']
    dsimp only
    refine ⟨g1, g2, ?_⟩
    unfold objPortStrings
    rw [pruneNetworks_services, augmentNetworks_services,
      ensureDefaultNetworks_services]
    cases hsv : item.obj.services with
    | none =>
      dsimp only
      have : svcsEntries (item.obj.services.getD []) = [] := by
        rw [hsv]; rfl
      unfold objEntries
      rw [this, hsv]
      rfl
    | some svcs =>
      dsimp only
      rw [Option.getD_some]
      unfold objEntries
      rw [g3]
      simp [svcsPortStrings]

/-! ## The tick fold over the sorted projects -/

def tickStep {τ : Type} [DecidableEq τ] (stringify : Compose → τ)
    (base : String)
    (acc : Option (Census × List (String × τ) × List String ×
      List (String × Compose) × Mapper)) (item : Item) :
    Option (Census × List (String × τ) × List String ×
      List (String × Compose) × Mapper) :=
  acc.bind (fun s =>
    (fixProject base s.1 item).map (fun r =>
      let wr := writeCompose stringify (lookupFile s.2.1 item.dir) r.2.1
      let files' := match wr with
        | some t => s.2.1.map (fun p => if p.1 == item.dir then (p.1, t) else p)
        | none => s.2.1
      (r.1, files',
        s.2.2.1 ++ (match wr with | some _ => [item.dir] | none => []),
        s.2.2.2.1 ++ [(item.dir, r.2.1)],
        s.2.2.2.2 ++ [(item.dir, r.2.2)])))

theorem scanAndFix_eq {τ : Type} [DecidableEq τ] (parse : τ → Option Compose)
    (stringify : Compose → τ) (base : String) (ws : List (String × τ))
    (mapperFile : Option Mapper) :
    scanAndFix parse stringify base ws mapperFile
      = match (sortByDir (passOne parse ws).2).foldl (tickStep stringify base)
          (some ((passOne parse ws).1, ws, [], [], [])) with
        | some s =>
          { files := s.2.1
            writtenDirs := s.2.2.1
            fixedItems := s.2.2.2.1
            mapper := some s.2.2.2.2
            mapperWrote := mapperFile ≠ some s.2.2.2.2
            crashed := false
            allocFailed := s.1.allocFailed }
        | none =>
          { files := ws, writtenDirs := [], fixedItems := [], mapper := none,
            mapperWrote := false, crashed := true, allocFailed := false } := rfl

theorem tickFold_none {τ : Type} [DecidableEq τ] (stringify : Compose → τ)
    (base : String) (items : List Item) :
    items.foldl (tickStep stringify base) none = none := by
  induction items with
  | nil => rfl
  | cons it t ih => exact ih

theorem tickFold_spec {τ : Type} [DecidableEq τ] (stringify : Compose → τ)
    (base : String) :
    ∀ (items : List Item) (c : Census) (files : List (String × τ))
      (wd : List String) (fi : List (String × Compose)) (mp : Mapper)
      (s : Census × List (String × τ) × List String ×
        List (String × Compose) × Mapper),
      items.foldl (tickStep stringify base) (some (c, files, wd, fi, mp))
        = some s →
      s.1.hostCounts = ((itemsEntries items).foldl portStep (c, [])).1.hostCounts ∧
      s.1.hostSet = ((itemsEntries items).foldl portStep (c, [])).1.hostSet ∧
      allPortStrings s.2.2.2.1
        = allPortStrings fi ++ ((itemsEntries items).foldl portStep (c, [])).2 := by
  intro items
  induction items with
  | nil =>
    intro c files wd fi mp s h
    have h' := Option.some.inj h
    rw [← h']
    refine ⟨rfl, rfl, ?_⟩
    have he : itemsEntries ([] : List Item) = [] := rfl
    rw [he]
    simp
  | cons it t ih =>
    intro c files wd fi mp s h
    rw [List.foldl_cons] at h
    have hstep : tickStep stringify base (some (c, files, wd, fi, mp)) it
        = (fixProject base c it).map (fun r =>
            let wr := writeCompose stringify (lookupFile files it.dir) r.2.1
            let files' := match wr with
              | some t => files.map (fun p => if p.1 == it.dir then (p.1, t) else p)
              | none => files
            (r.1, files', wd ++ (match wr with | some _ => [it.dir] | none => []),
              fi ++ [(it.dir, r.2.1)], mp ++ [(it.dir, r.2.2)])) := rfl
    rw [hstep] at h
    cases hs : fixProject base c it with
    | none =>
      rw [hs, Option.map_none', tickFold_none] at h
      exact Option.noConfusion h
    | some r =>
      rw [hs, Option.map_some'] at h
      obtain ⟨g1, g2, g3⟩ := ih r.1 _ _ (fi ++ [(it.dir, r.2.1)]) _ s h
      obtain ⟨f1, f2, f3⟩ := fixProject_spec base c it r hs
      rw [itemsEntries_cons, List.foldl_append]
      have hcp := foldl_portStep_append (objEntries it.obj) c []
      rw [List.nil_append] at hcp
      set cp := (objEntries it.obj).foldl portStep (c, []) with hcpdef
      rw [hcp]
      have hagree := portFold_hostAgree (itemsEntries t) cp.1 r.1 [] f1 f2
      have happ := foldl_portStep_append (itemsEntries t) cp.1 cp.2
      rw [happ]
      refine ⟨?_, ?_, ?_⟩
      · rw [g1, hagree.1]
      · rw [g2, hagree.2.1]
      · rw [g3, allPortStrings_append]
        have hsingle : allPortStrings [(it.dir, r.2.1)] = objPortStrings r.2.1 := by
          unfold allPortStrings
          simp
        rw [hsingle, f3, hagree.2.2]
        simp

/-! ## Pass-one census accounting -/

/-- Every host with a positive count is a member of `usedHostSet`. -/
def CensusOK (c : Census) : Prop :=
  ∀ v, 0 < c.hostCounts v → v ∈ c.hostSet

theorem cCount_append (l1 l2 : List PortEntry) (v : Int) :
    cCount (l1 ++ l2) v = cCount l1 v + cCount l2 v := by
  unfold cCount
  rw [List.filter_append, List.length_append]

theorem itemsEntries_append (l1 l2 : List Item) :
    itemsEntries (l1 ++ l2) = itemsEntries l1 ++ itemsEntries l2 := by
  unfold itemsEntries
  simp

theorem censusPortEntry_counts (c : Census) (p : PortEntry) (v : Int) :
    (censusPortEntry c p).hostCounts v
      = c.hostCounts v + (if portCensusValue p = some v then 1 else 0) := by
  unfold censusPortEntry
  cases hc : portCensusValue p with
  | none => simp
  | some h =>
    dsimp only
    by_cases hv : v = h
    · subst hv
      simp
    · rw [if_neg hv, if_neg (by simpa using fun he => hv he.symm)]
      simp

theorem censusPortEntry_ok (c : Census) (p : PortEntry) (h : CensusOK c) :
    CensusOK (censusPortEntry c p) := by
  unfold censusPortEntry
  cases hc : portCensusValue p with
  | none => exact h
  | some hh =>
    intro v hv
    dsimp only at hv ⊢
    by_cases hvh : v = hh
    · subst hvh
      simp
    · rw [if_neg hvh] at hv
      exact List.mem_append_left _ (h v hv)

theorem censusPortFold_counts :
    ∀ (ps : List PortEntry) (c : Census) (v : Int),
      (ps.foldl censusPortEntry c).hostCounts v = c.hostCounts v + cCount ps v := by
  intro ps
  induction ps with
  | nil => intro c v; simp [cCount]
  | cons p t ih =>
    intro c v
    rw [List.foldl_cons, ih, censusPortEntry_counts, cCount_cons]
    omega

theorem censusPortFold_ok :
    ∀ (ps : List PortEntry) (c : Census), CensusOK c →
      CensusOK (ps.foldl censusPortEntry c) := by
  intro ps
  induction ps with
  | nil => intro c h; exact h
  | cons p t ih =>
    intro c h
    exact ih _ (censusPortEntry_ok c p h)

theorem censusPorts_counts (c : Census) (svc : Service) (v : Int) :
    (censusPorts c svc).hostCounts v
      = c.hostCounts v + cCount (svcEntries svc) v := by
  unfold censusPorts svcEntries
  cases hp : svc.ports with
  | none => simp [cCount]
  | some ps =>
    rw [Option.getD_some]
    exact censusPortFold_counts ps c v

theorem censusPorts_ok (c : Census) (svc : Service) (h : CensusOK c) :
    CensusOK (censusPorts c svc) := by
  unfold censusPorts
  cases hp : svc.ports with
  | none => exact h
  | some ps => exact censusPortFold_ok ps c h

theorem censusSvcFields_host (c : Census) (svc : Service) :
    (censusSvcFields c svc).hostCounts = c.hostCounts ∧
    (censusSvcFields c svc).hostSet = c.hostSet := by
  unfold censusSvcFields
  split_ifs <;> exact ⟨rfl, rfl⟩

theorem censusNetPair_host (c : Census) (svc : Service) (nv : NetVal) :
    (censusNetPair c svc nv).1.hostCounts = c.hostCounts ∧
    (censusNetPair c svc nv).1.hostSet = c.hostSet := by
  cases nv with
  | str s => exact ⟨rfl, rfl⟩
  | other => exact censusSvcFields_host c svc
  | obj o =>
    unfold censusNetPair
    dsimp only
    constructor
    · rw [(censusSvcFields_host _ svc).1]
      split_ifs <;> rfl
    · rw [(censusSvcFields_host _ svc).2]
      split_ifs <;> rfl

theorem netPairFold_host (svc : Service) :
    ∀ (nets : List (String × NetVal)) (c : Census),
      (foldCrash (fun c (p : String × NetVal) => censusNetPair c svc p.2)
        c nets).1.hostCounts = c.hostCounts ∧
      (foldCrash (fun c (p : String × NetVal) => censusNetPair c svc p.2)
        c nets).1.hostSet = c.hostSet := by
  intro nets
  induction nets with
  | nil => intro c; exact ⟨rfl, rfl⟩
  | cons p t ih =>
    intro c
    rw [foldCrash]
    cases hf : censusNetPair c svc p.2 with
    | mk c1 b =>
      have hb := censusNetPair_host c svc p.2
      rw [hf] at hb
      cases b with
      | true =>
        dsimp only
        exact ⟨(ih c1).1.trans hb.1, (ih c1).2.trans hb.2⟩
      | false => exact hb

theorem censusService_counts (c : Census) (svc : Service) (v : Int) :
    (censusService c svc).1.hostCounts v
      = c.hostCounts v + cCount (svcEntries svc) v := by
  unfold censusService
  dsimp only
  cases hn : svc.networks with
  | none =>
    dsimp only
    rw [(censusSvcFields_host _ svc).1]
    exact censusPorts_counts c svc v
  | some nets =>
    dsimp only
    cases hf : foldCrash (fun c (p : String × NetVal) => censusNetPair c svc p.2)
        (censusPorts c svc) nets with
    | mk c1 b =>
      have hh := netPairFold_host svc nets (censusPorts c svc)
      rw [hf] at hh
      have h1 : c1.hostCounts = (censusPorts c svc).hostCounts := hh.1
      cases b with
      | true =>
        dsimp only
        rw [(censusSvcFields_host _ svc).1, h1]
        exact censusPorts_counts c svc v
      | false =>
        dsimp only
        rw [h1]
        exact censusPorts_counts c svc v

theorem censusService_ok (c : Census) (svc : Service) (h : CensusOK c) :
    CensusOK (censusService c svc).1 := by
  have hset : (censusService c svc).1.hostSet = (censusPorts c svc).hostSet := by
    unfold censusService
    dsimp only
    cases hn : svc.networks with
    | none =>
      dsimp only
      exact (censusSvcFields_host _ svc).2
    | some nets =>
      dsimp only
      cases hf : foldCrash (fun c (p : String × NetVal) => censusNetPair c svc p.2)
          (censusPorts c svc) nets with
      | mk c1 b =>
        have hh := netPairFold_host svc nets (censusPorts c svc)
        rw [hf] at hh
        have h2 : c1.hostSet = (censusPorts c svc).hostSet := hh.2
        cases b with
        | true =>
          dsimp only
          exact (censusSvcFields_host _ svc).2.trans h2
        | false => exact h2
  have hcounts : ∀ v, (censusService c svc).1.hostCounts v
      = (censusPorts c svc).hostCounts v := by
    intro v
    rw [censusService_counts, censusPorts_counts]
  intro v hv
  rw [hcounts v] at hv
  rw [hset]
  exact censusPorts_ok c svc h v hv

theorem svcCrashFold_spec :
    ∀ (svcs : List (String × Service)) (c : Census),
      ((foldCrash (fun c (p : String × Service) => censusService c p.2)
          c svcs).2 = true →
        ∀ v, (foldCrash (fun c (p : String × Service) => censusService c p.2)
          c svcs).1.hostCounts v = c.hostCounts v + cCount (svcsEntries svcs) v) ∧
      (∀ v, c.hostCounts v ≤ (foldCrash
        (fun c (p : String × Service) => censusService c p.2) c svcs).1.hostCounts v) ∧
      (CensusOK c → CensusOK (foldCrash
        (fun c (p : String × Service) => censusService c p.2) c svcs).1) := by
  intro svcs
  induction svcs with
  | nil =>
    intro c
    refine ⟨fun _ v => ?_, fun v => le_refl _, fun h => h⟩
    show c.hostCounts v = c.hostCounts v + cCount (svcsEntries []) v
    have h0 : cCount (svcsEntries ([] : List (String × Service))) v = 0 := rfl
    omega
  | cons q t ih =>
    intro c
    rw [foldCrash]
    cases hf : censusService c q.2 with
    | mk c1 b =>
      have hcnt : ∀ v, c1.hostCounts v = c.hostCounts v + cCount (svcEntries q.2) v := by
        intro v
        have := censusService_counts c q.2 v
        rw [hf] at this
        exact this
      have hok1 : CensusOK c → CensusOK c1 := by
        intro h
        have := censusService_ok c q.2 h
        rw [hf] at this
        exact this
      cases b with
      | true =>
        dsimp only
        obtain ⟨i1, i2, i3⟩ := ih c1
        refine ⟨?_, ?_, fun h => i3 (hok1 h)⟩
        · intro hfl v
          rw [i1 hfl v, hcnt v, svcsEntries_cons, cCount_append]
          omega
        · intro v
          have h2 := i2 v
          rw [hcnt v] at h2
          omega
      | false =>
        dsimp only
        refine ⟨?_, ?_, hok1⟩
        · intro hfl
          cases hfl
        · intro v
          rw [hcnt v]
          omega

theorem censusProject_counts_true (c : Census) (obj : Compose) (c' : Census)
    (h : censusProject c obj = (c', true)) (v : Int) :
    c'.hostCounts v = c.hostCounts v + cCount (objEntries obj) v := by
  have := (svcCrashFold_spec (obj.services.getD []) c).1
  unfold censusProject at h
  rw [h] at this
  exact this rfl v

theorem censusProject_counts_ge (c : Census) (obj : Compose) (v : Int) :
    c.hostCounts v ≤ (censusProject c obj).1.hostCounts v := by
  exact (svcCrashFold_spec (obj.services.getD []) c).2.1 v

theorem censusProject_ok (c : Census) (obj : Compose) (h : CensusOK c) :
    CensusOK (censusProject c obj).1 := by
  exact (svcCrashFold_spec (obj.services.getD []) c).2.2 h

/-! ## Pass one as a whole -/

def passStep {τ : Type} (parse : τ → Option Compose)
    (acc : Census × List Item) (dt : String × τ) : Census × List Item :=
  match parse dt.2 with
  | none => acc
  | some obj =>
    match censusProject acc.1 obj with
    | (c', true) =>
      (c', acc.2 ++ [⟨dt.1, obj, projUsedNets (obj.services.getD [])⟩])
    | (c', false) => (c', acc.2)

theorem passOne_eq {τ : Type} (parse : τ → Option Compose)
    (ws : List (String × τ)) :
    passOne parse ws = ws.foldl (passStep parse) (emptyCensus, []) := rfl

theorem passOne_fold_spec {τ : Type} (parse : τ → Option Compose) :
    ∀ (ws : List (String × τ)) (acc : Census × List Item),
      (∀ v, cCount (itemsEntries acc.2) v ≤ acc.1.hostCounts v) →
      CensusOK acc.1 →
      (∀ v, cCount (itemsEntries (ws.foldl (passStep parse) acc).2) v
          ≤ (ws.foldl (passStep parse) acc).1.hostCounts v) ∧
      CensusOK (ws.foldl (passStep parse) acc).1 := by
  intro ws
  induction ws with
  | nil => intro acc h1 h2; exact ⟨h1, h2⟩
  | cons dt t ih =>
    intro acc h1 h2
    rw [List.foldl_cons]
    have hstep : ∀ (acc' : Census × List Item),
        (∀ v, cCount (itemsEntries acc'.2) v ≤ acc'.1.hostCounts v) →
        CensusOK acc'.1 →
        (∀ v, cCount (itemsEntries (passStep parse acc' dt).2) v
            ≤ (passStep parse acc' dt).1.hostCounts v) ∧
        CensusOK (passStep parse acc' dt).1 := by
      intro acc' g1 g2
      unfold passStep
      cases hp : parse dt.2 with
      | none => exact ⟨g1, g2⟩
      | some obj =>
        dsimp only
        cases hc : censusProject acc'.1 obj with
        | mk c' flag =>
          have hok : CensusOK c' := by
            have := censusProject_ok acc'.1 obj g2
            rw [hc] at this
            exact this
          cases flag with
          | true =>
            dsimp only
            refine ⟨?_, hok⟩
            intro v
            rw [itemsEntries_append, cCount_append,
              censusProject_counts_true acc'.1 obj c' hc v]
            have hone : cCount (itemsEntries
                [⟨dt.1, obj, projUsedNets (obj.services.getD [])⟩]) v
                = cCount (objEntries obj) v := by
              unfold itemsEntries
              simp
            rw [hone]
            have := g1 v
            omega
          | false =>
            dsimp only
            refine ⟨?_, hok⟩
            intro v
            have hge := censusProject_counts_ge acc'.1 obj v
            rw [hc] at hge
            have hge2 : acc'.1.hostCounts v ≤ c'.hostCounts v := hge
            have := g1 v
            omega
    obtain ⟨s1, s2⟩ := hstep acc h1 h2
    exact ih (passStep parse acc dt) s1 s2

theorem passOne_census_facts {τ : Type} (parse : τ → Option Compose)
    (ws : List (String × τ)) :
    (∀ v, cCount (itemsEntries (passOne parse ws).2) v
        ≤ (passOne parse ws).1.hostCounts v) ∧
    CensusOK (passOne parse ws).1 := by
  rw [passOne_eq]
  refine passOne_fold_spec parse ws (emptyCensus, []) ?_ ?_
  · intro v
    have h0 : cCount (itemsEntries ([] : List Item)) v = 0 := rfl
    rw [h0]
    exact Nat.zero_le _
  · intro v hv
    exact absurd hv (by simp [emptyCensus])

/-! ## Sorting the projects permutes the flattened entries -/

theorem insertByDir_perm (x : Item) :
    ∀ (l : List Item), List.Perm (insertByDir x l) (x :: l) := by
  intro l
  induction l with
  | nil => exact List.Perm.refl _
  | cons y ys ih =>
    rw [insertByDir]
    by_cases hle : x.dir ≤ y.dir
    · rw [if_pos hle]
    · rw [if_neg hle]
      exact (List.Perm.cons y ih).trans (List.Perm.swap x y ys)

theorem sortByDir_perm (l : List Item) : List.Perm (sortByDir l) l := by
  induction l with
  | nil => exact List.Perm.refl _
  | cons x t ih =>
    have hc : sortByDir (x :: t) = insertByDir x (sortByDir t) := rfl
    rw [hc]
    exact (insertByDir_perm x (sortByDir t)).trans (List.Perm.cons x ih)

theorem cCount_perm (l1 l2 : List PortEntry) (h : List.Perm l1 l2) (v : Int) :
    cCount l1 v = cCount l2 v := by
  unfold cCount
  exact (h.filter _).length_eq

theorem itemsEntries_perm (l1 l2 : List Item) (h : List.Perm l1 l2) :
    List.Perm (itemsEntries l1) (itemsEntries l2) := by
  unfold itemsEntries
  exact List.Perm.bind_right _ h

/-! ## The invariant holds when pass two starts, and at its end -/

theorem initial_portInv {τ : Type} (parse : τ → Option Compose)
    (ws : List (String × τ)) :
    PortInv (passOne parse ws).1.hostSet
      (fun v => (passOne parse ws).1.hostCounts v
        - cCount (itemsEntries (sortByDir (passOne parse ws).2)) v)
      (passOne parse ws).1 []
      (itemsEntries (sortByDir (passOne parse ws).2)) := by
  obtain ⟨hF1, hF2⟩ := passOne_census_facts parse ws
  have hs : ∀ v, cCount (itemsEntries (sortByDir (passOne parse ws).2)) v
      = cCount (itemsEntries (passOne parse ws).2) v :=
    fun v => cCount_perm _ _ (itemsEntries_perm _ _ (sortByDir_perm _)) v
  have hle : ∀ v, cCount (itemsEntries (sortByDir (passOne parse ws).2)) v
      ≤ (passOne parse ws).1.hostCounts v := by
    intro v
    rw [hs v]
    exact hF1 v
  refine ⟨?_, ?_, fun v hv => hv, ?_, ?_, ?_⟩
  · intro v _
    have h0 : oCount [] v = 0 := rfl
    have := hle v
    omega
  · intro v hv
    have hz : (passOne parse ws).1.hostCounts v = 0 := by
      by_contra hnz
      exact hv (hF2 v (Nat.pos_of_ne_zero hnz))
    have := hle v
    refine ⟨hz, by omega, by omega⟩
  · intro s hh
    exact absurd hh (List.not_mem_nil s)
  · intro v _
    have h0 : oCount [] v = 0 := rfl
    omega
  · intro v _ ⟨s, hm, _⟩
    exact absurd hm (List.not_mem_nil s)

theorem tick_final {τ : Type} [DecidableEq τ] (parse : τ → Option Compose)
    (stringify : Compose → τ) (base : String) (ws : List (String × τ))
    (mapperFile : Option Mapper)
    (htame : ∀ p ∈ itemsEntries (sortByDir (passOne parse ws).2), p.tame)
    (hok : (scanAndFix parse stringify base ws mapperFile).crashed = false) :
    PortInv (passOne parse ws).1.hostSet
      (fun v => (passOne parse ws).1.hostCounts v
        - cCount (itemsEntries (sortByDir (passOne parse ws).2)) v)
      ((itemsEntries (sortByDir (passOne parse ws).2)).foldl portStep
        ((passOne parse ws).1, [])).1
      ((itemsEntries (sortByDir (passOne parse ws).2)).foldl portStep
        ((passOne parse ws).1, [])).2
      [] ∧
    allPortStrings (scanAndFix parse stringify base ws mapperFile).fixedItems
      = ((itemsEntries (sortByDir (passOne parse ws).2)).foldl portStep
          ((passOne parse ws).1, [])).2 := by
  constructor
  · have h0 := initial_portInv parse ws
    have h1 := portPass_inv (passOne parse ws).1.hostSet
      (fun v => (passOne parse ws).1.hostCounts v
        - cCount (itemsEntries (sortByDir (passOne parse ws).2)) v)
      (itemsEntries (sortByDir (passOne parse ws).2))
      (passOne parse ws).1 [] []
      (by rw [List.append_nil]; exact h0) htame
    exact h1
  · rw [scanAndFix_eq] at hok ⊢
    cases hfold : (sortByDir (passOne parse ws).2).foldl
        (tickStep stringify base)
        (some ((passOne parse ws).1, ws, [], [], [])) with
    | none =>
      rw [hfold] at hok
      exact absurd hok (by simp)
    | some s =>
      dsimp only
      obtain ⟨_, _, g3⟩ := tickFold_spec stringify base
        (sortByDir (passOne parse ws).2) (passOne parse ws).1 ws [] [] [] s hfold
      rw [g3]
      have he : allPortStrings ([] : List (String × Compose)) = [] := rfl
      rw [he, List.nil_append]

/-! ## Outputs carrying a duplicated-then-pure census value -/

theorem portPass_pure (set0 : List Int) (B : Int → Nat) (v : Int) :
    ∀ (ps : List PortEntry) (c : Census) (outs : List String),
      PortInv set0 B c outs ps →
      (∀ p ∈ ps, p.tame) →
      (∀ p ∈ ps, portCensusValue p = some v →
        ∃ s, p = PortEntry.str s ∧ strHost s = some v) →
      v ∈ set0 →
      (oCount outs v = 0 ∨ ∃ s ∈ outs, strHost s = some v) →
      (oCount (ps.foldl portStep (c, outs)).2 v = 0 ∨
        ∃ s ∈ (ps.foldl portStep (c, outs)).2, strHost s = some v) := by
  intro ps
  induction ps with
  | nil => intro c outs _ _ _ _ hd; exact hd
  | cons p t ih =>
    intro c outs hinv htame hpure hv hd
    rw [List.foldl_cons, portStep_eq]
    have hinv' := fixPortEntry_inv set0 B c outs p t hinv
      (htame p (List.mem_cons_self _ _))
    have hkey : strCensus (fixPortEntry c p).2 = some v →
        strHost (fixPortEntry c p).2 = some v := by
      cases p with
      | num n =>
        intro hcs
        have hcv : portCensusValue (.num n) = some v := hcs
        obtain ⟨s', heq, _⟩ := hpure (.num n) (List.mem_cons_self _ _) hcv
        exact PortEntry.noConfusion heq
      | other t' =>
        intro hcs
        have hcv : portCensusValue (.other t') = some v := hcs
        obtain ⟨s', heq, _⟩ := hpure (.other t') (List.mem_cons_self _ _) hcv
        exact PortEntry.noConfusion heq
      | str s =>
        intro hcs
        rw [fixPortEntry_str] at hcs ⊢
        rcases fixPortStr_spec c s with ⟨heq, _⟩ | ⟨hp, hh, hgt, hc', hC, hH⟩
        · rw [heq] at hcs ⊢
          have hcv : portCensusValue (.str s) = some v := hcs
          obtain ⟨s', heq', hhost⟩ := hpure (.str s) (List.mem_cons_self _ _) hcv
          have hss : s = s' := PortEntry.str.inj heq'
          rw [hss]
          exact hhost
        · rw [hC] at hcs
          have hfv : probeFree c.hostSet 10000 = v := Option.some.inj hcs
          exact absurd (hfv ▸ hinv.setMono v hv)
            (probeFree_correct c.hostSet 10000).1
    refine ih (fixPortEntry c p).1 (outs ++ [(fixPortEntry c p).2]) hinv'
      (fun q hq => htame q (List.mem_cons_of_mem _ hq))
      (fun q hq hqc => hpure q (List.mem_cons_of_mem _ hq) hqc) hv ?_
    rcases hd with h0 | ⟨s0, hm, hs0⟩
    · by_cases hcs : strCensus (fixPortEntry c p).2 = some v
      · exact Or.inr ⟨_, List.mem_append_right _ (List.mem_singleton.mpr rfl),
          hkey hcs⟩
      · left
        rw [oCount_append, if_neg hcs, h0]
    · exact Or.inr ⟨s0, List.mem_append_left _ hm, hs0⟩

/-- Number of outputs carrying rewritable host `v`. -/
def hCount (l : List String) (v : Int) : Nat :=
  (l.filter (fun s => strHost s = some v)).length

theorem hCount_le_oCount (l : List String) (v : Int) :
    hCount l v ≤ oCount l v := by
  induction l with
  | nil => exact le_refl _
  | cons s t ih =>
    unfold hCount oCount at ih ⊢
    rw [List.filter_cons, List.filter_cons]
    by_cases hh : strHost s = some v
    · rw [if_pos (by simpa using hh),
        if_pos (by simpa using strHost_imp_strCensus s v hh)]
      simpa using ih
    · by_cases hc : strCensus s = some v
      · rw [if_neg (by simpa using hh), if_pos (by simpa using hc)]
        simp only [List.length_cons]
        omega
      · rw [if_neg (by simpa using hh), if_neg (by simpa using hc)]
        exact ih

theorem hCount_pos (l : List String) (v : Int) (h : 0 < hCount l v) :
    ∃ s ∈ l, strHost s = some v := by
  unfold hCount at h
  rw [List.length_pos] at h
  obtain ⟨s, hs⟩ := List.exists_mem_of_ne_nil _ h
  obtain ⟨hm, hp⟩ := List.mem_filter.mp hs
  exact ⟨s, hm, by simpa using hp⟩

theorem mem_hCount_pos (l : List String) (v : Int) (s : String)
    (hm : s ∈ l) (hs : strHost s = some v) : 0 < hCount l v := by
  unfold hCount
  rw [List.length_pos]
  intro hnil
  have hin : s ∈ l.filter (fun s => strHost s = some v) :=
    List.mem_filter.mpr ⟨hm, by simp [hs]⟩
  rw [hnil] at hin
  exact absurd hin (List.not_mem_nil s)

/-- C1: after every successful reconcile tick (no uncaught scan error) on a
workspace whose port entries are tame, each assigned rewritable host port
is unique across all services of all projects: (i) at most one post-tick
port string carries any given host port; (ii) a host port of census
multiplicity > 1 whose census entries are all rewritable host-carrying
strings is retained by exactly one mapping (all others are replaced); and
(iii) every replacement uses the smallest free probe port ≥ 10000 (the
first integer ≥ 10000 outside `usedHostSet`). -/
theorem C1_port_uniqueness {τ : Type} [DecidableEq τ]
    (parse : τ → Option Compose) (stringify : Compose → τ) (base : String)
    (ws : List (String × τ)) (mapperFile : Option Mapper)
    (htame : ∀ p ∈ itemsEntries (sortByDir (passOne parse ws).2), p.tame)
    (hok : (scanAndFix parse stringify base ws mapperFile).crashed = false) :
    (∀ v, hCount (allPortStrings
        (scanAndFix parse stringify base ws mapperFile).fixedItems) v ≤ 1) ∧
    (∀ v, 1 < (passOne parse ws).1.hostCounts v →
      (passOne parse ws).1.hostCounts v
          = cCount (itemsEntries (sortByDir (passOne parse ws).2)) v →
      (∀ p ∈ itemsEntries (sortByDir (passOne parse ws).2),
        portCensusValue p = some v →
        ∃ s, p = PortEntry.str s ∧ strHost s = some v) →
      hCount (allPortStrings
        (scanAndFix parse stringify base ws mapperFile).fixedItems) v = 1) ∧
    (∀ (c : Census) (s : String) (hp : Int), strHost s = some hp →
      1 < c.hostCounts hp →
      strHost (fixPortStr c s).2 = some (probeFree c.hostSet 10000) ∧
      10000 ≤ probeFree c.hostSet 10000 ∧
      probeFree c.hostSet 10000 ∉ c.hostSet ∧
      (∀ q, 10000 ≤ q → q < probeFree c.hostSet 10000 → q ∈ c.hostSet)) := by
  obtain ⟨hfin, houts⟩ := tick_final parse stringify base ws mapperFile htame hok
  have huniq : ∀ v, hCount (allPortStrings
      (scanAndFix parse stringify base ws mapperFile).fixedItems) v ≤ 1 := by
    intro v
    rw [houts]
    by_cases hv : v ∈ (passOne parse ws).1.hostSet
    · by_cases hz : hCount ((itemsEntries (sortByDir (passOne parse ws).2)).foldl
          portStep ((passOne parse ws).1, [])).2 v = 0
      · omega
      · have hpos := hCount_pos _ v (Nat.pos_of_ne_zero hz)
        have hk := hfin.keptU v hv hpos
        calc hCount _ v ≤ oCount ((itemsEntries (sortByDir (passOne parse ws).2)).foldl
              portStep ((passOne parse ws).1, [])).2 v := hCount_le_oCount _ v
          _ = 1 := hk.2.2
    · calc hCount _ v ≤ oCount ((itemsEntries (sortByDir (passOne parse ws).2)).foldl
            portStep ((passOne parse ws).1, [])).2 v := hCount_le_oCount _ v
        _ ≤ 1 := hfin.freshU v hv
  refine ⟨huniq, ?_, ?_⟩
  · intro v hgt heq hpure
    have hv : v ∈ (passOne parse ws).1.hostSet :=
      (passOne_census_facts parse ws).2 v (by omega)
    have hpos := portPass_counts_pos v
      (itemsEntries (sortByDir (passOne parse ws).2)) (passOne parse ws).1 []
      (by omega)
    have hacct := hfin.acct v hv
    have hc0 : cCount ([] : List PortEntry) v = 0 := rfl
    rw [hc0] at hacct
    have hB : (passOne parse ws).1.hostCounts v
        - cCount (itemsEntries (sortByDir (passOne parse ws).2)) v = 0 := by
      omega
    have hocnt : 1 ≤ oCount ((itemsEntries (sortByDir (passOne parse ws).2)).foldl
        portStep ((passOne parse ws).1, [])).2 v := by
      omega
    have hdich := portPass_pure (passOne parse ws).1.hostSet
      (fun v => (passOne parse ws).1.hostCounts v
        - cCount (itemsEntries (sortByDir (passOne parse ws).2)) v) v
      (itemsEntries (sortByDir (passOne parse ws).2)) (passOne parse ws).1 []
      (initial_portInv parse ws) htame hpure hv (Or.inl rfl)
    rcases hdich with h0 | ⟨s, hm, hs⟩
    · omega
    · have h1 := mem_hCount_pos _ v s hm hs
      have h2 := huniq v
      rw [houts] at h2
      rw [houts]
      omega
  · intro c s hp hh hgt
    rcases fixPortStr_spec c s with ⟨_, hk⟩ | ⟨hp', hh', _, _, _, hH⟩
    · exact absurd (hk hp hh) (by omega)
    · obtain ⟨hp1, hp2, hp3⟩ := probeFree_correct c.hostSet 10000
      exact ⟨hH, hp2, hp1, hp3⟩

/-- Concrete instantiation of `C1_port_uniqueness` (empty workspace): all
hypotheses discharged; host 8080 appears at most once post-tick. -/
theorem C1_witness :
    hCount (allPortStrings (scanAndFix (fun _ => none) (fun _ => true) "b"
      ([] : List (String × Bool)) none).fixedItems) 8080 ≤ 1 :=
  (C1_port_uniqueness (fun _ => none) (fun _ => true) "b" [] none
    (fun p hp => absurd hp (List.not_mem_nil p)) rfl).1 8080

/-! ## Fresh IPs avoid every existing census key (last-octet argument) -/

theorem splitCharAux_getLast (sep : Char) :
    ∀ (l t : List Char) (acc : List Char) (d : String),
      (∀ ch ∈ t, ch ≠ sep) →
      (splitCharAux sep (l ++ sep :: t) acc).getLastD d = String.mk t := by
  intro l
  induction l with
  | nil =>
    intro t acc d ht
    rw [List.nil_append, splitCharAux, if_pos rfl,
      splitCharAux_no_sep sep t [] ht]
    simp
  | cons x l' ih =>
    intro t acc d ht
    rw [List.cons_append, splitCharAux]
    by_cases hx : x = sep
    · rw [if_pos hx, List.getLastD_cons]
      exact ih t [] _ ht
    · rw [if_neg hx]
      exact ih t (x :: acc) d ht

theorem lastDotComponent_base (b0 t : String)
    (ht : ∀ ch ∈ t.toList, ch ≠ '.') :
    lastDotComponent ((b0 ++ ".") ++ t) = t := by
  unfold lastDotComponent jsSplit
  have hl : ((b0 ++ ".") ++ t).toList = b0.toList ++ '.' :: t.toList := by
    rw [toList_append, toList_append, List.append_assoc]
    rfl
  rw [hl, splitCharAux_getLast '.' b0.toList t.toList [] "" ht]
  exact mk_toList t

theorem allocateIps_mem (base : String) (ex : List String) (count : Nat)
    (newIp : String) (h : newIp ∈ allocateIps base ex count) :
    ∃ i : Nat, newIp = base ++ natRepr i ∧ natRepr i ∉ usedOctets ex := by
  rw [allocateIps_eq_spec] at h
  unfold allocateIpsSpec at h
  obtain ⟨i, hi, he⟩ := List.mem_map.mp h
  have hi2 := List.mem_of_mem_take hi
  have hi3 := List.mem_filter.mp hi2
  exact ⟨i, he.symm, by simpa using hi3.2⟩

theorem allocateIps_fresh (b0 : String) (ex : List String) (count : Nat)
    (newIp : String) (h : newIp ∈ allocateIps (b0 ++ ".") ex count) :
    newIp ∉ ex := by
  obtain ⟨i, he, hu⟩ := allocateIps_mem (b0 ++ ".") ex count newIp h
  intro hmem
  apply hu
  have : lastDotComponent newIp = natRepr i := by
    rw [he]
    exact lastDotComponent_base b0 (natRepr i) (natRepr_no_dot i)
  rw [← this]
  exact List.mem_map_of_mem lastDotComponent hmem

/-! ## IP census bookkeeping -/

theorem getCount_zero_of_not_mem (m : List (String × Nat)) (k : String)
    (h : k ∉ ipKeys m) : getCount m k = 0 := by
  unfold getCount
  cases hf : m.find? (fun p => p.1 == k) with
  | none => rfl
  | some p =>
    exfalso
    apply h
    have hm := List.mem_of_find?_eq_some hf
    have hp := List.find?_some hf
    have hpk : p.1 = k := by simpa using hp
    rw [← hpk]
    exact List.mem_map_of_mem (·.1) hm

theorem getCount_pos_mem (m : List (String × Nat)) (k : String)
    (h : 0 < getCount m k) : k ∈ ipKeys m := by
  by_contra hn
  rw [getCount_zero_of_not_mem m k hn] at h
  exact absurd h (lt_irrefl 0)

theorem getCount_map_set_ne (k : String) (v : Nat) (j : String) (hne : j ≠ k) :
    ∀ (m : List (String × Nat)),
      getCount (m.map (fun p => if p.1 == k then (k, v) else p)) j
        = getCount m j := by
  intro m
  induction m with
  | nil => rfl
  | cons a t ih =>
    rw [List.map_cons]
    by_cases hak : a.1 = k
    · rw [if_pos (by simpa using hak)]
      unfold getCount at ih ⊢
      rw [List.find?_cons, List.find?_cons]
      have h1 : ((k, v).1 == j) = false := by
        simp
        exact fun he => hne he.symm
      have h2 : (a.1 == j) = false := by
        simp
        rw [hak]
        exact fun he => hne he.symm
      rw [h1, h2]
      exact ih
    · rw [if_neg (by simpa using hak)]
      unfold getCount at ih ⊢
      rw [List.find?_cons, List.find?_cons]
      cases haj : (a.1 == j) with
      | true => rfl
      | false => exact ih

theorem getCount_map_set_self (k : String) (v : Nat) :
    ∀ (m : List (String × Nat)),
      m.any (fun p => p.1 == k) = true →
      getCount (m.map (fun p => if p.1 == k then (k, v) else p)) k = v := by
  intro m
  induction m with
  | nil => intro h; cases h
  | cons a t ih =>
    intro h
    rw [List.map_cons]
    by_cases hak : a.1 = k
    · rw [if_pos (by simpa using hak)]
      unfold getCount
      rw [List.find?_cons]
      have h1 : ((k, v).1 == k) = true := by simp
      rw [h1]
    · rw [if_neg (by simpa using hak)]
      rw [List.any_cons] at h
      have h2 : t.any (fun p => p.1 == k) = true := by
        cases ht : t.any (fun p => p.1 == k) with
        | true => rfl
        | false =>
          rw [ht] at h
          simp at h
          exact absurd h hak
      unfold getCount at ih ⊢
      rw [List.find?_cons]
      have h3 : (a.1 == k) = false := by simpa using hak
      rw [h3]
      exact ih h2

theorem find?_eq_none_of_any_false (m : List (String × Nat)) (k : String)
    (h : m.any (fun p => p.1 == k) = false) :
    m.find? (fun p => p.1 == k) = none := by
  rw [List.find?_eq_none]
  intro p hp hpk
  have h2 : m.any (fun p => p.1 == k) = true :=
    List.any_eq_true.mpr ⟨p, hp, hpk⟩
  rw [h] at h2
  cases h2

theorem getCount_setCount_self (m : List (String × Nat)) (k : String)
    (v : Nat) : getCount (setCount m k v) k = v := by
  unfold setCount
  by_cases hany : m.any (fun p => p.1 == k) = true
  · rw [if_pos hany]
    exact getCount_map_set_self k v m hany
  · rw [if_neg hany]
    unfold getCount
    rw [List.find?_append,
      find?_eq_none_of_any_false m k (Bool.eq_false_iff.mpr hany),
      Option.none_or, List.find?_cons]
    have h1 : ((k, v).1 == k) = true := by simp
    rw [h1]

theorem getCount_setCount_ne (m : List (String × Nat)) (k : String)
    (v : Nat) (j : String) (hne : j ≠ k) :
    getCount (setCount m k v) j = getCount m j := by
  unfold setCount
  by_cases hany : m.any (fun p => p.1 == k) = true
  · rw [if_pos hany]
    exact getCount_map_set_ne k v j hne m
  · rw [if_neg hany]
    unfold getCount
    rw [List.find?_append]
    cases hf : m.find? (fun p => p.1 == j) with
    | some p => rfl
    | none =>
      rw [Option.none_or, List.find?_cons]
      have h1 : ((k, v).1 == j) = false := by
        simp
        exact fun he => hne he.symm
      rw [h1]
      rfl

theorem getCount_incCount_self (m : List (String × Nat)) (k : String) :
    getCount (incCount m k) k = getCount m k + 1 :=
  getCount_setCount_self m k _

theorem getCount_incCount_ne (m : List (String × Nat)) (k j : String)
    (hne : j ≠ k) : getCount (incCount m k) j = getCount m j :=
  getCount_setCount_ne m k _ j hne

/-! ## Extracting the successful tick fold -/

theorem tick_fold_of_ok {τ : Type} [DecidableEq τ] (parse : τ → Option Compose)
    (stringify : Compose → τ) (base : String) (ws : List (String × τ))
    (mapperFile : Option Mapper)
    (hok : (scanAndFix parse stringify base ws mapperFile).crashed = false) :
    ∃ s, (sortByDir (passOne parse ws).2).foldl (tickStep stringify base)
        (some ((passOne parse ws).1, ws, [], [], [])) = some s ∧
      (scanAndFix parse stringify base ws mapperFile).fixedItems = s.2.2.2.1 ∧
      (scanAndFix parse stringify base ws mapperFile).files = s.2.1 ∧
      (scanAndFix parse stringify base ws mapperFile).writtenDirs = s.2.2.1 ∧
      (scanAndFix parse stringify base ws mapperFile).mapper = some s.2.2.2.2 ∧
      (scanAndFix parse stringify base ws mapperFile).mapperWrote
        = decide (mapperFile ≠ some s.2.2.2.2) := by
  cases hfold : (sortByDir (passOne parse ws).2).foldl (tickStep stringify base)
      (some ((passOne parse ws).1, ws, [], [], [])) with
  | none =>
    rw [scanAndFix_eq, hfold] at hok
    exact absurd hok (by simp)
  | some s =>
    refine ⟨s, rfl, ?_, ?_, ?_, ?_, ?_⟩ <;> rw [scanAndFix_eq, hfold]

theorem tick_outputs {τ : Type} [DecidableEq τ] (parse : τ → Option Compose)
    (stringify : Compose → τ) (base : String) (ws : List (String × τ))
    (mapperFile : Option Mapper)
    (hok : (scanAndFix parse stringify base ws mapperFile).crashed = false) :
    allPortStrings (scanAndFix parse stringify base ws mapperFile).fixedItems
      = ((itemsEntries (sortByDir (passOne parse ws).2)).foldl portStep
          ((passOne parse ws).1, [])).2 := by
  obtain ⟨s, hfold, hfix, -⟩ :=
    tick_fold_of_ok parse stringify base ws mapperFile hok
  rw [hfix]
  obtain ⟨-, -, g3⟩ := tickFold_spec stringify base
    (sortByDir (passOne parse ws).2) (passOne parse ws).1 ws [] [] [] s hfold
  rw [g3]
  have he : allPortStrings ([] : List (String × Compose)) = [] := rfl
  rw [he, List.nil_append]

/-! ## Census-singleton host ports are kept verbatim -/

theorem portPass_keep_forall2 (c0 : Census) :
    ∀ (ps : List PortEntry) (c : Census),
      (∀ v, c.hostCounts v ≤ c0.hostCounts v) →
      List.Forall₂ (fun p s =>
          (∀ h, entryHost p = some h → c0.hostCounts h ≤ 1) → s = p.jsString)
        ps (ps.foldl portStep (c, [])).2 := by
  intro ps
  induction ps with
  | nil => intro c _; exact List.Forall₂.nil
  | cons p t ih =>
    intro c hmono
    rw [List.foldl_cons, portStep_eq]
    rw [foldl_portStep_append t (fixPortEntry c p).1 ([] ++ [(fixPortEntry c p).2])]
    rw [List.nil_append]
    have hrel : (∀ h, entryHost p = some h → c0.hostCounts h ≤ 1) →
        (fixPortEntry c p).2 = p.jsString := by
      intro hsing
      cases p with
      | num n => rfl
      | other t' => rfl
      | str s =>
        rw [fixPortEntry_str]
        rcases fixPortStr_spec c s with ⟨heq, _⟩ | ⟨hp, hh, hgt, _, _, _⟩
        · rw [heq]
          rfl
        · exfalso
          have h1 := hsing hp hh
          have h2 := hmono hp
          omega
    have hmono' : ∀ v, (fixPortEntry c p).1.hostCounts v ≤ c0.hostCounts v :=
      fun v => le_trans (portStep_counts_le c p v) (hmono v)
    exact List.Forall₂.cons hrel
      (by
        have := ih (fixPortEntry c p).1 hmono'
        simpa using this)

/-! ## The IP side: census-singleton addresses are never reassigned -/

/-- A network attachment value whose deciding IPv4 (if any) is a census
singleton; bare strings crash the scan and are excluded. -/
def netClean (c0 : Census) : NetVal → Prop
  | .str _ => False
  | .obj o =>
    (jsTruthy o.ipv4_address →
      getCount c0.ipCounts (o.ipv4_address.getD "") ≤ 1) ∧
    (¬ jsTruthy o.ipv4_address → jsTruthy o.ipv4Address →
      getCount c0.ipCounts (o.ipv4Address.getD "") ≤ 1)
  | .other => True

def svcIpClean (c0 : Census) (svc : Service) : Prop :=
  ∀ q ∈ svc.networks.getD ([] : List (String × NetVal)), netClean c0 q.2

/-- Pass-two censuses dominate `c0` at no key that was a singleton: every
`c0`-singleton key still has count ≤ 1. -/
def IpLe (c0 c : Census) : Prop :=
  ∀ k, getCount c0.ipCounts k ≤ 1 → getCount c.ipCounts k ≤ 1

theorem IpLe_of_ipCounts_eq (c0 c c' : Census)
    (h : c'.ipCounts = c.ipCounts) (hle : IpLe c0 c) : IpLe c0 c' := by
  intro k hk
  rw [h]
  exact hle k hk

theorem incCount_IpLe (c0 c : Census) (newIp : String)
    (h : IpLe c0 c) (hfresh : newIp ∉ ipKeys c.ipCounts) :
    IpLe c0 { c with ipCounts := incCount c.ipCounts newIp } := by
  intro j hj
  show getCount (incCount c.ipCounts newIp) j ≤ 1
  by_cases hjn : j = newIp
  · subst hjn
    rw [getCount_incCount_self]
    rw [getCount_zero_of_not_mem _ _ hfresh]
  · rw [getCount_incCount_ne _ _ _ hjn]
    exact h j hj

theorem netStep_IpLe (c0 : Census) (b0 : String) (c : Census) (svc : Service)
    (m : MapperService) (nk : String) (nv : NetVal)
    (r : Census × Service × MapperService)
    (h : netStep (b0 ++ ".") c svc m nk nv = some r) (hle : IpLe c0 c) :
    IpLe c0 r.1 := by
  cases nv with
  | str s => exact Option.noConfusion h
  | other =>
    have h' : (c, svc, m) = r := Option.some.inj h
    rw [← h']
    exact hle
  | obj o =>
    unfold netStep at h
    dsimp only at h
    have halloc : ∀ newIp,
        (allocateIps (b0 ++ ".") (ipKeys c.ipCounts) 1).head? = some newIp →
        IpLe c0 { c with ipCounts := incCount c.ipCounts newIp } := by
      intro newIp hh
      have hmem : newIp ∈ allocateIps (b0 ++ ".") (ipKeys c.ipCounts) 1 :=
        List.mem_of_mem_head? (Option.mem_def.mpr hh)
      exact incCount_IpLe c0 c newIp hle
        (allocateIps_fresh b0 (ipKeys c.ipCounts) 1 newIp hmem)
    by_cases hA : jsTruthy o.ipv4_address
    · rw [if_pos hA] at h
      by_cases hgt : getCount c.ipCounts (o.ipv4_address.getD "") > 1
      · rw [if_pos hgt] at h
        cases hh : (allocateIps (b0 ++ ".") (ipKeys c.ipCounts) 1).head? with
        | some newIp =>
          rw [hh] at h
          have h' := Option.some.inj h
          rw [← h']
          exact halloc newIp hh
        | none =>
          rw [hh] at h
          have h' := Option.some.inj h
          rw [← h']
          exact hle
      · rw [if_neg hgt] at h
        have h' := Option.some.inj h
        rw [← h']
        exact hle
    · rw [if_neg hA] at h
      by_cases hB : jsTruthy o.ipv4Address
      · rw [if_pos hB] at h
        by_cases hgt : getCount c.ipCounts (o.ipv4Address.getD "") > 1
        · rw [if_pos hgt] at h
          cases hh : (allocateIps (b0 ++ ".") (ipKeys c.ipCounts) 1).head? with
          | some newIp =>
            rw [hh] at h
            have h' := Option.some.inj h
            rw [← h']
            exact halloc newIp hh
          | none =>
            rw [hh] at h
            have h' := Option.some.inj h
            rw [← h']
            exact hle
        · rw [if_neg hgt] at h
          have h' := Option.some.inj h
          rw [← h']
          exact hle
      · rw [if_neg hB] at h
        have h' := Option.some.inj h
        rw [← h']
        exact hle

theorem netStep_keep (c0 : Census) (base : String) (c : Census)
    (svc : Service) (m : MapperService) (nk : String) (nv : NetVal)
    (hcl : netClean c0 nv) (hle : IpLe c0 c) :
    ∃ m', netStep base c svc m nk nv = some (c, svc, m') := by
  cases nv with
  | str s => exact absurd hcl (fun h => h)
  | other => exact ⟨m, rfl⟩
  | obj o =>
    by_cases hA : jsTruthy o.ipv4_address
    · have hcnt : getCount c.ipCounts (o.ipv4_address.getD "") ≤ 1 :=
        hle _ (hcl.1 hA)
      refine ⟨setMapNet m nk (.ipStr (o.ipv4_address.getD "")), ?_⟩
      unfold netStep
      dsimp only
      rw [if_pos hA, if_neg (by omega)]
    · by_cases hB : jsTruthy o.ipv4Address
      · have hcnt : getCount c.ipCounts (o.ipv4Address.getD "") ≤ 1 :=
          hle _ (hcl.2 hA hB)
        refine ⟨mapperCopy svc, ?_⟩
        unfold netStep
        dsimp only
        rw [if_neg hA, if_pos hB, if_neg (by omega)]
      · refine ⟨m, ?_⟩
        unfold netStep
        dsimp only
        rw [if_neg hA, if_neg hB]

theorem netFold_keep (c0 : Census) (base : String) :
    ∀ (nets : List (String × NetVal)) (c : Census) (svc : Service)
      (m : MapperService),
      (∀ q ∈ nets, netClean c0 q.2) → IpLe c0 c →
      ∃ m', nets.foldl
        (fun acc p =>
          acc.bind (fun s => netStep base s.1 s.2.1 s.2.2 p.1 p.2))
        (some (c, svc, m)) = some (c, svc, m') := by
  intro nets
  induction nets with
  | nil => intro c svc m _ _; exact ⟨m, rfl⟩
  | cons q t ih =>
    intro c svc m hcl hle
    obtain ⟨m1, hm1⟩ := netStep_keep c0 base c svc m q.1 q.2
      (hcl q (List.mem_cons_self _ _)) hle
    obtain ⟨m', hm'⟩ := ih c svc m1
      (fun p hp => hcl p (List.mem_cons_of_mem _ hp)) hle
    refine ⟨m', ?_⟩
    rw [List.foldl_cons, Option.some_bind, hm1]
    exact hm'

theorem netFold_IpLe (c0 : Census) (b0 : String) :
    ∀ (nets : List (String × NetVal)) (c : Census) (svc : Service)
      (m : MapperService) (r : Census × Service × MapperService),
      nets.foldl
        (fun acc p =>
          acc.bind (fun s => netStep (b0 ++ ".") s.1 s.2.1 s.2.2 p.1 p.2))
        (some (c, svc, m)) = some r →
      IpLe c0 c → IpLe c0 r.1 := by
  intro nets
  induction nets with
  | nil =>
    intro c svc m r h hle
    have h' : (c, svc, m) = r := Option.some.inj h
    rw [← h']
    exact hle
  | cons q t ih =>
    intro c svc m r h hle
    rw [List.foldl_cons, Option.some_bind] at h
    cases hs : netStep (b0 ++ ".") c svc m q.1 q.2 with
    | none =>
      rw [hs, netFold_none] at h
      exact Option.noConfusion h
    | some s1 =>
      rw [hs] at h
      obtain ⟨c1, svc1, m1⟩ := s1
      exact ih c1 svc1 m1 r h (netStep_IpLe c0 b0 c svc m q.1 q.2 _ hs hle)

theorem fixPortEntry_ipCounts (c : Census) (p : PortEntry) :
    (fixPortEntry c p).1.ipCounts = c.ipCounts := by
  cases p with
  | num n => rfl
  | other t => rfl
  | str s =>
    rw [fixPortEntry_str]
    rcases fixPortStr_spec c s with ⟨heq, _⟩ | ⟨hp, _, _, hc', _, _⟩
    · rw [heq]
    · rw [hc']

theorem portFold_ipCounts :
    ∀ (ps : List PortEntry) (c : Census) (outs : List String),
      (ps.foldl portStep (c, outs)).1.ipCounts = c.ipCounts := by
  intro ps
  induction ps with
  | nil => intro c outs; rfl
  | cons p t ih =>
    intro c outs
    rw [List.foldl_cons, portStep_eq]
    rw [ih (fixPortEntry c p).1]
    exact fixPortEntry_ipCounts c p

theorem fixPorts_ipCounts (c : Census) (svc : Service) :
    (fixPorts c svc).1.ipCounts = c.ipCounts := by
  rw [fixPorts_eq]
  cases hp : svc.ports with
  | none => rfl
  | some ps => exact portFold_ipCounts ps c []

theorem fixPorts_networks (c : Census) (svc : Service) :
    (fixPorts c svc).2.1.networks = svc.networks := by
  rw [fixPorts_eq]
  cases hp : svc.ports with
  | none => rfl
  | some ps => rfl

theorem fixService_IpLe (c0 : Census) (b0 : String) (c : Census)
    (svc : Service) (r : Census × Service × MapperService)
    (h : fixService (b0 ++ ".") c svc = some r) (hle : IpLe c0 c) :
    IpLe c0 r.1 := by
  unfold fixService at h
  dsimp only at h
  have hip : IpLe c0 (fixPorts c svc).1 :=
    IpLe_of_ipCounts_eq c0 c _ (fixPorts_ipCounts c svc) hle
  cases hn : (fixPorts c svc).2.1.networks with
  | none =>
    rw [hn] at h
    dsimp only at h
    have h' := Option.some.inj h
    rw [← h']
    exact hip
  | some nets =>
    rw [hn] at h
    dsimp only at h
    exact netFold_IpLe c0 b0 nets (fixPorts c svc).1 (fixPorts c svc).2.1 _ r
      h hip

theorem fixService_clean (c0 : Census) (b0 : String) (c : Census)
    (svc : Service) (hcl : svcIpClean c0 svc) (hle : IpLe c0 c) :
    ∃ r, fixService (b0 ++ ".") c svc = some r ∧
      r.2.1.networks = svc.networks := by
  unfold fixService
  dsimp only
  cases hn : (fixPorts c svc).2.1.networks with
  | none =>
    dsimp only
    exact ⟨((fixPorts c svc).1, (fixPorts c svc).2.1,
      { mapperCopy svc with ports := some (fixPorts c svc).2.2 }), rfl,
      fixPorts_networks c svc⟩
  | some nets =>
    dsimp only
    have hip : IpLe c0 (fixPorts c svc).1 :=
      IpLe_of_ipCounts_eq c0 c _ (fixPorts_ipCounts c svc) hle
    have hnets : svc.networks = some nets := by
      rw [← fixPorts_networks c svc]
      exact hn
    have hclnets : ∀ q ∈ nets, netClean c0 q.2 := by
      intro q hq
      apply hcl
      rw [hnets]
      exact hq
    obtain ⟨m', hm'⟩ := netFold_keep c0 (b0 ++ ".") nets (fixPorts c svc).1
      (fixPorts c svc).2.1
      { mapperCopy svc with ports := some (fixPorts c svc).2.2 } hclnets hip
    exact ⟨_, hm', fixPorts_networks c svc⟩

theorem svcFold_IpLe (c0 : Census) (b0 : String) :
    ∀ (svcs : List (String × Service)) (c : Census)
      (accS : List (String × Service)) (accM : List (String × MapperService))
      (r : Census × List (String × Service) × List (String × MapperService)),
      svcs.foldl (svcStep (b0 ++ ".")) (some (c, accS, accM)) = some r →
      IpLe c0 c → IpLe c0 r.1 := by
  intro svcs
  induction svcs with
  | nil =>
    intro c accS accM r h hle
    have h' := Option.some.inj h
    rw [← h']
    exact hle
  | cons q t ih =>
    intro c accS accM r h hle
    rw [List.foldl_cons] at h
    have hstep : svcStep (b0 ++ ".") (some (c, accS, accM)) q
        = (fixService (b0 ++ ".") c q.2).map (fun w =>
            (w.1, accS ++ [(q.1, w.2.1)], accM ++ [(q.1, w.2.2)])) := rfl
    rw [hstep] at h
    cases hs : fixService (b0 ++ ".") c q.2 with
    | none =>
      rw [hs, Option.map_none', svcFold_none] at h
      exact Option.noConfusion h
    | some s1 =>
      rw [hs, Option.map_some'] at h
      exact ih s1.1 _ _ r h (fixService_IpLe c0 b0 c q.2 s1 hs hle)

theorem svcFold_keep (c0 : Census) (b0 : String) :
    ∀ (svcs : List (String × Service)) (c : Census)
      (accS : List (String × Service)) (accM : List (String × MapperService))
      (r : Census × List (String × Service) × List (String × MapperService)),
      svcs.foldl (svcStep (b0 ++ ".")) (some (c, accS, accM)) = some r →
      IpLe c0 c →
      ∃ outS, r.2.1 = accS ++ outS ∧
        List.Forall₂ (fun (q q' : String × Service) =>
          q'.1 = q.1 ∧ (svcIpClean c0 q.2 → q'.2.networks = q.2.networks))
          svcs outS := by
  intro svcs
  induction svcs with
  | nil =>
    intro c accS accM r h _
    have h' := Option.some.inj h
    rw [← h']
    exact ⟨[], by simp, List.Forall₂.nil⟩
  | cons q t ih =>
    intro c accS accM r h hle
    rw [List.foldl_cons] at h
    have hstep : svcStep (b0 ++ ".") (some (c, accS, accM)) q
        = (fixService (b0 ++ ".") c q.2).map (fun w =>
            (w.1, accS ++ [(q.1, w.2.1)], accM ++ [(q.1, w.2.2)])) := rfl
    rw [hstep] at h
    cases hs : fixService (b0 ++ ".") c q.2 with
    | none =>
      rw [hs, Option.map_none', svcFold_none] at h
      exact Option.noConfusion h
    | some s1 =>
      rw [hs, Option.map_some'] at h
      obtain ⟨outS', hout, hfa⟩ := ih s1.1 (accS ++ [(q.1, s1.2.1)]) _ r h
        (fixService_IpLe c0 b0 c q.2 s1 hs hle)
      refine ⟨(q.1, s1.2.1) :: outS', by rw [hout]; simp, ?_⟩
      refine List.Forall₂.cons ⟨rfl, ?_⟩ hfa
      intro hcl
      obtain ⟨r', hr', hnet⟩ := fixService_clean c0 b0 c q.2 hcl hle
      rw [hs] at hr'
      have : s1 = r' := Option.some.inj hr'
      rw [this]
      exact hnet

theorem fixProject_keep (c0 : Census) (b0 : String) (c : Census)
    (item : Item) (r : Census × Compose × MapperEntry)
    (h : fixProject (b0 ++ ".") c item = some r) (hle : IpLe c0 c) :
    List.Forall₂ (fun (q q' : String × Service) =>
        q'.1 = q.1 ∧ (svcIpClean c0 q.2 → q'.2.networks = q.2.networks))
      (item.obj.services.getD []) (r.2.1.services.getD []) ∧
    IpLe c0 r.1 := by
  rw [fixProject_eq] at h
  cases hstep : (item.obj.services.getD []).foldl (svcStep (b0 ++ "."))
      (some (c, ([] : List (String × Service)),
        ([] : List (String × MapperService)))) with
  | none =>
    rw [hstep] at h
    exact Option.noConfusion h
  | some s =>
    rw [hstep, Option.map_some'] at h
    have h' := Option.some.inj h
    obtain ⟨outS, hout, hfa⟩ := svcFold_keep c0 b0 (item.obj.services.getD [])
      c [] [] s hstep hle
    have hiple := svcFold_IpLe c0 b0 (item.obj.services.getD []) c [] [] s
      hstep hle
    rw [← h']
    dsimp only
    constructor
    · rw [pruneNetworks_services, augmentNetworks_services,
        ensureDefaultNetworks_services]
      cases hsv : item.obj.services with
      | none =>
        dsimp only
        rw [hsv]
        exact List.Forall₂.nil
      | some svcs =>
        dsimp only
        rw [Option.getD_some]
        rw [List.nil_append] at hout
        rw [hout]
        have hl : (item.obj.services.getD []) = svcs := by rw [hsv]; rfl
        rw [hl] at hfa
        exact hfa
    · exact hiple

theorem tickFold_keep {τ : Type} [DecidableEq τ] (c0 : Census)
    (stringify : Compose → τ) (b0 : String) :
    ∀ (items : List Item) (c : Census) (files : List (String × τ))
      (wd : List String) (fi : List (String × Compose)) (mp : Mapper)
      (s : Census × List (String × τ) × List String ×
        List (String × Compose) × Mapper),
      items.foldl (tickStep stringify (b0 ++ ".")) (some (c, files, wd, fi, mp))
        = some s →
      IpLe c0 c →
      ∃ outF, s.2.2.2.1 = fi ++ outF ∧
        List.Forall₂ (fun (it : Item) (pr : String × Compose) =>
          pr.1 = it.dir ∧
          List.Forall₂ (fun (q q' : String × Service) =>
            q'.1 = q.1 ∧ (svcIpClean c0 q.2 → q'.2.networks = q.2.networks))
            (it.obj.services.getD []) (pr.2.services.getD []))
          items outF := by
  intro items
  induction items with
  | nil =>
    intro c files wd fi mp s h _
    have h' := Option.some.inj h
    rw [← h']
    exact ⟨[], by simp, List.Forall₂.nil⟩
  | cons it t ih =>
    intro c files wd fi mp s h hle
    rw [List.foldl_cons] at h
    have hstep : tickStep stringify (b0 ++ ".") (some (c, files, wd, fi, mp)) it
        = (fixProject (b0 ++ ".") c it).map (fun r =>
            let wr := writeCompose stringify (lookupFile files it.dir) r.2.1
            let files' := match wr with
              | some u => files.map (fun p => if p.1 == it.dir then (p.1, u) else p)
              | none => files
            (r.1, files', wd ++ (match wr with | some _ => [it.dir] | none => []),
              fi ++ [(it.dir, r.2.1)], mp ++ [(it.dir, r.2.2)])) := rfl
    rw [hstep] at h
    cases hs : fixProject (b0 ++ ".") c it with
    | none =>
      rw [hs, Option.map_none', tickFold_none] at h
      exact Option.noConfusion h
    | some r =>
      rw [hs, Option.map_some'] at h
      obtain ⟨hfa1, hiple⟩ := fixProject_keep c0 b0 c it r hs hle
      obtain ⟨outF', hout, hfa⟩ := ih r.1 _ _ (fi ++ [(it.dir, r.2.1)]) _ s h
        hiple
      refine ⟨(it.dir, r.2.1) :: outF', by rw [hout]; simp, ?_⟩
      exact List.Forall₂.cons ⟨rfl, hfa1⟩ hfa

/-! ## C2: the prune/re-insert oscillation of the networks block -/

theorem setAssoc_forall {α : Type} (P : String × α → Prop)
    (l : List (String × α)) (k : String) (v : α)
    (hl : ∀ q ∈ l, P q) (hv : P (k, v)) :
    ∀ q ∈ setAssoc l k v, P q := by
  unfold setAssoc
  by_cases hany : l.any (fun p => p.1 == k) = true
  · rw [if_pos hany]
    intro q hq
    obtain ⟨p, hp, he⟩ := List.mem_map.mp hq
    by_cases hpk : p.1 = k
    · rw [if_pos (by simpa using hpk)] at he
      rw [← he]
      exact hv
    · rw [if_neg (by simpa using hpk)] at he
      rw [← he]
      exact hl p hp
  · rw [if_neg hany]
    intro q hq
    rcases List.mem_append.mp hq with h | h
    · exact hl q h
    · rw [List.mem_singleton.mp h]
      exact hv

theorem map_ite_id {α : Type} (k : String) (v : α) :
    ∀ (l : List (String × α)), (∀ q ∈ l, q.1 ≠ k) →
      l.map (fun p => if p.1 == k then (k, v) else p) = l := by
  intro l
  induction l with
  | nil => intro _; rfl
  | cons a t ih =>
    intro h
    rw [List.map_cons, if_neg (by simpa using h a (List.mem_cons_self _ _)),
      ih (fun q hq => h q (List.mem_cons_of_mem _ hq))]

theorem setAssoc_nodup_mid {α : Type} (l1 l2 : List (String × α))
    (k : String) (v0 v : α)
    (hnd : ((l1 ++ (k, v0) :: l2).map (·.1)).Nodup) :
    setAssoc (l1 ++ (k, v0) :: l2) k v = l1 ++ (k, v) :: l2 := by
  rw [List.map_append, List.map_cons] at hnd
  have hdis := (List.nodup_append.mp hnd).2.2
  have hcons := (List.nodup_append.mp hnd).2.1
  rw [List.nodup_cons] at hcons
  have hk1 : ∀ q ∈ l1, q.1 ≠ k := by
    intro q hq he
    exact hdis (List.mem_map_of_mem (·.1) hq)
      (by rw [he]; exact List.mem_cons_self _ _)
  have hk2 : ∀ q ∈ l2, q.1 ≠ k := by
    intro q hq he
    exact hcons.1 (he ▸ List.mem_map_of_mem (·.1) hq)
  have hany : (l1 ++ (k, v0) :: l2).any (fun p => p.1 == k) = true :=
    List.any_eq_true.mpr ⟨(k, v0),
      List.mem_append_right _ (List.mem_cons_self _ _), by simp⟩
  unfold setAssoc
  rw [if_pos hany, List.map_append, List.map_cons, map_ite_id k v l1 hk1,
    map_ite_id k v l2 hk2, if_pos (by simp)]

theorem jsTruthy_some (x : Option String) (h : jsTruthy x = true) :
    x = some (x.getD "") := by
  cases x with
  | none => cases h
  | some s => rfl

theorem setSvcNet_fields (svc : Service) (nk : String) (nv : NetVal) :
    (setSvcNet svc nk nv).ipv4_address = svc.ipv4_address ∧
    (setSvcNet svc nk nv).ipv4Address = svc.ipv4Address ∧
    (setSvcNet svc nk nv).ports = svc.ports := ⟨rfl, rfl, rfl⟩

/-- One network attachment is kept byte-identically whenever its own
declared IPv4 is a pre-tick census singleton. -/
def attachKeep (c0 : Census) (a a' : String × NetVal) : Prop :=
  a'.1 = a.1 ∧ (netClean c0 a.2 → a'.2 = a.2)

theorem netStep_attach (c0 : Census) (b0 : String) (c : Census)
    (svc : Service) (m : MapperService) (nk : String) (nv : NetVal)
    (done rest : List (String × NetVal))
    (r : Census × Service × MapperService)
    (hr : netStep (b0 ++ ".") c svc m nk nv = some r)
    (hnet : svc.networks = some (done ++ (nk, nv) :: rest))
    (hnd : ((done ++ (nk, nv) :: rest).map (·.1)).Nodup)
    (hle : IpLe c0 c) :
    ∃ nv', r.2.1.networks = some (done ++ (nk, nv') :: rest) ∧
      (netClean c0 nv → nv' = nv) ∧
      r.2.1.ipv4_address = svc.ipv4_address ∧
      r.2.1.ipv4Address = svc.ipv4Address ∧
      r.2.1.ports = svc.ports := by
  cases nv with
  | str s => exact Option.noConfusion hr
  | other =>
    have h' : (c, svc, m) = r := Option.some.inj hr
    subst h'
    exact ⟨.other, hnet, fun _ => rfl, rfl, rfl, rfl⟩
  | obj o =>
    unfold netStep at hr
    dsimp only at hr
    by_cases hA : jsTruthy o.ipv4_address
    · rw [if_pos hA] at hr
      by_cases hgt : getCount c.ipCounts (o.ipv4_address.getD "") > 1
      · rw [if_pos hgt] at hr
        have hvac : netClean c0 (.obj o) → False := by
          intro hcl
          have h1 := hle _ (hcl.1 hA)
          omega
        cases hh : (allocateIps (b0 ++ ".") (ipKeys c.ipCounts) 1).head? with
        | none =>
          rw [hh] at hr
          have h' := Option.some.inj hr
          subst h'
          exact ⟨.obj o, hnet, fun _ => rfl, rfl, rfl, rfl⟩
        | some f =>
          rw [hh] at hr
          dsimp only at hr
          have hfmem : f ∈ allocateIps (b0 ++ ".") (ipKeys c.ipCounts) 1 :=
            List.mem_of_mem_head? (Option.mem_def.mpr hh)
          have hfk : f ∉ ipKeys c.ipCounts :=
            allocateIps_fresh b0 _ 1 f hfmem
          have hcur : o.ipv4_address.getD "" ∈ ipKeys c.ipCounts :=
            getCount_pos_mem _ _ (by omega)
          have hfo : o.ipv4_address ≠ some f := by
            rw [jsTruthy_some _ hA]
            intro hcon
            exact hfk ((Option.some.inj hcon) ▸ hcur)
          rw [if_pos hfo] at hr
          have h' := Option.some.inj hr
          subst h'
          dsimp only
          refine ⟨.obj { o with ipv4_address := some f }, ?_,
            fun hcl => absurd hcl hvac, rfl, rfl, rfl⟩
          unfold setSvcNet
          rw [hnet]
          dsimp only
          rw [Option.map_some', setAssoc_nodup_mid done rest nk _ _ hnd]
      · rw [if_neg hgt] at hr
        have h' := Option.some.inj hr
        subst h'
        exact ⟨.obj o, hnet, fun _ => rfl, rfl, rfl, rfl⟩
    · rw [if_neg hA] at hr
      by_cases hB : jsTruthy o.ipv4Address
      · rw [if_pos hB] at hr
        by_cases hgt : getCount c.ipCounts (o.ipv4Address.getD "") > 1
        · rw [if_pos hgt] at hr
          have hvac : netClean c0 (.obj o) → False := by
            intro hcl
            have h1 := hle _ (hcl.2 hA hB)
            omega
          cases hh : (allocateIps (b0 ++ ".") (ipKeys c.ipCounts) 1).head? with
          | none =>
            rw [hh] at hr
            have h' := Option.some.inj hr
            subst h'
            exact ⟨.obj o, hnet, fun _ => rfl, rfl, rfl, rfl⟩
          | some f =>
            rw [hh] at hr
            dsimp only at hr
            have hfmem : f ∈ allocateIps (b0 ++ ".") (ipKeys c.ipCounts) 1 :=
              List.mem_of_mem_head? (Option.mem_def.mpr hh)
            have hfk : f ∉ ipKeys c.ipCounts :=
              allocateIps_fresh b0 _ 1 f hfmem
            have hcur : o.ipv4Address.getD "" ∈ ipKeys c.ipCounts :=
              getCount_pos_mem _ _ (by omega)
            have hfo : o.ipv4Address ≠ some f := by
              rw [jsTruthy_some _ hB]
              intro hcon
              exact hfk ((Option.some.inj hcon) ▸ hcur)
            rw [if_pos hfo] at hr
            have h' := Option.some.inj hr
            subst h'
            dsimp only
            refine ⟨.obj { o with ipv4Address := some f }, ?_,
              fun hcl => absurd hcl hvac, ?_, ?_, ?_⟩
            · unfold setSvcNet
              rw [hnet]
              dsimp only
              rw [Option.map_some', setAssoc_nodup_mid done rest nk _ _ hnd]
            · rfl
            · rfl
            · rfl
        · rw [if_neg hgt] at hr
          have h' := Option.some.inj hr
          subst h'
          exact ⟨.obj o, hnet, fun _ => rfl, rfl, rfl, rfl⟩
      · rw [if_neg hB] at hr
        have h' := Option.some.inj hr
        subst h'
        exact ⟨.obj o, hnet, fun _ => rfl, rfl, rfl, rfl⟩

theorem netFold_attach (c0 : Census) (b0 : String) :
    ∀ (rest done : List (String × NetVal)) (c : Census) (svc : Service)
      (m : MapperService) (r : Census × Service × MapperService),
      rest.foldl
        (fun acc p =>
          acc.bind (fun s => netStep (b0 ++ ".") s.1 s.2.1 s.2.2 p.1 p.2))
        (some (c, svc, m)) = some r →
      svc.networks = some (done ++ rest) →
      ((done ++ rest).map (·.1)).Nodup →
      IpLe c0 c →
      ∃ rest', r.2.1.networks = some (done ++ rest') ∧
        List.Forall₂ (attachKeep c0) rest rest' := by
  intro rest
  induction rest with
  | nil =>
    intro done c svc m r hr hnet hnd hle
    have h' : (c, svc, m) = r := Option.some.inj hr
    subst h'
    exact ⟨[], hnet, List.Forall₂.nil⟩
  | cons p rest ih =>
    intro done c svc m r hr hnet hnd hle
    rw [List.foldl_cons] at hr
    simp only [Option.some_bind] at hr
    cases hs : netStep (b0 ++ ".") c svc m p.1 p.2 with
    | none =>
      rw [hs] at hr
      rw [netFold_none] at hr
      exact Option.noConfusion hr
    | some s1 =>
      rw [hs] at hr
      have hr' : rest.foldl
          (fun acc q =>
            acc.bind (fun s => netStep (b0 ++ ".") s.1 s.2.1 s.2.2 q.1 q.2))
          (some (s1.1, s1.2.1, s1.2.2)) = some r := hr
      obtain ⟨nv', hnets1, hkeep, hsn1, hcm1, hpt1⟩ :=
        netStep_attach c0 b0 c svc m p.1 p.2 done rest s1
          (by rw [← hs]) (by rw [hnet]) hnd hle
      have hle1 : IpLe c0 s1.1 :=
        netStep_IpLe c0 b0 c svc m p.1 p.2 s1 (by rw [← hs]) hle
      have hnet2 : s1.2.1.networks
          = some ((done ++ [(p.1, nv')]) ++ rest) := by
        rw [hnets1]
        simp
      have hnd2 : (((done ++ [(p.1, nv')]) ++ rest).map (·.1)).Nodup := by
        have hsame : ((done ++ [(p.1, nv')]) ++ rest).map (·.1)
            = ((done ++ p :: rest)).map (·.1) := by
          simp
        rw [hsame]
        exact hnd
      obtain ⟨rest', hnetsr, hfar⟩ := ih (done ++ [(p.1, nv')]) s1.1 s1.2.1
        s1.2.2 r hr' hnet2 hnd2 hle1
      refine ⟨(p.1, nv') :: rest', ?_, ?_⟩
      · rw [hnetsr]
        simp
      · refine List.Forall₂.cons ⟨rfl, ?_⟩ hfar
        intro hcl
        show nv' = p.2
        exact hkeep hcl

theorem fixService_attach (c0 : Census) (b0 : String) (c : Census)
    (svc : Service) (r : Census × Service × MapperService)
    (h : fixService (b0 ++ ".") c svc = some r) (hle : IpLe c0 c) :
    ∀ l, svc.networks = some l → (l.map (·.1)).Nodup →
      ∃ l', r.2.1.networks = some l' ∧
        List.Forall₂ (attachKeep c0) l l' := by
  intro l hl hnd
  unfold fixService at h
  dsimp only at h
  have hnw : (fixPorts c svc).2.1.networks = svc.networks :=
    fixPorts_networks c svc
  cases hn : (fixPorts c svc).2.1.networks with
  | none =>
    rw [hnw, hl] at hn
    exact Option.noConfusion hn
  | some nets =>
    have hln : l = nets := by
      rw [hnw, hl] at hn
      exact Option.some.inj hn
    subst hln
    rw [hn] at h
    dsimp only at h
    have hiple : IpLe c0 (fixPorts c svc).1 :=
      IpLe_of_ipCounts_eq c0 c _ (fixPorts_ipCounts c svc) hle
    obtain ⟨rest', hnetsr, hfar⟩ := netFold_attach c0 b0 l []
      (fixPorts c svc).1 (fixPorts c svc).2.1
      { mapperCopy svc with ports := some (fixPorts c svc).2.2 } r h
      (by rw [hn, List.nil_append]) (by rw [List.nil_append]; exact hnd)
      hiple
    rw [List.nil_append] at hnetsr
    exact ⟨rest', hnetsr, hfar⟩

theorem svcFold_attach (c0 : Census) (b0 : String) :
    ∀ (svcs : List (String × Service)) (c : Census)
      (accS : List (String × Service)) (accM : List (String × MapperService))
      (r : Census × List (String × Service) × List (String × MapperService)),
      svcs.foldl (svcStep (b0 ++ ".")) (some (c, accS, accM)) = some r →
      IpLe c0 c →
      ∃ outS, r.2.1 = accS ++ outS ∧
        List.Forall₂ (fun (q q' : String × Service) =>
          q'.1 = q.1 ∧ ∀ l, q.2.networks = some l → (l.map (·.1)).Nodup →
            ∃ l', q'.2.networks = some l' ∧
              List.Forall₂ (attachKeep c0) l l')
          svcs outS := by
  intro svcs
  induction svcs with
  | nil =>
    intro c accS accM r h _
    have h' := Option.some.inj h
    rw [← h']
    exact ⟨[], by simp, List.Forall₂.nil⟩
  | cons q t ih =>
    intro c accS accM r h hle
    rw [List.foldl_cons] at h
    have hstep : svcStep (b0 ++ ".") (some (c, accS, accM)) q
        = (fixService (b0 ++ ".") c q.2).map (fun w =>
            (w.1, accS ++ [(q.1, w.2.1)], accM ++ [(q.1, w.2.2)])) := rfl
    rw [hstep] at h
    cases hs : fixService (b0 ++ ".") c q.2 with
    | none =>
      rw [hs, Option.map_none', svcFold_none] at h
      exact Option.noConfusion h
    | some s1 =>
      rw [hs, Option.map_some'] at h
      obtain ⟨outS', hout, hfa⟩ := ih s1.1 (accS ++ [(q.1, s1.2.1)]) _ r h
        (fixService_IpLe c0 b0 c q.2 s1 hs hle)
      refine ⟨(q.1, s1.2.1) :: outS', by rw [hout]; simp, ?_⟩
      refine List.Forall₂.cons ⟨rfl, ?_⟩ hfa
      intro l hl hnd
      exact fixService_attach c0 b0 c q.2 s1 hs hle l hl hnd

theorem fixProject_attach (c0 : Census) (b0 : String) (c : Census)
    (item : Item) (r : Census × Compose × MapperEntry)
    (h : fixProject (b0 ++ ".") c item = some r) (hle : IpLe c0 c) :
    List.Forall₂ (fun (q q' : String × Service) =>
        q'.1 = q.1 ∧ ∀ l, q.2.networks = some l → (l.map (·.1)).Nodup →
          ∃ l', q'.2.networks = some l' ∧
            List.Forall₂ (attachKeep c0) l l')
      (item.obj.services.getD []) (r.2.1.services.getD []) := by
  rw [fixProject_eq] at h
  cases hstep : (item.obj.services.getD []).foldl (svcStep (b0 ++ "."))
      (some (c, ([] : List (String × Service)),
        ([] : List (String × MapperService)))) with
  | none =>
    rw [hstep] at h
    exact Option.noConfusion h
  | some s =>
    rw [hstep, Option.map_some'] at h
    have h' := Option.some.inj h
    obtain ⟨outS, hout, hfa⟩ := svcFold_attach c0 b0
      (item.obj.services.getD []) c [] [] s hstep hle
    rw [← h']
    dsimp only
    rw [pruneNetworks_services, augmentNetworks_services,
      ensureDefaultNetworks_services]
    cases hsv : item.obj.services with
    | none =>
      dsimp only
      rw [hsv]
      exact List.Forall₂.nil
    | some svcs =>
      dsimp only
      rw [Option.getD_some]
      rw [List.nil_append] at hout
      rw [hout]
      have hl : (item.obj.services.getD []) = svcs := by
        rw [hsv]
        rfl
      rw [hl] at hfa
      exact hfa

theorem tickFold_attach {τ : Type} [DecidableEq τ] (c0 : Census)
    (stringify : Compose → τ) (b0 : String) :
    ∀ (items : List Item) (c : Census) (files : List (String × τ))
      (wd : List String) (fi : List (String × Compose)) (mp : Mapper)
      (s : Census × List (String × τ) × List String ×
        List (String × Compose) × Mapper),
      items.foldl (tickStep stringify (b0 ++ ".")) (some (c, files, wd, fi, mp))
        = some s →
      IpLe c0 c →
      ∃ outF, s.2.2.2.1 = fi ++ outF ∧
        List.Forall₂ (fun (it : Item) (pr : String × Compose) =>
          pr.1 = it.dir ∧
          List.Forall₂ (fun (q q' : String × Service) =>
            q'.1 = q.1 ∧ ∀ l, q.2.networks = some l → (l.map (·.1)).Nodup →
              ∃ l', q'.2.networks = some l' ∧
                List.Forall₂ (attachKeep c0) l l')
            (it.obj.services.getD []) (pr.2.services.getD []))
          items outF := by
  intro items
  induction items with
  | nil =>
    intro c files wd fi mp s h _
    have h' := Option.some.inj h
    rw [← h']
    exact ⟨[], by simp, List.Forall₂.nil⟩
  | cons it t ih =>
    intro c files wd fi mp s h hle
    rw [List.foldl_cons] at h
    have hstep : tickStep stringify (b0 ++ ".") (some (c, files, wd, fi, mp)) it
        = (fixProject (b0 ++ ".") c it).map (fun r =>
            let wr := writeCompose stringify (lookupFile files it.dir) r.2.1
            let files' := match wr with
              | some u => files.map (fun p => if p.1 == it.dir then (p.1, u) else p)
              | none => files
            (r.1, files', wd ++ (match wr with | some _ => [it.dir] | none => []),
              fi ++ [(it.dir, r.2.1)], mp ++ [(it.dir, r.2.2)])) := rfl
    rw [hstep] at h
    cases hs : fixProject (b0 ++ ".") c it with
    | none =>
      rw [hs, Option.map_none', tickFold_none] at h
      exact Option.noConfusion h
    | some r =>
      rw [hs, Option.map_some'] at h
      have hfa1 := fixProject_attach c0 b0 c it r hs hle
      have hiple := (fixProject_keep c0 b0 c it r hs hle).2
      obtain ⟨outF', hout, hfa⟩ := ih r.1 _ _ (fi ++ [(it.dir, r.2.1)]) _ s h
        hiple
      refine ⟨(it.dir, r.2.1) :: outF', by rw [hout]; simp, ?_⟩
      exact List.Forall₂.cons ⟨rfl, hfa1⟩ hfa


/-- C3: singleton preservation.  On a successful tick (no uncaught scan
error) with a dotted subnet base: (i) every port entry whose rewritable
host port has pre-tick census multiplicity ≤ 1 appears byte-identically
(as `String(entry)`) in the post-tick manifests — outputs are matched
pointwise to pre-tick entries; (ii) every service all of whose network
attachments carry census-singleton IPv4 addresses keeps its `networks`
object byte-identical; (iii) per attachment: inside every service (its
attachment keys being distinct, as the keys of a YAML/JS mapping are),
each network attachment whose own declared IPv4 is a pre-tick census
singleton — or which declares no IPv4 — is kept byte-identical, even
when a sibling attachment of the same service is duplicated and
rewritten; only entries with census multiplicity > 1 are rewritten. -/
theorem C3_singleton_preservation {τ : Type} [DecidableEq τ]
    (parse : τ → Option Compose) (stringify : Compose → τ) (b0 : String)
    (ws : List (String × τ)) (mapperFile : Option Mapper)
    (hok : (scanAndFix parse stringify (b0 ++ ".") ws
      mapperFile).crashed = false) :
    List.Forall₂ (fun p s => (∀ h, entryHost p = some h →
        (passOne parse ws).1.hostCounts h ≤ 1) → s = p.jsString)
      (itemsEntries (sortByDir (passOne parse ws).2))
      (allPortStrings (scanAndFix parse stringify (b0 ++ ".") ws
        mapperFile).fixedItems) ∧
    List.Forall₂ (fun (it : Item) (pr : String × Compose) =>
        pr.1 = it.dir ∧
        List.Forall₂ (fun (q q' : String × Service) =>
          q'.1 = q.1 ∧ (svcIpClean (passOne parse ws).1 q.2
            → q'.2.networks = q.2.networks))
          (it.obj.services.getD []) (pr.2.services.getD []))
      (sortByDir (passOne parse ws).2)
      (scanAndFix parse stringify (b0 ++ ".") ws mapperFile).fixedItems ∧
    List.Forall₂ (fun (it : Item) (pr : String × Compose) =>
        pr.1 = it.dir ∧
        List.Forall₂ (fun (q q' : String × Service) =>
          q'.1 = q.1 ∧ ∀ l, q.2.networks = some l → (l.map (·.1)).Nodup →
            ∃ l', q'.2.networks = some l' ∧
              List.Forall₂ (attachKeep (passOne parse ws).1) l l')
          (it.obj.services.getD []) (pr.2.services.getD []))
      (sortByDir (passOne parse ws).2)
      (scanAndFix parse stringify (b0 ++ ".") ws mapperFile).fixedItems := by
  refine ⟨?_, ?_, ?_⟩
  · rw [tick_outputs parse stringify (b0 ++ ".") ws mapperFile hok]
    exact portPass_keep_forall2 (passOne parse ws).1
      (itemsEntries (sortByDir (passOne parse ws).2)) (passOne parse ws).1
      (fun v => le_refl _)
  · obtain ⟨s, hfold, hfix, -⟩ :=
      tick_fold_of_ok parse stringify (b0 ++ ".") ws mapperFile hok
    obtain ⟨outF, hout, hfa⟩ := tickFold_keep (passOne parse ws).1 stringify b0
      (sortByDir (passOne parse ws).2) (passOne parse ws).1 ws [] [] [] s hfold
      (fun k hk => hk)
    rw [hfix, hout, List.nil_append]
    exact hfa
  · obtain ⟨s, hfold, hfix, -⟩ :=
      tick_fold_of_ok parse stringify (b0 ++ ".") ws mapperFile hok
    obtain ⟨outF, hout, hfa⟩ := tickFold_attach (passOne parse ws).1 stringify
      b0 (sortByDir (passOne parse ws).2) (passOne parse ws).1 ws [] [] [] s
      hfold (fun k hk => hk)
    rw [hfix, hout, List.nil_append]
    exact hfa

/-- Concrete instantiation of `C3_singleton_preservation` (empty
workspace), discharging its crash-freedom hypothesis by evaluation. -/
theorem C3_witness :
    List.Forall₂ (fun p s => (∀ h, entryHost p = some h →
        (passOne (fun _ => none) ([] : List (String × Bool))).1.hostCounts h ≤ 1)
        → s = p.jsString)
      (itemsEntries (sortByDir
        (passOne (fun _ => none) ([] : List (String × Bool))).2))
      (allPortStrings (scanAndFix (fun _ => none) (fun _ => true)
        ("10.0.0" ++ ".") ([] : List (String × Bool)) none).fixedItems) :=
  (C3_singleton_preservation (fun _ => none) (fun _ => true) "10.0.0" []
    none rfl).1

/-! ## C2 — pass-one inclusion, directory uniqueness, membership glue -/

